import Mathlib

/-!
# Othello search engine (`src/OthelloAI.cpp`)

Shallow embedding of the board, the static evaluator, the alpha-beta search and the
iterative-deepening driver of `OthelloAI.cpp`, followed by the properties proved about them.

Modelling conventions

* C++ `int` values are Lean `Int`s.  The only constants of the machine representation that the
  program itself uses are `INT_MIN` and `INT_MAX`; `evaluate_abs_le` shows that every score
  returned by the evaluator lies strictly between them, so the comparisons of the search against
  these two constants behave as they do on 32-bit integers.
* The grid is always built 8 x 8 by the constructor, hence `Fin 8 → Fin 8 → Piece`.
* `std::mt19937` + `std::shuffle` are an explicit random-generator state `G` and a function
  `sh : G → List Move → List Move × G`; theorems assume only that the shuffled vector is a
  permutation of its input.
* The wall clock is an input: `elapsed k` is the value of
  `duration_cast<milliseconds>(currentTime - startTime)` read after depth level `k`.
* `depth` of `minimax` is a `Nat`: every call in the program passes `depth >= 0`.
-/

namespace Othello

/-! ## Data model -/

/-- Source: `enum class PlayerColor`. -/
inductive PlayerColor where
  | NONE
  | BLACK
  | WHITE
  deriving DecidableEq, Repr

/-- Source: `enum class Piece`. -/
inductive Piece where
  | EMPTY
  | BLACK_PIECE
  | WHITE_PIECE
  deriving DecidableEq, Repr

/-- Source: `playerToPiece`. -/
def playerToPiece (p : PlayerColor) : Piece :=
  if p = PlayerColor.BLACK then Piece.BLACK_PIECE
  else if p = PlayerColor.WHITE then Piece.WHITE_PIECE
  else Piece.EMPTY

/-- Source: `getOpponent`. -/
def getOpponent (p : PlayerColor) : PlayerColor :=
  if p = PlayerColor.BLACK then PlayerColor.WHITE else PlayerColor.BLACK

/-- Source: `struct Move`. -/
structure Move where
  row : Int
  col : Int
  deriving DecidableEq, Repr

/-- Source: `Move::isValid`. -/
def Move.isValid (m : Move) : Bool := m.row != -1 && m.col != -1

/-- Source: `std::numeric_limits<int>::min()`. -/
def INT_MIN : Int := -2147483648

/-- Source: `std::numeric_limits<int>::max()`. -/
def INT_MAX : Int := 2147483647

/-- Source: `Board::pieceSquareTable`. -/
def pieceSquareTable : List (List Int) :=
  [[ 500, -150, 30, 10, 10, 30, -150,  500],
   [-150, -250,  0,  0,  0,  0, -250, -150],
   [  30,    0,  1,  2,  2,  1,    0,   30],
   [  10,    0,  2, 16, 16,  2,    0,   10],
   [  10,    0,  2, 16, 16,  2,    0,   10],
   [  30,    0,  1,  2,  2,  1,    0,   30],
   [-150, -250,  0,  0,  0,  0, -250, -150],
   [ 500, -150, 30, 10, 10, 30, -150,  500]]

/-- The entry `pieceSquareTable[r][c]`. -/
def tableAt (r c : Int) : Int := (pieceSquareTable.getD r.toNat []).getD c.toNat 0

/-- Source: `class Board`, field `grid` (the table is the constant above). -/
structure Board where
  grid : Fin 8 → Fin 8 → Piece

namespace Board

/-- Source: `Board::isWithinBounds`. -/
def isWithinBounds (r c : Int) : Bool :=
  decide (0 ≤ r) && decide (r < 8) && decide (0 ≤ c) && decide (c < 8)

/-- The read `grid[r][c]`.  Every read in the source is inside the bounds (guarded by
`isWithinBounds` or by a loop over `0 .. BOARD_SIZE-1`); the `EMPTY` of the other branch is never
observed by the embedded functions. -/
def cell (b : Board) (r c : Int) : Piece :=
  if h : 0 ≤ r ∧ r < 8 ∧ 0 ≤ c ∧ c < 8 then
    b.grid ⟨r.toNat, by omega⟩ ⟨c.toNat, by omega⟩
  else Piece.EMPTY

/-- The write `grid[r][c] = p`. -/
def setCell (b : Board) (r c : Int) (p : Piece) : Board :=
  ⟨fun i j => if (i.val : Int) = r ∧ (j.val : Int) = c then p else b.grid i j⟩

/-- The `while` loop of `getFlipsForMove`: walks from `(r, c)` in direction `(dr, dc)` over
opponent discs, collecting them.  The fuel bounds the number of iterations; `BOARD_SIZE` is never
exhausted on an 8 x 8 grid. -/
def walkLine (b : Board) (opponentPiece : Piece) (dr dc : Int) :
    Nat → Int → Int → List Move → Int × Int × List Move
  | 0, r, c, line => (r, c, line)
  | fuel + 1, r, c, line =>
    if isWithinBounds r c && decide (b.cell r c = opponentPiece) then
      walkLine b opponentPiece dr dc fuel (r + dr) (c + dc) (line ++ [⟨r, c⟩])
    else (r, c, line)

/-- One iteration of the direction loops of `getFlipsForMove`: the flips of one line. -/
def lineFlips (b : Board) (playerPiece opponentPiece : Piece) (r_start c_start : Int)
    (d : Int × Int) : List Move :=
  let res := walkLine b opponentPiece d.1 d.2 8 (r_start + d.1) (c_start + d.2) []
  if isWithinBounds res.1 res.2.1 && decide (b.cell res.1 res.2.1 = playerPiece)
      && !res.2.2.isEmpty then res.2.2
  else []

/-- The pairs `(dr, dc)` visited by the two nested direction loops, in loop order. -/
def directions : List (Int × Int) :=
  [(-1, -1), (-1, 0), (-1, 1), (0, -1), (0, 1), (1, -1), (1, 0), (1, 1)]

/-- Source: `Board::getFlipsForMove`. -/
def getFlipsForMove (b : Board) (r_start c_start : Int) (player : PlayerColor) : List Move :=
  if !isWithinBounds r_start c_start || decide (b.cell r_start c_start ≠ Piece.EMPTY) then []
  else
    let playerPiece := playerToPiece player
    let opponentPiece := playerToPiece (getOpponent player)
    directions.foldl
      (fun allFlips d => allFlips ++ lineFlips b playerPiece opponentPiece r_start c_start d) []

/-- The indices `0 .. BOARD_SIZE-1` of one loop. -/
def indices : List Int := [0, 1, 2, 3, 4, 5, 6, 7]

/-- The cells `(r, c)` in the order of the nested loops `for r ... for c ...`. -/
def allCells : List (Int × Int) :=
  indices.foldr (fun r acc => indices.map (fun c => (r, c)) ++ acc) []

/-- Body of the nested loops of `getValidMoves` at the cell `rc`. -/
def validMoveStep (b : Board) (player : PlayerColor) (validMoves : List Move) (rc : Int × Int) :
    List Move :=
  if b.cell rc.1 rc.2 = Piece.EMPTY then
    if !(b.getFlipsForMove rc.1 rc.2 player).isEmpty then validMoves ++ [⟨rc.1, rc.2⟩]
    else validMoves
  else validMoves

/-- Source: `Board::getValidMoves`. -/
def getValidMoves (b : Board) (player : PlayerColor) : List Move :=
  allCells.foldl (validMoveStep b player) []

/-- Source: `Board::applyMove`. -/
def applyMove (b : Board) (move : Move) (player : PlayerColor) (flips : List Move) : Board :=
  flips.foldl (fun g p => g.setCell p.row p.col (playerToPiece player))
    (b.setCell move.row move.col (playerToPiece player))

/-- Source: `Board::getScore`. -/
def getScore (b : Board) : Int × Int :=
  allCells.foldl
    (fun s rc =>
      if b.cell rc.1 rc.2 = Piece.BLACK_PIECE then (s.1 + 1, s.2)
      else if b.cell rc.1 rc.2 = Piece.WHITE_PIECE then (s.1, s.2 + 1)
      else s) (0, 0)

/-- Source: `Board::isGameOver`. -/
def isGameOver (b : Board) : Bool :=
  (b.getValidMoves PlayerColor.BLACK).isEmpty && (b.getValidMoves PlayerColor.WHITE).isEmpty

/-- The four counters filled by the first loop of `evaluate`. -/
structure Tally where
  playerDiscs : Int
  opponentDiscs : Int
  playerPieceSquareScore : Int
  opponentPieceSquareScore : Int

/-- Body of the first loop of `evaluate`. -/
def tallyStep (b : Board) (playerPiece opponentPiece : Piece) (t : Tally) (rc : Int × Int) :
    Tally :=
  if b.cell rc.1 rc.2 = playerPiece then
    { t with playerDiscs := t.playerDiscs + 1,
             playerPieceSquareScore := t.playerPieceSquareScore + tableAt rc.1 rc.2 }
  else if b.cell rc.1 rc.2 = opponentPiece then
    { t with opponentDiscs := t.opponentDiscs + 1,
             opponentPieceSquareScore := t.opponentPieceSquareScore + tableAt rc.1 rc.2 }
  else t

/-- The first loop of `evaluate`. -/
def tally (b : Board) (playerPiece opponentPiece : Piece) : Tally :=
  allCells.foldl (tallyStep b playerPiece opponentPiece) ⟨0, 0, 0, 0⟩

/-- Lines 251-258 of `evaluate`: the weight of the disc differential.  `BOARD_SIZE * BOARD_SIZE *
0.75` is the double `48.0` and `... * 0.25` is `16.0`, both exact, and `totalDiscs <= 64` converts
exactly, so the two floating comparisons are the integer comparisons below. -/
def discDiffWeight (totalDiscs : Int) : Int :=
  if totalDiscs > 48 then 100
  else if totalDiscs < 16 then 5
  else 15

/-- One of the four corner statements of `evaluate`; `k` is `(playerCorners, opponentCorners)`. -/
def cornerStep (b : Board) (playerPiece opponentPiece : Piece) (k : Int × Int) (rc : Int × Int) :
    Int × Int :=
  if b.cell rc.1 rc.2 = playerPiece then (k.1 + 1, k.2)
  else if b.cell rc.1 rc.2 = opponentPiece then (k.1, k.2 + 1)
  else k

/-- The four corners in the order `evaluate` inspects them. -/
def corners : List (Int × Int) := [(0, 0), (0, 7), (7, 0), (7, 7)]

/-- Source: `Board::evaluate`. -/
def evaluate (b : Board) (player : PlayerColor) : Int :=
  let opponent := getOpponent player
  let playerPiece := playerToPiece player
  let opponentPiece := playerToPiece opponent
  let t := b.tally playerPiece opponentPiece
  let heuristicScore : Int := 0 + (t.playerPieceSquareScore - t.opponentPieceSquareScore)
  let totalDiscs := t.playerDiscs + t.opponentDiscs
  let heuristicScore := heuristicScore
    + (t.playerDiscs - t.opponentDiscs) * discDiffWeight totalDiscs
  let k := corners.foldl (cornerStep b playerPiece opponentPiece) (0, 0)
  let heuristicScore := heuristicScore + (k.1 - k.2) * 800
  let playerMoves : Int := (b.getValidMoves player).length
  let opponentMoves : Int := (b.getValidMoves opponent).length
  let heuristicScore :=
    if playerMoves + opponentMoves ≠ 0 then heuristicScore + 50 * (playerMoves - opponentMoves)
    else if t.playerDiscs > t.opponentDiscs then heuristicScore + 20000
    else if t.opponentDiscs > t.playerDiscs then heuristicScore - 20000
    else heuristicScore
  if t.playerDiscs = 0 ∧ playerMoves = 0 ∧ totalDiscs > 4 then -50000
  else if t.opponentDiscs = 0 ∧ opponentMoves = 0 ∧ totalDiscs > 4 then 50000
  else heuristicScore

/-- Source: the constructor `Board::Board()`, the start position. -/
def initial : Board :=
  ((((⟨fun _ _ => Piece.EMPTY⟩ : Board).setCell 3 3 Piece.WHITE_PIECE).setCell 3 4
    Piece.BLACK_PIECE).setCell 4 3 Piece.BLACK_PIECE).setCell 4 4 Piece.WHITE_PIECE

end Board

/-! ## Search -/

section Search

variable {G : Type}

/-- The maximizing `for` loop of `AIPlayer::minimax`; `child` is the recursive call on the
successor board with the current window, threaded through the generator state. -/
def maxLoop (child : Board → Int → Int → G → Int × G) (board : Board)
    (currentPlayerTurn : PlayerColor) : List Move → Int → Int → Int → G → Int × G
  | [], maxEval, _, _, g => (maxEval, g)
  | move :: rest, maxEval, alpha, beta, g =>
    let flips := board.getFlipsForMove move.row move.col currentPlayerTurn
    let nextBoard := board.applyMove move currentPlayerTurn flips
    let r := child nextBoard alpha beta g
    let maxEval := max maxEval r.1
    let alpha := max alpha r.1
    if beta ≤ alpha then (maxEval, r.2)
    else maxLoop child board currentPlayerTurn rest maxEval alpha beta r.2

/-- The minimizing `for` loop of `AIPlayer::minimax`. -/
def minLoop (child : Board → Int → Int → G → Int × G) (board : Board)
    (currentPlayerTurn : PlayerColor) : List Move → Int → Int → Int → G → Int × G
  | [], minEval, _, _, g => (minEval, g)
  | move :: rest, minEval, alpha, beta, g =>
    let flips := board.getFlipsForMove move.row move.col currentPlayerTurn
    let nextBoard := board.applyMove move currentPlayerTurn flips
    let r := child nextBoard alpha beta g
    let minEval := min minEval r.1
    let beta := min beta r.1
    if beta ≤ alpha then (minEval, r.2)
    else minLoop child board currentPlayerTurn rest minEval alpha beta r.2

/-- Source: `AIPlayer::minimax`.  Returns the score and the generator state after the call. -/
def minimax (sh : G → List Move → List Move × G) (board : Board) (depth : Nat)
    (alpha beta : Int) (maximizingPlayer : Bool)
    (aiPlayerPerspective currentPlayerTurn : PlayerColor) (g : G) : Int × G :=
  match depth with
  | 0 => (board.evaluate aiPlayerPerspective, g)
  | d + 1 =>
    if board.isGameOver then (board.evaluate aiPlayerPerspective, g)
    else
      let validMoves := board.getValidMoves currentPlayerTurn
      if validMoves.isEmpty then
        minimax sh board d alpha beta (!maximizingPlayer) aiPlayerPerspective
          (getOpponent currentPlayerTurn) g
      else
        let s := sh g validMoves
        if maximizingPlayer then
          maxLoop
            (fun nextBoard a b g1 =>
              minimax sh nextBoard d a b false aiPlayerPerspective
                (getOpponent currentPlayerTurn) g1)
            board currentPlayerTurn s.1 INT_MIN alpha beta s.2
        else
          minLoop
            (fun nextBoard a b g1 =>
              minimax sh nextBoard d a b true aiPlayerPerspective
                (getOpponent currentPlayerTurn) g1)
            board currentPlayerTurn s.1 INT_MAX alpha beta s.2

/-- The inner `for` loop of `findBestMoveIterativeDeepening` (one depth level): the state is
`bestMoveThisIteration`, `bestScoreThisIteration` and the generator. -/
def searchLevel (sh : G → List Move → List Move × G) (board : Board) (player : PlayerColor)
    (currentDepth : Nat) : List Move → Move → Int → G → (Move × Int) × G
  | [], bestMove, bestScore, g => ((bestMove, bestScore), g)
  | move :: rest, bestMove, bestScore, g =>
    let flips := board.getFlipsForMove move.row move.col player
    let nextBoard := board.applyMove move player flips
    let r := minimax sh nextBoard (currentDepth - 1) INT_MIN INT_MAX false player
      (getOpponent player) g
    if r.1 > bestScore then searchLevel sh board player currentDepth rest move r.1 r.2
    else searchLevel sh board player currentDepth rest bestMove bestScore r.2

/-- The outer `for (currentDepth = 1; currentDepth <= maxDepth; ++currentDepth)` loop.  The first
argument bounds the number of iterations; `maxDepth.toNat` is enough (`deepen_fuel`). -/
def deepen (sh : G → List Move → List Move × G) (maxDepth timeLimitPerMove : Int)
    (elapsed : Nat → Int) (board : Board) (player : PlayerColor) (validMoves : List Move) :
    Nat → Nat → Move → G → Move × G
  | 0, _, bestMoveOverall, g => (bestMoveOverall, g)
  | fuel + 1, currentDepth, bestMoveOverall, g =>
    if (currentDepth : Int) ≤ maxDepth then
      let lvl := searchLevel sh board player currentDepth validMoves ⟨-1, -1⟩ INT_MIN g
      let bestMoveOverall := if lvl.1.1.isValid then lvl.1.1 else bestMoveOverall
      if elapsed currentDepth ≥ timeLimitPerMove ∧ (currentDepth : Int) < maxDepth then
        (bestMoveOverall, lvl.2)
      else
        deepen sh maxDepth timeLimitPerMove elapsed board player validMoves fuel
          (currentDepth + 1) bestMoveOverall lvl.2
    else (bestMoveOverall, g)

/-- Source: `AIPlayer::findBestMoveIterativeDeepening`.  `maxDepth` and `timeLimitPerMove` are the
fields of the player object, `g` is its generator; the assignment to the never-read field
`originalAIPlayer` is left out.  `validMoves[0]` of the shuffled vector is `headD`, whose default
is not used when the shuffle returns a permutation. -/
def findBestMoveIterativeDeepening (sh : G → List Move → List Move × G)
    (maxDepth timeLimitPerMove : Int) (elapsed : Nat → Int) (board : Board)
    (player : PlayerColor) (g : G) : Move × G :=
  let validMoves := board.getValidMoves player
  match validMoves with
  | [] => (⟨-1, -1⟩, g)
  | [only] => (only, g)
  | _ :: _ :: _ =>
    let s := sh g validMoves
    let bestMoveOverall := s.1.headD ⟨-1, -1⟩
    deepen sh maxDepth timeLimitPerMove elapsed board player s.1 maxDepth.toNat 1
      bestMoveOverall s.2

end Search

/-! ## Reference definitions taken from the specification -/

/-- Maximum of a list of scores (of a non-empty list; `0` stands for the empty one). -/
def maxOfList : List Int → Int
  | [] => 0
  | x :: xs => xs.foldl max x

/-- Minimum of a list of scores (of a non-empty list; `0` stands for the empty one). -/
def minOfList : List Int → Int
  | [] => 0
  | x :: xs => xs.foldl min x

/-- The unpruned minimax recursion in the words of the specification: evaluation at depth 0 or at
a finished game, a forced pass costs one ply and hands the turn over, otherwise the maximum over
the children when the mover is the perspective side and the minimum when it is not. -/
def fullMinimax (perspective : PlayerColor) : Nat → Board → PlayerColor → Int
  | 0, board, _ => board.evaluate perspective
  | d + 1, board, mover =>
    if board.isGameOver then board.evaluate perspective
    else if (board.getValidMoves mover).isEmpty then
      fullMinimax perspective d board (getOpponent mover)
    else
      let children := (board.getValidMoves mover).map (fun move =>
        fullMinimax perspective d
          (board.applyMove move mover (board.getFlipsForMove move.row move.col mover))
          (getOpponent mover))
      if mover = perspective then maxOfList children else minOfList children

/-- The depth at which iterative deepening stops, in the words of the specification: the first
`d` in `1 .. maxDepth-1` whose clock check finds the budget used up, else `maxDepth`. -/
def stopDepth (maxDepth : Nat) (timeLimitPerMove : Int) (elapsed : Nat → Int) : Nat :=
  ((List.range' 1 (maxDepth - 1)).find? (fun d => decide (timeLimitPerMove ≤ elapsed d))).getD
    maxDepth

/-- Number of cells of `cells` holding `piece`. -/
def countIn (b : Board) (piece : Piece) (cells : List (Int × Int)) : Int :=
  ((cells.filter (fun rc => decide (b.cell rc.1 rc.2 = piece))).length : Int)

/-- Sum of the table entries of the cells of `cells` holding `piece`. -/
def sumIn (b : Board) (piece : Piece) (cells : List (Int × Int)) : Int :=
  ((cells.filter (fun rc => decide (b.cell rc.1 rc.2 = piece))).map
    (fun rc => tableAt rc.1 rc.2)).sum

/-- Number of discs of `piece` on the board. -/
def discCount (b : Board) (piece : Piece) : Int := countIn b piece Board.allCells

/-- Sum of `pieceSquareTable[r][c]` over the discs of `piece`. -/
def squareSum (b : Board) (piece : Piece) : Int := sumIn b piece Board.allCells

/-- Number of corner cells holding `piece`. -/
def cornerCount (b : Board) (piece : Piece) : Int := countIn b piece Board.corners

/-- Number of legal moves of `p`. -/
def mobility (b : Board) (p : PlayerColor) : Int := ((b.getValidMoves p).length : Int)

/-- Discs of `p` minus discs of its opponent. -/
def discDifferential (b : Board) (p : PlayerColor) : Int :=
  discCount b (playerToPiece p) - discCount b (playerToPiece (getOpponent p))

/-- Discs of `p` plus discs of its opponent. -/
def totalDiscs (b : Board) (p : PlayerColor) : Int :=
  discCount b (playerToPiece p) + discCount b (playerToPiece (getOpponent p))

/-- Positional term: table sum of `p` minus table sum of its opponent. -/
def positionalTerm (b : Board) (p : PlayerColor) : Int :=
  squareSum b (playerToPiece p) - squareSum b (playerToPiece (getOpponent p))

/-- Corner term: 800 per corner owned, opponent corners counted negatively. -/
def cornerTerm (b : Board) (p : PlayerColor) : Int :=
  800 * (cornerCount b (playerToPiece p) - cornerCount b (playerToPiece (getOpponent p)))

/-- Mobility term: 50 per legal move, opponent moves counted negatively. -/
def mobilityTerm (b : Board) (p : PlayerColor) : Int :=
  50 * (mobility b p - mobility b (getOpponent p))

/-- Terminal term: the disc-count comparison with magnitude 20000. -/
def terminalTerm (b : Board) (p : PlayerColor) : Int :=
  if discDifferential b p > 0 then 20000
  else if discDifferential b p < 0 then -20000
  else 0

/-- The zero-disc short-circuit against `p`: no disc, no move, more than 4 discs on the board. -/
abbrev sentinelLoss (b : Board) (p : PlayerColor) : Prop :=
  discCount b (playerToPiece p) = 0 ∧ mobility b p = 0 ∧ totalDiscs b p > 4

/-- The zero-disc short-circuit in favour of `p`. -/
abbrev sentinelWin (b : Board) (p : PlayerColor) : Prop :=
  discCount b (playerToPiece (getOpponent p)) = 0 ∧ mobility b (getOpponent p) = 0
    ∧ totalDiscs b p > 4

/-- The generator used in examples: no state, the vector is rotated by one position. -/
def rotateShuffle (g : Unit) (l : List Move) : List Move × Unit := (l.rotate 1, g)

/-- Example board: black discs fill row `blackRow`, white discs fill row `whiteRow`. -/
def twoRows (blackRow whiteRow : Nat) : Board :=
  ⟨fun i _ =>
    if i.val = blackRow then Piece.BLACK_PIECE
    else if i.val = whiteRow then Piece.WHITE_PIECE
    else Piece.EMPTY⟩

/-- Example board: black discs fill the rows above `blackRows`, white discs fill the rows from
`blackRows` up to (excluding) `blackRows + whiteRows`. -/
def bands (blackRows whiteRows : Nat) : Board :=
  ⟨fun i _ =>
    if i.val < blackRows then Piece.BLACK_PIECE
    else if i.val < blackRows + whiteRows then Piece.WHITE_PIECE
    else Piece.EMPTY⟩

/-- The board after `player` plays `move`: the copy / `getFlipsForMove` / `applyMove` idiom that
precedes every recursive call of the search. -/
abbrev playMove (board : Board) (player : PlayerColor) (move : Move) : Board :=
  board.applyMove move player (board.getFlipsForMove move.row move.col player)

/-- The recursion of `AIPlayer::minimax` with the shuffle and the two `break`s removed and the
`maximizingPlayer` flag kept as the code passes it: the value against which the pruned search is
measured. -/
def plainMinimax (perspective : PlayerColor) : Nat → Board → Bool → PlayerColor → Int
  | 0, board, _, _ => board.evaluate perspective
  | d + 1, board, maximizingPlayer, mover =>
    if board.isGameOver then board.evaluate perspective
    else if (board.getValidMoves mover).isEmpty then
      plainMinimax perspective d board (!maximizingPlayer) (getOpponent mover)
    else
      let children := (board.getValidMoves mover).map (fun move =>
        plainMinimax perspective d (playMove board mover move) (!maximizingPlayer)
          (getOpponent mover))
      if maximizingPlayer then maxOfList children else minOfList children

/-- What a fail-soft alpha-beta result `v` says about the true value `V` under the window
`(alpha, beta)`: at or below `alpha` it is an upper bound, at or above `beta` a lower bound, and
strictly inside the window it is exact. -/
def Sound (v V alpha beta : Int) : Prop :=
  (v ≤ alpha → V ≤ v) ∧ (beta ≤ v → v ≤ V) ∧ (alpha < v → v < beta → v = V)

/-- Score of the root move `m` at the depth level `currentDepth`: the unpruned value of the
position after `m`, searched `currentDepth - 1` plies with the opponent to move. -/
def levelScore (board : Board) (player : PlayerColor) (currentDepth : Nat) (m : Move) : Int :=
  plainMinimax player (currentDepth - 1) (playMove board player m) false (getOpponent player)

/-- The first level `d` in `currentDepth .. maxDepth-1` whose clock check finds the budget used
up, else `maxDepth`; `stopDepth` is `stopFrom 1`. -/
def stopFrom (currentDepth maxDepth : Nat) (timeLimitPerMove : Int) (elapsed : Nat → Int) : Nat :=
  ((List.range' currentDepth (maxDepth - currentDepth)).find?
    (fun d => decide (timeLimitPerMove ≤ elapsed d))).getD maxDepth

/-- Example board: a black disc on `(0,0)` and a white disc on `(0,1)`. -/
def cornerPair : Board :=
  ((⟨fun _ _ => Piece.EMPTY⟩ : Board).setCell 0 0 Piece.BLACK_PIECE).setCell 0 1
    Piece.WHITE_PIECE

/-- Example board with 16 discs: black on row 0 and on `(1,0) .. (1,3)`, white on
`(7,0) .. (7,3)`. -/
def sixteenDiscs : Board :=
  ⟨fun i j =>
    if i.val = 0 then Piece.BLACK_PIECE
    else if i.val = 1 ∧ j.val < 4 then Piece.BLACK_PIECE
    else if i.val = 7 ∧ j.val < 4 then Piece.WHITE_PIECE
    else Piece.EMPTY⟩

/-- One call of `AIPlayer::minimax`: its arguments apart from the window, which no decision about
the recursion depends on. -/
structure Call where
  board : Board
  depth : Nat
  maximizingPlayer : Bool
  aiPlayerPerspective : PlayerColor
  currentPlayerTurn : PlayerColor

/-- Example board: black discs fill row 0, nothing else is on the board. -/
def blackRowOnly : Board :=
  ⟨fun i _ => if i.val = 0 then Piece.BLACK_PIECE else Piece.EMPTY⟩

/-- The value of an `int` expression of the source: present when it fits in 32 bits, absent when
the signed arithmetic would overflow. -/
def int32 (x : Int) : Option Int :=
  if INT_MIN ≤ x ∧ x ≤ INT_MAX then some x else none

/-- Body of the first loop of `evaluate`, every `int` operation checked. -/
def tallyStepChecked (b : Board) (playerPiece opponentPiece : Piece) (t : Board.Tally)
    (rc : Int × Int) : Option Board.Tally :=
  if b.cell rc.1 rc.2 = playerPiece then do
    let d ← int32 (t.playerDiscs + 1)
    let s ← int32 (t.playerPieceSquareScore + tableAt rc.1 rc.2)
    pure { t with playerDiscs := d, playerPieceSquareScore := s }
  else if b.cell rc.1 rc.2 = opponentPiece then do
    let d ← int32 (t.opponentDiscs + 1)
    let s ← int32 (t.opponentPieceSquareScore + tableAt rc.1 rc.2)
    pure { t with opponentDiscs := d, opponentPieceSquareScore := s }
  else pure t

/-- One corner statement of `evaluate`, the increment checked. -/
def cornerStepChecked (b : Board) (playerPiece opponentPiece : Piece) (k : Int × Int)
    (rc : Int × Int) : Option (Int × Int) :=
  if b.cell rc.1 rc.2 = playerPiece then do
    let n ← int32 (k.1 + 1)
    pure (n, k.2)
  else if b.cell rc.1 rc.2 = opponentPiece then do
    let n ← int32 (k.2 + 1)
    pure (k.1, n)
  else pure k

/-- Lines 273-279 of `evaluate`, checked: the mobility term, or the terminal term when neither
side has a move. -/
def mobilityStepChecked (heuristicScore playerMoves opponentMoves playerDiscs opponentDiscs : Int) :
    Option Int :=
  if playerMoves + opponentMoves ≠ 0 then
    (int32 (playerMoves - opponentMoves)).bind fun moveDiff =>
      (int32 (50 * moveDiff)).bind fun moveTerm => int32 (heuristicScore + moveTerm)
  else if playerDiscs > opponentDiscs then int32 (heuristicScore + 20000)
  else if opponentDiscs > playerDiscs then int32 (heuristicScore - 20000)
  else some heuristicScore

/-- Lines 249-267 of `evaluate`, checked: the positional, disc-count and corner terms added to
the score, given the counters of the two loops. -/
def termsChecked (t : Board.Tally) (k : Int × Int) : Option Int :=
  (int32 (t.playerPieceSquareScore - t.opponentPieceSquareScore)).bind fun squareDiff =>
  (int32 (0 + squareDiff)).bind fun h1 =>
  (int32 (t.playerDiscs - t.opponentDiscs)).bind fun discDiff =>
  (int32 (discDiff * Board.discDiffWeight (t.playerDiscs + t.opponentDiscs))).bind fun discTerm =>
  (int32 (h1 + discTerm)).bind fun h2 =>
  (int32 (k.1 - k.2)).bind fun cornerDiff =>
  (int32 (cornerDiff * 800)).bind fun cornerTerm =>
  int32 (h2 + cornerTerm)

/-- Source: `Board::evaluate`, with every intermediate `int` result checked against the 32-bit
range: the result is absent as soon as one addition, subtraction or multiplication overflows.
The two `size_t` sums (`totalDiscs`, `playerMoves + opponentMoves`) are unsigned and tiny. -/
def evaluateChecked (b : Board) (player : PlayerColor) : Option Int :=
  let opponent := getOpponent player
  let playerPiece := playerToPiece player
  let opponentPiece := playerToPiece opponent
  (Board.allCells.foldlM (tallyStepChecked b playerPiece opponentPiece) ⟨0, 0, 0, 0⟩).bind fun t =>
  (Board.corners.foldlM (cornerStepChecked b playerPiece opponentPiece) (0, 0)).bind fun k =>
  (termsChecked t k).bind fun h3 =>
  let playerMoves : Int := (b.getValidMoves player).length
  let opponentMoves : Int := (b.getValidMoves opponent).length
  let totalDiscs := t.playerDiscs + t.opponentDiscs
  (mobilityStepChecked h3 playerMoves opponentMoves t.playerDiscs t.opponentDiscs).bind
    fun heuristicScore =>
  if t.playerDiscs = 0 ∧ playerMoves = 0 ∧ totalDiscs > 4 then some (-50000)
  else if t.opponentDiscs = 0 ∧ opponentMoves = 0 ∧ totalDiscs > 4 then some 50000
  else some heuristicScore

/-- Sum of the magnitudes of the table entries of `cells`. -/
def tableMagnitude (cells : List (Int × Int)) : Int :=
  (cells.map (fun rc => ((tableAt rc.1 rc.2).natAbs : Int))).sum

/-- A direction of the board in the words of the specification: one of the 8 steps to a
neighbouring cell. -/
def IsDirection (d : Int × Int) : Prop :=
  -1 ≤ d.1 ∧ d.1 ≤ 1 ∧ -1 ≤ d.2 ∧ d.2 ≤ 1 ∧ (d.1 ≠ 0 ∨ d.2 ≠ 0)

/-- In the words of the specification: from the cell `(r, c)` in direction `d` there is a
contiguous run of `k >= 1` opponent discs, starting at the adjacent cell, immediately followed by
a disc of `player`. -/
def Brackets (b : Board) (player : PlayerColor) (r c : Int) (d : Int × Int) (k : Nat) : Prop :=
  1 ≤ k
  ∧ (∀ j : Nat, 1 ≤ j → j ≤ k →
      Board.isWithinBounds (r + j * d.1) (c + j * d.2) = true
        ∧ b.cell (r + j * d.1) (c + j * d.2) = playerToPiece (getOpponent player))
  ∧ Board.isWithinBounds (r + (k + 1 : Nat) * d.1) (c + (k + 1 : Nat) * d.2) = true
  ∧ b.cell (r + (k + 1 : Nat) * d.1) (c + (k + 1 : Nat) * d.2) = playerToPiece player

/-- The disc count of `player` in a result `{blackScore, whiteScore}` of `getScore`. -/
def scoreOf (s : Int × Int) (player : PlayerColor) : Int :=
  if player = PlayerColor.BLACK then s.1 else s.2

/-- One call of `Board::applyMove` made by the search: the board copy as it is before the call,
the move, the mover and the flips passed. -/
structure Applied where
  board : Board
  move : Move
  player : PlayerColor
  flips : List Move

/-- In the words of the claim: the move is legal for the mover on the board it is applied to, so
its cell is on the grid and empty, and the flips are those of `getFlipsForMove`, at least one. -/
def Applied.Legal (a : Applied) : Prop :=
  a.move ∈ a.board.getValidMoves a.player
    ∧ Board.isWithinBounds a.move.row a.move.col = true
    ∧ a.board.cell a.move.row a.move.col = Piece.EMPTY
    ∧ a.flips = a.board.getFlipsForMove a.move.row a.move.col a.player
    ∧ a.flips ≠ []

/-- The maximizing `for` loop of `AIPlayer::minimax` with the recursion made explicit: `child` is
absent when the recursive call does not return, and every call of `applyMove` is recorded. -/
def maxLoopTrace {G : Type} (child : Board → Int → Int → G → Option ((Int × G) × List Applied))
    (board : Board) (currentPlayerTurn : PlayerColor) :
    List Move → Int → Int → Int → G → Option ((Int × G) × List Applied)
  | [], maxEval, _, _, g => some ((maxEval, g), [])
  | move :: rest, maxEval, alpha, beta, g =>
    let flips := board.getFlipsForMove move.row move.col currentPlayerTurn
    let nextBoard := board.applyMove move currentPlayerTurn flips
    match child nextBoard alpha beta g with
    | none => none
    | some r =>
      let maxEval := max maxEval r.1.1
      let alpha := max alpha r.1.1
      if beta ≤ alpha then some ((maxEval, r.1.2), ⟨board, move, currentPlayerTurn, flips⟩ :: r.2)
      else
        match maxLoopTrace child board currentPlayerTurn rest maxEval alpha beta r.1.2 with
        | none => none
        | some t => some (t.1, ⟨board, move, currentPlayerTurn, flips⟩ :: (r.2 ++ t.2))

/-- The minimizing `for` loop of `AIPlayer::minimax`, in the same way. -/
def minLoopTrace {G : Type} (child : Board → Int → Int → G → Option ((Int × G) × List Applied))
    (board : Board) (currentPlayerTurn : PlayerColor) :
    List Move → Int → Int → Int → G → Option ((Int × G) × List Applied)
  | [], minEval, _, _, g => some ((minEval, g), [])
  | move :: rest, minEval, alpha, beta, g =>
    let flips := board.getFlipsForMove move.row move.col currentPlayerTurn
    let nextBoard := board.applyMove move currentPlayerTurn flips
    match child nextBoard alpha beta g with
    | none => none
    | some r =>
      let minEval := min minEval r.1.1
      let beta := min beta r.1.1
      if beta ≤ alpha then some ((minEval, r.1.2), ⟨board, move, currentPlayerTurn, flips⟩ :: r.2)
      else
        match minLoopTrace child board currentPlayerTurn rest minEval alpha beta r.1.2 with
        | none => none
        | some t => some (t.1, ⟨board, move, currentPlayerTurn, flips⟩ :: (r.2 ++ t.2))

/-- Source: `AIPlayer::minimax` as the C++ function is written: `depth` is an `int`, each
recursive call passes `depth - 1`, and only `depth == 0` or a finished game stops the recursion.
The first argument bounds the nesting of the calls; the result is absent when the bound does not
suffice.  The result carries the calls of `applyMove` made. -/
def minimaxTrace {G : Type} (sh : G → List Move → List Move × G) :
    Nat → Board → Int → Int → Int → Bool → PlayerColor → PlayerColor → G →
      Option ((Int × G) × List Applied)
  | 0, _, _, _, _, _, _, _, _ => none
  | fuel + 1, board, depth, alpha, beta, maximizingPlayer, aiPlayerPerspective,
      currentPlayerTurn, g =>
    if depth = 0 ∨ board.isGameOver = true then
      some ((board.evaluate aiPlayerPerspective, g), [])
    else
      let validMoves := board.getValidMoves currentPlayerTurn
      if validMoves.isEmpty then
        minimaxTrace sh fuel board (depth - 1) alpha beta (!maximizingPlayer)
          aiPlayerPerspective (getOpponent currentPlayerTurn) g
      else
        let s := sh g validMoves
        if maximizingPlayer then
          maxLoopTrace
            (fun nextBoard a b g1 =>
              minimaxTrace sh fuel nextBoard (depth - 1) a b false aiPlayerPerspective
                (getOpponent currentPlayerTurn) g1)
            board currentPlayerTurn s.1 INT_MIN alpha beta s.2
        else
          minLoopTrace
            (fun nextBoard a b g1 =>
              minimaxTrace sh fuel nextBoard (depth - 1) a b true aiPlayerPerspective
                (getOpponent currentPlayerTurn) g1)
            board currentPlayerTurn s.1 INT_MAX alpha beta s.2

/-- The inner `for` loop of `findBestMoveIterativeDeepening`, with the calls of `minimax` made
through `minimaxTrace`. -/
def searchLevelTrace {G : Type} (sh : G → List Move → List Move × G) (fuel : Nat)
    (board : Board) (player : PlayerColor) (currentDepth : Nat) :
    List Move → Move → Int → G → Option (((Move × Int) × G) × List Applied)
  | [], bestMove, bestScore, g => some (((bestMove, bestScore), g), [])
  | move :: rest, bestMove, bestScore, g =>
    let flips := board.getFlipsForMove move.row move.col player
    let nextBoard := board.applyMove move player flips
    match minimaxTrace sh fuel nextBoard ((currentDepth : Int) - 1) INT_MIN INT_MAX false player
        (getOpponent player) g with
    | none => none
    | some r =>
      match (if r.1.1 > bestScore then
          searchLevelTrace sh fuel board player currentDepth rest move r.1.1 r.1.2
        else searchLevelTrace sh fuel board player currentDepth rest bestMove bestScore r.1.2) with
      | none => none
      | some t => some (t.1, ⟨board, move, player, flips⟩ :: (r.2 ++ t.2))

/-- The outer `for` loop of `findBestMoveIterativeDeepening`; `budget` bounds the number of
iterations and the result is absent when it does not suffice. -/
def deepenTrace {G : Type} (sh : G → List Move → List Move × G) (fuel : Nat)
    (maxDepth timeLimitPerMove : Int) (elapsed : Nat → Int) (board : Board)
    (player : PlayerColor) (validMoves : List Move) :
    Nat → Nat → Move → G → Option ((Move × G) × List Applied)
  | 0, _, _, _ => none
  | budget + 1, currentDepth, bestMoveOverall, g =>
    if (currentDepth : Int) ≤ maxDepth then
      match searchLevelTrace sh fuel board player currentDepth validMoves ⟨-1, -1⟩ INT_MIN g with
      | none => none
      | some lvl =>
        let bestMoveOverall := if lvl.1.1.1.isValid then lvl.1.1.1 else bestMoveOverall
        if elapsed currentDepth ≥ timeLimitPerMove ∧ (currentDepth : Int) < maxDepth then
          some ((bestMoveOverall, lvl.1.2), lvl.2)
        else
          match deepenTrace sh fuel maxDepth timeLimitPerMove elapsed board player validMoves
              budget (currentDepth + 1) bestMoveOverall lvl.1.2 with
          | none => none
          | some t => some (t.1, lvl.2 ++ t.2)
    else some ((bestMoveOverall, g), [])

/-- Source: `AIPlayer::findBestMoveIterativeDeepening`, with one bound `fuel` for the nesting of
`minimax` and for the iterations of the depth loop, and with the calls of `applyMove` recorded. -/
def findBestTrace {G : Type} (sh : G → List Move → List Move × G) (fuel : Nat)
    (maxDepth timeLimitPerMove : Int) (elapsed : Nat → Int) (board : Board)
    (player : PlayerColor) (g : G) : Option ((Move × G) × List Applied) :=
  let validMoves := board.getValidMoves player
  match validMoves with
  | [] => some ((⟨-1, -1⟩, g), [])
  | [only] => some ((only, g), [])
  | _ :: _ :: _ =>
    let s := sh g validMoves
    let bestMoveOverall := s.1.headD ⟨-1, -1⟩
    deepenTrace sh fuel maxDepth timeLimitPerMove elapsed board player s.1 fuel 1
      bestMoveOverall s.2

/-- One call of `AIPlayer::minimax` made during a search, with the score it returned. -/
structure Visit where
  call : Call
  score : Int

/-- In the words of the claim: the perspective side of the call is the root player, the
maximizing flag is true exactly when the side to move is the perspective side, and a call that
ends at a leaf (depth 0 or a finished game) returned `evaluate` of its board for the root
player. -/
def Visit.Aligned (player : PlayerColor) (v : Visit) : Prop :=
  v.call.aiPlayerPerspective = player
    ∧ (v.call.maximizingPlayer = true ↔ v.call.currentPlayerTurn = v.call.aiPlayerPerspective)
    ∧ (v.call.depth = 0 ∨ v.call.board.isGameOver = true →
        v.score = v.call.board.evaluate player)

/-- The maximizing `for` loop of `AIPlayer::minimax`, with the calls of `minimax` made below it
collected; `child` is the recursive call with its own calls. -/
def maxLoopCalls {G : Type} (child : Board → Int → Int → G → (Int × G) × List Visit)
    (board : Board) (currentPlayerTurn : PlayerColor) :
    List Move → Int → Int → Int → G → (Int × G) × List Visit
  | [], maxEval, _, _, g => ((maxEval, g), [])
  | move :: rest, maxEval, alpha, beta, g =>
    let flips := board.getFlipsForMove move.row move.col currentPlayerTurn
    let nextBoard := board.applyMove move currentPlayerTurn flips
    let r := child nextBoard alpha beta g
    let maxEval := max maxEval r.1.1
    let alpha := max alpha r.1.1
    if beta ≤ alpha then ((maxEval, r.1.2), r.2)
    else
      let t := maxLoopCalls child board currentPlayerTurn rest maxEval alpha beta r.1.2
      (t.1, r.2 ++ t.2)

/-- The minimizing `for` loop of `AIPlayer::minimax`, in the same way. -/
def minLoopCalls {G : Type} (child : Board → Int → Int → G → (Int × G) × List Visit)
    (board : Board) (currentPlayerTurn : PlayerColor) :
    List Move → Int → Int → Int → G → (Int × G) × List Visit
  | [], minEval, _, _, g => ((minEval, g), [])
  | move :: rest, minEval, alpha, beta, g =>
    let flips := board.getFlipsForMove move.row move.col currentPlayerTurn
    let nextBoard := board.applyMove move currentPlayerTurn flips
    let r := child nextBoard alpha beta g
    let minEval := min minEval r.1.1
    let beta := min beta r.1.1
    if beta ≤ alpha then ((minEval, r.1.2), r.2)
    else
      let t := minLoopCalls child board currentPlayerTurn rest minEval alpha beta r.1.2
      (t.1, r.2 ++ t.2)

/-- Source: `AIPlayer::minimax`, with every call recorded: the result carries, first, the call
itself with the score it returns and then the calls made below it, in the order they are made.
The arguments of each recursive call are those the source passes. -/
def minimaxCalls {G : Type} (sh : G → List Move → List Move × G) (board : Board) (depth : Nat)
    (alpha beta : Int) (maximizingPlayer : Bool)
    (aiPlayerPerspective currentPlayerTurn : PlayerColor) (g : G) : (Int × G) × List Visit :=
  match depth with
  | 0 =>
    ((board.evaluate aiPlayerPerspective, g),
      [⟨⟨board, 0, maximizingPlayer, aiPlayerPerspective, currentPlayerTurn⟩,
        board.evaluate aiPlayerPerspective⟩])
  | d + 1 =>
    if board.isGameOver then
      ((board.evaluate aiPlayerPerspective, g),
        [⟨⟨board, d + 1, maximizingPlayer, aiPlayerPerspective, currentPlayerTurn⟩,
          board.evaluate aiPlayerPerspective⟩])
    else
      let validMoves := board.getValidMoves currentPlayerTurn
      let r :=
        if validMoves.isEmpty then
          minimaxCalls sh board d alpha beta (!maximizingPlayer) aiPlayerPerspective
            (getOpponent currentPlayerTurn) g
        else
          let s := sh g validMoves
          if maximizingPlayer then
            maxLoopCalls
              (fun nextBoard a b g1 =>
                minimaxCalls sh nextBoard d a b false aiPlayerPerspective
                  (getOpponent currentPlayerTurn) g1)
              board currentPlayerTurn s.1 INT_MIN alpha beta s.2
          else
            minLoopCalls
              (fun nextBoard a b g1 =>
                minimaxCalls sh nextBoard d a b true aiPlayerPerspective
                  (getOpponent currentPlayerTurn) g1)
              board currentPlayerTurn s.1 INT_MAX alpha beta s.2
      (r.1, ⟨⟨board, d + 1, maximizingPlayer, aiPlayerPerspective, currentPlayerTurn⟩, r.1.1⟩
        :: r.2)

/-- The inner `for` loop of `findBestMoveIterativeDeepening`, with the calls of `minimax`
recorded. -/
def searchLevelCalls {G : Type} (sh : G → List Move → List Move × G) (board : Board)
    (player : PlayerColor) (currentDepth : Nat) :
    List Move → Move → Int → G → ((Move × Int) × G) × List Visit
  | [], bestMove, bestScore, g => (((bestMove, bestScore), g), [])
  | move :: rest, bestMove, bestScore, g =>
    let flips := board.getFlipsForMove move.row move.col player
    let nextBoard := board.applyMove move player flips
    let r := minimaxCalls sh nextBoard (currentDepth - 1) INT_MIN INT_MAX false player
      (getOpponent player) g
    let t :=
      if r.1.1 > bestScore then
        searchLevelCalls sh board player currentDepth rest move r.1.1 r.1.2
      else searchLevelCalls sh board player currentDepth rest bestMove bestScore r.1.2
    (t.1, r.2 ++ t.2)

/-- The outer `for` loop of `findBestMoveIterativeDeepening`, with the calls of `minimax`
recorded; the first `Nat` bounds the number of iterations as in `deepen`. -/
def deepenCalls {G : Type} (sh : G → List Move → List Move × G) (maxDepth timeLimitPerMove : Int)
    (elapsed : Nat → Int) (board : Board) (player : PlayerColor) (validMoves : List Move) :
    Nat → Nat → Move → G → (Move × G) × List Visit
  | 0, _, bestMoveOverall, g => ((bestMoveOverall, g), [])
  | fuel + 1, currentDepth, bestMoveOverall, g =>
    if (currentDepth : Int) ≤ maxDepth then
      let lvl := searchLevelCalls sh board player currentDepth validMoves ⟨-1, -1⟩ INT_MIN g
      let bestMoveOverall := if lvl.1.1.1.isValid then lvl.1.1.1 else bestMoveOverall
      if elapsed currentDepth ≥ timeLimitPerMove ∧ (currentDepth : Int) < maxDepth then
        ((bestMoveOverall, lvl.1.2), lvl.2)
      else
        let t := deepenCalls sh maxDepth timeLimitPerMove elapsed board player validMoves fuel
          (currentDepth + 1) bestMoveOverall lvl.1.2
        (t.1, lvl.2 ++ t.2)
    else ((bestMoveOverall, g), [])

/-- Source: `AIPlayer::findBestMoveIterativeDeepening`, with the calls of `minimax` recorded. -/
def findBestCalls {G : Type} (sh : G → List Move → List Move × G)
    (maxDepth timeLimitPerMove : Int) (elapsed : Nat → Int) (board : Board)
    (player : PlayerColor) (g : G) : (Move × G) × List Visit :=
  let validMoves := board.getValidMoves player
  match validMoves with
  | [] => ((⟨-1, -1⟩, g), [])
  | [only] => ((only, g), [])
  | _ :: _ :: _ =>
    let s := sh g validMoves
    let bestMoveOverall := s.1.headD ⟨-1, -1⟩
    deepenCalls sh maxDepth timeLimitPerMove elapsed board player s.1 maxDepth.toNat 1
      bestMoveOverall s.2

/-- Example board: a black disc on `(0,0)` and on `(7,0)`, a white disc on `(0,1)` and on
`(7,1)`.  Black has the two moves `(0,2)` and `(7,2)`; after either of them White has no move and
Black has one. -/
def twoPairs : Board :=
  ⟨fun i j =>
    if (i.val = 0 ∨ i.val = 7) ∧ j.val = 0 then Piece.BLACK_PIECE
    else if (i.val = 0 ∨ i.val = 7) ∧ j.val = 1 then Piece.WHITE_PIECE
    else Piece.EMPTY⟩

end Othello

/-!
# Chess (`src/Chess.cpp`)

Shallow embedding of the chess board, `makeMove`, the material evaluator, move generation and the
computer player of `Chess.cpp`.

Modelling conventions

* The class hierarchy `Pawn`, `Rook`, ... of `Piece` is the field `kind` of a piece; `getType`
  and `getValue` are read from it.  A board owns its pieces (the copy constructor clones them),
  so pieces are values; `setPieceAt` writes the position into the piece it stores, as
  `setPosition` does.
* `Move::from` and `Move::to` are the fields `src` and `dst`.
* `King::getValidMoves` and `Board::isSquareAttacked` call each other; the recursion is cut by a
  fuel that counts the nesting of attack queries, and a result is absent (`none`) when the fuel
  does not suffice.  A computation that is absent for every fuel does not terminate.
* `std::rand()` is an input: the stream `rand` and the index of the next value to be drawn.
* A player that has a game instance is modelled (`game_ptr` is set); the exception thrown by
  `getMove` is the `error` case of `Except`.
-/

namespace Chess

/-! ## Data model -/

/-- Source: `enum class PieceColor`. -/
inductive PieceColor where
  | WHITE
  | BLACK
  | NONE
  deriving DecidableEq, Repr

/-- Source: `enum class PieceType`. -/
inductive PieceType where
  | PAWN
  | ROOK
  | KNIGHT
  | BISHOP
  | QUEEN
  | KING
  | EMPTY
  deriving DecidableEq, Repr

/-- Source: `enum class AIDifficulty`. -/
inductive AIDifficulty where
  | EASY
  | MEDIUM
  | HARD
  deriving DecidableEq, Repr

/-- Source: `struct Position`. -/
structure Position where
  row : Int
  col : Int
  deriving DecidableEq, Repr

/-- Source: `Position::isValid`. -/
def Position.isValid (p : Position) : Bool :=
  decide (0 ≤ p.row) && decide (p.row < 8) && decide (0 ≤ p.col) && decide (p.col < 8)

/-- Source: `struct Move` (`src` is `from`, `dst` is `to`). -/
structure Move where
  src : Position
  dst : Position
  promotionPiece : PieceType
  isEnPassantCapture : Bool
  enPassantVictimPos : Position
  isCastlingMove : Bool
  deriving DecidableEq, Repr

/-- The move `{ {from}, to }` with every other member at its default. -/
def Move.step (src dst : Position) : Move :=
  ⟨src, dst, PieceType.EMPTY, false, ⟨-1, -1⟩, false⟩

/-- The six concrete classes derived from `Piece`. -/
inductive PieceClass where
  | Pawn
  | Rook
  | Knight
  | Bishop
  | Queen
  | King
  deriving DecidableEq, Repr

/-- Source: `class Piece` and its subclasses. -/
structure Piece where
  kind : PieceClass
  pieceColor : PieceColor
  currentPosition : Position
  hasMoved : Bool
  deriving DecidableEq, Repr

/-- Source: `Piece::getType`, the type each subclass passes to the base constructor. -/
def Piece.getType (p : Piece) : PieceType :=
  match p.kind with
  | PieceClass.Pawn => PieceType.PAWN
  | PieceClass.Rook => PieceType.ROOK
  | PieceClass.Knight => PieceType.KNIGHT
  | PieceClass.Bishop => PieceType.BISHOP
  | PieceClass.Queen => PieceType.QUEEN
  | PieceClass.King => PieceType.KING

/-- Source: the overrides of `Piece::getValue`. -/
def Piece.getValue (p : Piece) : Int :=
  match p.kind with
  | PieceClass.Pawn => 100
  | PieceClass.Rook => 500
  | PieceClass.Knight => 320
  | PieceClass.Bishop => 330
  | PieceClass.Queen => 900
  | PieceClass.King => 20000

/-- Source: `class Board`, its data members. -/
structure Board where
  grid : Fin 8 → Fin 8 → Option Piece
  lastMove : Move
  enPassantTargetSquare : Position
  whiteKingSideCastlePossible : Bool
  whiteQueenSideCastlePossible : Bool
  blackKingSideCastlePossible : Bool
  blackQueenSideCastlePossible : Bool
  halfMoveClock : Int

namespace Board

/-- Source: `Board::getPieceAt`. -/
def getPieceAt (b : Board) (pos : Position) : Option Piece :=
  if h : 0 ≤ pos.row ∧ pos.row < 8 ∧ 0 ≤ pos.col ∧ pos.col < 8 then
    b.grid ⟨pos.row.toNat, by omega⟩ ⟨pos.col.toNat, by omega⟩
  else none

/-- Source: `Board::setPieceAt`. -/
def setPieceAt (b : Board) (pos : Position) (piece : Option Piece) : Board :=
  if pos.isValid then
    { b with
      grid := fun i j =>
        if (i.val : Int) = pos.row ∧ (j.val : Int) = pos.col then
          piece.map (fun p => { p with currentPosition := pos })
        else b.grid i j }
  else b

/-- The squares in the order of the loops `for r ... for c ...`. -/
def allPositions : List Position :=
  [0, 1, 2, 3, 4, 5, 6, 7].foldr
    (fun r acc => [0, 1, 2, 3, 4, 5, 6, 7].map (fun c => (⟨r, c⟩ : Position)) ++ acc) []

/-- The tail of `makeMove` from the line `setPieceAt(move.to, pieceToMove)`: the piece is put
down with `hasMoved` set (the later `setHasMoved(true)` acts on the same object), castling rights
are updated, a promotion without a chosen piece defaults to the queen, `lastMove` is recorded. -/
def makeMoveFinish (b : Board) (move : Move) (pieceToMove : Piece) : Bool × Board × Move :=
  let b := (b.setPieceAt move.dst (some { pieceToMove with hasMoved := true })).setPieceAt
    move.src none
  let b :=
    if pieceToMove.getType = PieceType.KING then
      if pieceToMove.pieceColor = PieceColor.WHITE then
        { b with whiteKingSideCastlePossible := false, whiteQueenSideCastlePossible := false }
      else
        { b with blackKingSideCastlePossible := false, blackQueenSideCastlePossible := false }
    else b
  let b :=
    if pieceToMove.getType = PieceType.ROOK then
      let b :=
        if move.src.row = 7 ∧ move.src.col = 0 ∧ pieceToMove.pieceColor = PieceColor.WHITE then
          { b with whiteQueenSideCastlePossible := false }
        else b
      let b :=
        if move.src.row = 7 ∧ move.src.col = 7 ∧ pieceToMove.pieceColor = PieceColor.WHITE then
          { b with whiteKingSideCastlePossible := false }
        else b
      let b :=
        if move.src.row = 0 ∧ move.src.col = 0 ∧ pieceToMove.pieceColor = PieceColor.BLACK then
          { b with blackQueenSideCastlePossible := false }
        else b
      if move.src.row = 0 ∧ move.src.col = 7 ∧ pieceToMove.pieceColor = PieceColor.BLACK then
        { b with blackKingSideCastlePossible := false }
      else b
    else b
  let move :=
    if pieceToMove.getType = PieceType.PAWN
        ∧ ((pieceToMove.pieceColor = PieceColor.WHITE ∧ move.dst.row = 0)
          ∨ (pieceToMove.pieceColor = PieceColor.BLACK ∧ move.dst.row = 7))
        ∧ move.promotionPiece = PieceType.EMPTY then
      { move with promotionPiece := PieceType.QUEEN }
    else move
  (true, { b with lastMove := move }, move)

/-- The castling block of `makeMove` and what follows it. -/
def makeMoveCastle (b : Board) (move : Move) (pieceToMove : Piece) : Bool × Board × Move :=
  if pieceToMove.getType = PieceType.KING ∧ (move.dst.col - move.src.col).natAbs = 2 then
    let move := { move with isCastlingMove := true }
    let rookFrom : Position :=
      if move.dst.col > move.src.col then ⟨move.src.row, 7⟩ else ⟨move.src.row, 0⟩
    let rookTo : Position :=
      if move.dst.col > move.src.col then ⟨move.src.row, 5⟩ else ⟨move.src.row, 3⟩
    match b.getPieceAt rookFrom with
    | some rook =>
      if rook.getType = PieceType.ROOK then
        makeMoveFinish
          ((b.setPieceAt rookTo (some { rook with hasMoved := true })).setPieceAt rookFrom none)
          move pieceToMove
      else (false, b, move)
    | none => (false, b, move)
  else makeMoveFinish b move pieceToMove

/-- Source: `Board::makeMove`.  Returns the `bool` result, the board as the call leaves it and
the move as the call leaves it (the parameter is a reference). -/
def makeMove (b : Board) (move : Move) : Bool × Board × Move :=
  match b.getPieceAt move.src with
  | none => (false, b, move)
  | some pieceToMove =>
    let isPawnMove : Bool := decide (pieceToMove.getType = PieceType.PAWN)
    let isCapture : Bool := (b.getPieceAt move.dst).isSome || move.isEnPassantCapture
    let b := { b with halfMoveClock := if isPawnMove || isCapture then 0 else b.halfMoveClock + 1 }
    let oldEnPassantTarget := b.enPassantTargetSquare
    let b := { b with enPassantTargetSquare := ⟨-1, -1⟩ }
    let b :=
      if isPawnMove && decide ((move.src.row - move.dst.row).natAbs = 2) then
        { b with
          enPassantTargetSquare := ⟨Int.tdiv (move.src.row + move.dst.row) 2, move.src.col⟩ }
      else b
    if move.isEnPassantCapture then
      if move.dst = oldEnPassantTarget ∧ oldEnPassantTarget.isValid = true then
        makeMoveCastle (b.setPieceAt move.enPassantVictimPos none) move pieceToMove
      else (false, b, move)
    else makeMoveCastle b move pieceToMove

/-- Source: `Board::findKing`. -/
def findKing (b : Board) (kingColor : PieceColor) : Position :=
  match allPositions.find? (fun pos =>
      match b.getPieceAt pos with
      | some p => decide (p.getType = PieceType.KING) && decide (p.pieceColor = kingColor)
      | none => false) with
  | some pos => pos
  | none => ⟨-1, -1⟩

/-- Source: `Board::evaluateMaterial`. -/
def evaluateMaterial (b : Board) (perspectiveColor : PieceColor) : Int :=
  allPositions.foldl
    (fun score pos =>
      match b.getPieceAt pos with
      | some p =>
        let value := if p.getType = PieceType.KING then 0 else p.getValue
        if p.pieceColor = perspectiveColor then score + value else score - value
      | none => score) 0

end Board

/-! ## Move generation -/

/-- Source: `Piece::addMoveIfValid`; `self` is the piece the method is called on. -/
def Piece.addMoveIfValid (self : Piece) (moves : List Move) (currentMove : Move) (board : Board)
    (isCaptureOnly : Bool) : List Move :=
  if !currentMove.dst.isValid then moves
  else
    match board.getPieceAt currentMove.dst with
    | some targetPiece =>
      if targetPiece.pieceColor ≠ self.pieceColor then
        if isCaptureOnly then moves ++ [currentMove]
        else if self.getType = PieceType.PAWN
            ∧ ((self.pieceColor = PieceColor.WHITE ∧ currentMove.dst.row = 0)
              ∨ (self.pieceColor = PieceColor.BLACK ∧ currentMove.dst.row = 7)) then
          moves ++ [{ currentMove with promotionPiece := PieceType.QUEEN },
            { currentMove with promotionPiece := PieceType.ROOK },
            { currentMove with promotionPiece := PieceType.BISHOP },
            { currentMove with promotionPiece := PieceType.KNIGHT }]
        else moves ++ [currentMove]
      else moves
    | none =>
      if isCaptureOnly then moves
      else if self.getType = PieceType.PAWN
          ∧ ((self.pieceColor = PieceColor.WHITE ∧ currentMove.dst.row = 0)
            ∨ (self.pieceColor = PieceColor.BLACK ∧ currentMove.dst.row = 7)) then
        moves ++ [{ currentMove with promotionPiece := PieceType.QUEEN },
          { currentMove with promotionPiece := PieceType.ROOK },
          { currentMove with promotionPiece := PieceType.BISHOP },
          { currentMove with promotionPiece := PieceType.KNIGHT }]
      else moves ++ [currentMove]

/-- The inner loop `for (int i = 1; i < 8; ++i)` of `addStraightLineMoves` for one direction;
the list holds the values of `i` still to be visited. -/
def Piece.slide (self : Piece) (board : Board) (dir : Int × Int) :
    List Int → List Move → List Move
  | [], moves => moves
  | i :: rest, moves =>
    let nextPos : Position :=
      ⟨self.currentPosition.row + dir.1 * i, self.currentPosition.col + dir.2 * i⟩
    if !nextPos.isValid then moves
    else
      match board.getPieceAt nextPos with
      | none =>
        Piece.slide self board dir rest
          (self.addMoveIfValid moves (Move.step self.currentPosition nextPos) board false)
      | some targetPiece =>
        if targetPiece.pieceColor ≠ self.pieceColor then
          self.addMoveIfValid moves (Move.step self.currentPosition nextPos) board false
        else moves

/-- Source: `Piece::addStraightLineMoves`. -/
def Piece.addStraightLineMoves (self : Piece) (moves : List Move) (board : Board)
    (directions : List (Int × Int)) : List Move :=
  directions.foldl (fun acc dir => self.slide board dir [1, 2, 3, 4, 5, 6, 7] acc) moves

/-- Source: `Pawn::getValidMoves`. -/
def Pawn.getValidMoves (self : Piece) (board : Board) : List Move :=
  let direction : Int := if self.pieceColor = PieceColor.WHITE then -1 else 1
  let forwardOnePos : Position :=
    ⟨self.currentPosition.row + direction, self.currentPosition.col⟩
  let moves : List Move :=
    if forwardOnePos.isValid && (board.getPieceAt forwardOnePos).isNone then
      let moves :=
        self.addMoveIfValid [] (Move.step self.currentPosition forwardOnePos) board false
      if !self.hasMoved then
        let forwardTwoPos : Position :=
          ⟨self.currentPosition.row + 2 * direction, self.currentPosition.col⟩
        if forwardTwoPos.isValid && (board.getPieceAt forwardTwoPos).isNone then
          self.addMoveIfValid moves (Move.step self.currentPosition forwardTwoPos) board false
        else moves
      else moves
    else []
  [(direction, (-1 : Int)), (direction, (1 : Int))].foldl
    (fun moves offset =>
      let capPos : Position :=
        ⟨self.currentPosition.row + offset.1, self.currentPosition.col + offset.2⟩
      if capPos.isValid then
        let capMove := Move.step self.currentPosition capPos
        let moves :=
          match board.getPieceAt capPos with
          | some target =>
            if target.pieceColor ≠ self.pieceColor then
              self.addMoveIfValid moves capMove board true
            else moves
          | none => moves
        if capPos = board.enPassantTargetSquare ∧ board.enPassantTargetSquare.isValid = true then
          moves ++ [{ capMove with
            isEnPassantCapture := true,
            enPassantVictimPos := ⟨self.currentPosition.row, capPos.col⟩ }]
        else moves
      else moves) moves

/-- The loop over the 8 offsets shared by `Knight::getValidMoves` and `King::getValidMoves`. -/
def Piece.offsetMoves (self : Piece) (board : Board) (offsets : List (Int × Int)) : List Move :=
  offsets.foldl
    (fun moves o =>
      self.addMoveIfValid moves
        (Move.step self.currentPosition
          ⟨self.currentPosition.row + o.1, self.currentPosition.col + o.2⟩) board false) []

/-- Source: `Knight::getValidMoves`. -/
def Knight.getValidMoves (self : Piece) (board : Board) : List Move :=
  self.offsetMoves board [(-2, -1), (-2, 1), (-1, -2), (-1, 2), (1, -2), (1, 2), (2, -1), (2, 1)]

/-- The `getValidMoves` of the classes that call nothing else: every class but `King`. -/
def Piece.plainMoves (self : Piece) (board : Board) : List Move :=
  match self.kind with
  | PieceClass.Pawn => Pawn.getValidMoves self board
  | PieceClass.Rook => self.addStraightLineMoves [] board [(0, 1), (0, -1), (1, 0), (-1, 0)]
  | PieceClass.Knight => Knight.getValidMoves self board
  | PieceClass.Bishop => self.addStraightLineMoves [] board [(1, 1), (1, -1), (-1, 1), (-1, -1)]
  | PieceClass.Queen =>
    self.addStraightLineMoves [] board
      [(0, 1), (0, -1), (1, 0), (-1, 0), (1, 1), (1, -1), (-1, 1), (-1, -1)]
  | PieceClass.King => []

/-- The first loop of `King::getValidMoves`: the steps to the 8 neighbours. -/
def King.stepMoves (self : Piece) (board : Board) : List Move :=
  self.offsetMoves board [(-1, -1), (-1, 0), (-1, 1), (0, -1), (0, 1), (1, -1), (1, 0), (1, 1)]

/-- The conditions of the king-side castling block of `King::getValidMoves` that precede the
attack queries: the right of the colour, two empty squares, an unmoved own rook. -/
def King.kingSideReady (self : Piece) (board : Board) : Bool :=
  ((decide (self.pieceColor = PieceColor.WHITE) && board.whiteKingSideCastlePossible)
    || (decide (self.pieceColor = PieceColor.BLACK) && board.blackKingSideCastlePossible))
  && (board.getPieceAt ⟨self.currentPosition.row, self.currentPosition.col + 1⟩).isNone
  && (board.getPieceAt ⟨self.currentPosition.row, self.currentPosition.col + 2⟩).isNone
  && (match board.getPieceAt ⟨self.currentPosition.row, self.currentPosition.col + 3⟩ with
      | some rook =>
        decide (rook.getType = PieceType.ROOK) && !rook.hasMoved
          && decide (rook.pieceColor = self.pieceColor)
      | none => false)

/-- The same for the queen-side block. -/
def King.queenSideReady (self : Piece) (board : Board) : Bool :=
  ((decide (self.pieceColor = PieceColor.WHITE) && board.whiteQueenSideCastlePossible)
    || (decide (self.pieceColor = PieceColor.BLACK) && board.blackQueenSideCastlePossible))
  && (board.getPieceAt ⟨self.currentPosition.row, self.currentPosition.col - 1⟩).isNone
  && (board.getPieceAt ⟨self.currentPosition.row, self.currentPosition.col - 2⟩).isNone
  && (board.getPieceAt ⟨self.currentPosition.row, self.currentPosition.col - 3⟩).isNone
  && (match board.getPieceAt ⟨self.currentPosition.row, self.currentPosition.col - 4⟩ with
      | some rook =>
        decide (rook.getType = PieceType.ROOK) && !rook.hasMoved
          && decide (rook.pieceColor = self.pieceColor)
      | none => false)

/-- The condition `!attacked(p1) && !attacked(p2) && !attacked(p3)` with its short-circuit
evaluation; `attacked` may fail to return. -/
def noneAttacked (attacked : Position → Option Bool) (p1 p2 p3 : Position) : Option Bool :=
  (attacked p1).bind fun a1 =>
    if a1 then some false
    else (attacked p2).bind fun a2 =>
      if a2 then some false
      else (attacked p3).bind fun a3 => some (!a3)

/-- Source: `King::getValidMoves`; `attacked square colour` stands for the call
`board.isSquareAttacked(square, colour, board)`. -/
def King.getValidMoves (attacked : Position → PieceColor → Option Bool) (self : Piece)
    (board : Board) : Option (List Move) :=
  let moves := King.stepMoves self board
  if self.hasMoved then some moves
  else
    let opponentColor :=
      if self.pieceColor = PieceColor.WHITE then PieceColor.BLACK else PieceColor.WHITE
    let pos := self.currentPosition
    (if King.kingSideReady self board then
        (noneAttacked (fun sq => attacked sq opponentColor) pos ⟨pos.row, pos.col + 1⟩
          ⟨pos.row, pos.col + 2⟩).bind fun free =>
          some (if free then
            moves ++ [{ Move.step pos ⟨pos.row, pos.col + 2⟩ with isCastlingMove := true }]
          else moves)
      else some moves).bind fun moves =>
    if King.queenSideReady self board then
      (noneAttacked (fun sq => attacked sq opponentColor) pos ⟨pos.row, pos.col - 1⟩
        ⟨pos.row, pos.col - 2⟩).bind fun free =>
        some (if free then
          moves ++ [{ Move.step pos ⟨pos.row, pos.col - 2⟩ with isCastlingMove := true }]
        else moves)
    else some moves

/-- The test applied to the moves of one attacker in `isSquareAttacked`: some move ends on
`square`, and for a pawn that move changes file. -/
def hitsSquare (p : Piece) (pieceMoves : List Move) (square : Position) : Bool :=
  pieceMoves.any (fun m =>
    decide (m.dst = square)
      && (if p.getType = PieceType.PAWN then decide (m.src.col ≠ m.dst.col) else true))

/-- The loops of `Board::isSquareAttacked` over the squares `positions`, given the function
`getValidMoves` that the pieces answer with. -/
def isSquareAttackedWith (getValidMoves : Piece → Option (List Move)) (currentBoard : Board)
    (square : Position) (attackerColor : PieceColor) : List Position → Option Bool
  | [] => some false
  | pos :: rest =>
    match currentBoard.getPieceAt pos with
    | some p =>
      if p.pieceColor = attackerColor then
        match getValidMoves p with
        | some pieceMoves =>
          if hitsSquare p pieceMoves square then some true
          else isSquareAttackedWith getValidMoves currentBoard square attackerColor rest
        | none => none
      else isSquareAttackedWith getValidMoves currentBoard square attackerColor rest
    | none => isSquareAttackedWith getValidMoves currentBoard square attackerColor rest

/-- Source: the virtual call `piece->getValidMoves(board)`.  The fuel bounds the nesting of
`King::getValidMoves` inside `isSquareAttacked` inside `King::getValidMoves` ...; with no fuel
left an attack query does not return. -/
def getValidMoves : Nat → Board → Piece → Option (List Move)
  | 0, board, p =>
    if p.kind = PieceClass.King then King.getValidMoves (fun _ _ => none) p board
    else some (p.plainMoves board)
  | fuel + 1, board, p =>
    if p.kind = PieceClass.King then
      King.getValidMoves
        (fun sq c =>
          isSquareAttackedWith (getValidMoves fuel board) board sq c Board.allPositions)
        p board
    else some (p.plainMoves board)

/-- Source: `Board::isSquareAttacked`. -/
def Board.isSquareAttacked (fuel : Nat) (square : Position) (attackerColor : PieceColor)
    (currentBoard : Board) : Option Bool :=
  isSquareAttackedWith (getValidMoves fuel currentBoard) currentBoard square attackerColor
    Board.allPositions

/-- The loops of `generateAllPseudoLegalMoves` over the squares `positions`. -/
def pseudoLegalLoop (fuel : Nat) (board : Board) (color : PieceColor) :
    List Position → List Move → Option (List Move)
  | [], allMoves => some allMoves
  | pos :: rest, allMoves =>
    match board.getPieceAt pos with
    | some piece =>
      if piece.pieceColor = color then
        match getValidMoves fuel board piece with
        | some pieceMoves => pseudoLegalLoop fuel board color rest (allMoves ++ pieceMoves)
        | none => none
      else pseudoLegalLoop fuel board color rest allMoves
    | none => pseudoLegalLoop fuel board color rest allMoves

/-- Source: `Board::generateAllPseudoLegalMoves`. -/
def Board.generateAllPseudoLegalMoves (fuel : Nat) (board : Board) (color : PieceColor) :
    Option (List Move) :=
  pseudoLegalLoop fuel board color Board.allPositions []

/-- Source: `Game::isKingInCheck`. -/
def isKingInCheck (fuel : Nat) (kingColor : PieceColor) (currentBoard : Board) : Option Bool :=
  let kingPos := currentBoard.findKing kingColor
  if !kingPos.isValid then some false
  else
    let attackerColor :=
      if kingColor = PieceColor.WHITE then PieceColor.BLACK else PieceColor.WHITE
    Board.isSquareAttacked fuel kingPos attackerColor currentBoard

/-- Source: `Game::applyPromotionIfAny` (the move is not changed by it). -/
def applyPromotionIfAny (move : Move) (targetBoard : Board) : Board :=
  match targetBoard.getPieceAt move.dst with
  | some pieceAtDest =>
    if pieceAtDest.getType = PieceType.PAWN ∧ move.promotionPiece ≠ PieceType.EMPTY
        ∧ ((pieceAtDest.pieceColor = PieceColor.WHITE ∧ move.dst.row = 0)
          ∨ (pieceAtDest.pieceColor = PieceColor.BLACK ∧ move.dst.row = 7)) then
      let pos := pieceAtDest.currentPosition
      let kind :=
        match move.promotionPiece with
        | PieceType.ROOK => PieceClass.Rook
        | PieceType.BISHOP => PieceClass.Bishop
        | PieceType.KNIGHT => PieceClass.Knight
        | _ => PieceClass.Queen
      targetBoard.setPieceAt pos (some ⟨kind, pieceAtDest.pieceColor, pos, false⟩)
    else targetBoard
  | none => targetBoard

/-- Lines 702-716 of `generateLegalMoves`: the copy of the board on which a pseudo-legal move is
tried (the result of `makeMove` is ignored, a promotion left open becomes a queen). -/
def boardForCheck (currentBoard : Board) (move : Move) : Board :=
  let r := currentBoard.makeMove move
  let tempBoard := r.2.1
  let tempMove := r.2.2
  let tempMove :=
    if tempMove.promotionPiece = PieceType.EMPTY then
      match tempBoard.getPieceAt tempMove.dst with
      | some p =>
        if p.getType = PieceType.PAWN
            ∧ ((p.pieceColor = PieceColor.WHITE ∧ tempMove.dst.row = 0)
              ∨ (p.pieceColor = PieceColor.BLACK ∧ tempMove.dst.row = 7)) then
          { tempMove with promotionPiece := PieceType.QUEEN }
        else tempMove
      | none => tempMove
    else tempMove
  applyPromotionIfAny tempMove tempBoard

/-- The loop of `generateLegalMoves` over the pseudo-legal moves; `inCheck move` stands for
`isKingInCheck(color, tempBoard)` on the board on which `move` was tried. -/
def legalLoop (inCheck : Move → Option Bool) : List Move → List Move → Option (List Move)
  | [], legalMoves => some legalMoves
  | move :: rest, legalMoves =>
    match inCheck move with
    | some true => legalLoop inCheck rest legalMoves
    | some false => legalLoop inCheck rest (legalMoves ++ [move])
    | none => none

/-- Source: `Game::generateLegalMoves`. -/
def generateLegalMoves (fuel : Nat) (color : PieceColor) (currentBoard : Board) :
    Option (List Move) :=
  match currentBoard.generateAllPseudoLegalMoves fuel color with
  | some pseudoLegalMoves =>
    legalLoop (fun move => isKingInCheck fuel color (boardForCheck currentBoard move))
      pseudoLegalMoves []
  | none => none

/-! ## The computer player -/

/-- The board after a move as the computer player tries it: copy, `makeMove`,
`applyPromotionIfAny` (lines 995-998, 1043-1046, 1066-1069). -/
def boardAfter (board : Board) (move : Move) : Board :=
  let r := board.makeMove move
  applyPromotionIfAny r.2.2 r.2.1

/-- The opposite colour as the source computes it: `(c == WHITE) ? BLACK : WHITE`. -/
def otherColor (c : PieceColor) : PieceColor :=
  if c = PieceColor.WHITE then PieceColor.BLACK else PieceColor.WHITE

/-- One of the two `for` loops of `AIPlayer::minimax`: `combine` is `std::max` or `std::min`,
`child` the recursive call on the board after the move. -/
def minimaxLoop (child : Board → Option Int) (combine : Int → Int → Int) (currentBoard : Board) :
    List Move → Int → Option Int
  | [], best => some best
  | move :: rest, best =>
    match child (boardAfter currentBoard move) with
    | some v => minimaxLoop child combine currentBoard rest (combine best v)
    | none => none

/-- Source: `AIPlayer::minimax` (chess); the second argument is `depth`. -/
def minimax (fuel : Nat) : Nat → Board → Bool → PieceColor → Option Int
  | 0, currentBoard, _, aiPlayerColor => some (currentBoard.evaluateMaterial aiPlayerColor)
  | d + 1, currentBoard, isMaximizingPlayer, aiPlayerColor =>
    let turnColor := if isMaximizingPlayer then aiPlayerColor else otherColor aiPlayerColor
    match generateLegalMoves fuel turnColor currentBoard with
    | none => none
    | some legalMoves =>
      if legalMoves.isEmpty then
        match isKingInCheck fuel turnColor currentBoard with
        | some inCheck =>
          some (if inCheck then
            (if isMaximizingPlayer then -200000 - ((d : Int) + 1) else 200000 + ((d : Int) + 1))
          else 0)
        | none => none
      else if isMaximizingPlayer then
        minimaxLoop (fun nextBoard => minimax fuel d nextBoard false aiPlayerColor) max
          currentBoard legalMoves (-2147483648)
      else
        minimaxLoop (fun nextBoard => minimax fuel d nextBoard true aiPlayerColor) min
          currentBoard legalMoves 2147483647

/-- The `for` loop of the MEDIUM and HARD branches of `getMove`: `score` is the value computed
for a move, `ties` the modulus of the `rand()` draw made when a score equals the best so far.
The state is `bestMove`, `bestScore` and the index of the next random number. -/
def pickLoop (score : Move → Option Int) (rand : Nat → Nat) (ties : Nat) :
    List Move → Move → Int → Nat → Option (Move × Nat)
  | [], bestMove, _, i => some (bestMove, i)
  | move :: rest, bestMove, bestScore, i =>
    match score move with
    | some s =>
      if s > bestScore then pickLoop score rand ties rest move s i
      else if s = bestScore then
        if rand i % ties = 0 then pickLoop score rand ties rest move bestScore (i + 1)
        else pickLoop score rand ties rest bestMove bestScore (i + 1)
      else pickLoop score rand ties rest bestMove bestScore i
    | none => none

/-- The score of a move in the MEDIUM branch: material after the move, plus 50 when the
opponent's king is then in check. -/
def mediumScore (fuel : Nat) (playerColor : PieceColor) (board : Board) (move : Move) :
    Option Int :=
  let tempBoard := boardAfter board move
  match isKingInCheck fuel (otherColor playerColor) tempBoard with
  | some inCheck =>
    some (if inCheck then tempBoard.evaluateMaterial playerColor + 50
      else tempBoard.evaluateMaterial playerColor)
  | none => none

/-- The score of a move in the HARD branch: `minimax` one ply below `minimaxDepth = 2`. -/
def hardScore (fuel : Nat) (playerColor : PieceColor) (board : Board) (move : Move) :
    Option Int :=
  minimax fuel 1 (boardAfter board move) false playerColor

/-- Source: `AIPlayer::getMove`.  The result is absent when the call does not return, an
`error` when it throws, else the chosen move and the index of the next random number. -/
def getMove (fuel : Nat) (rand : Nat → Nat) (i : Nat) (difficulty : AIDifficulty)
    (playerColor : PieceColor) (board : Board) : Option (Except String (Move × Nat)) :=
  match generateLegalMoves fuel playerColor board with
  | none => none
  | some [] => some (Except.error "AIPlayer Error: No legal moves available.")
  | some (first :: rest) =>
    match difficulty with
    | AIDifficulty.EASY =>
      some (Except.ok
        ((first :: rest).getD (rand i % (first :: rest).length) first, i + 1))
    | AIDifficulty.MEDIUM =>
      (pickLoop (mediumScore fuel playerColor board) rand 3 (first :: rest) first
        (-2147483648) i).map Except.ok
    | AIDifficulty.HARD =>
      (pickLoop (hardScore fuel playerColor board) rand 2 (first :: rest) first
        (-2147483648) i).map Except.ok

/-! ## Positions used in the examples -/

/-- A piece that has not moved. -/
def fresh (kind : PieceClass) (color : PieceColor) (r c : Int) : Piece :=
  ⟨kind, color, ⟨r, c⟩, false⟩

/-- The back rank as `setupInitialPieces` fills it. -/
def backRank (color : PieceColor) (r : Int) (c : Nat) : Piece :=
  match c with
  | 0 => fresh PieceClass.Rook color r 0
  | 1 => fresh PieceClass.Knight color r 1
  | 2 => fresh PieceClass.Bishop color r 2
  | 3 => fresh PieceClass.Queen color r 3
  | 4 => fresh PieceClass.King color r 4
  | 5 => fresh PieceClass.Bishop color r 5
  | 6 => fresh PieceClass.Knight color r 6
  | _ => fresh PieceClass.Rook color r 7

/-- Source: the constructor `Board::Board()`: the start position. -/
def Board.initial : Board where
  grid := fun i j =>
    if i.val = 0 then some (backRank PieceColor.BLACK 0 j.val)
    else if i.val = 1 then some (fresh PieceClass.Pawn PieceColor.BLACK 1 j.val)
    else if i.val = 6 then some (fresh PieceClass.Pawn PieceColor.WHITE 6 j.val)
    else if i.val = 7 then some (backRank PieceColor.WHITE 7 j.val)
    else none
  lastMove := Move.step ⟨-1, -1⟩ ⟨-1, -1⟩
  enPassantTargetSquare := ⟨-1, -1⟩
  whiteKingSideCastlePossible := true
  whiteQueenSideCastlePossible := true
  blackKingSideCastlePossible := true
  blackQueenSideCastlePossible := true
  halfMoveClock := 0

/-- The board after the moves of `moves` have been made in turn with `makeMove`. -/
def playMoves (board : Board) (moves : List Move) : Board :=
  moves.foldl (fun b m => (b.makeMove m).2.1) board

/-- The position after 1. e4. -/
def afterE4 : Board :=
  playMoves Board.initial [Move.step ⟨6, 4⟩ ⟨4, 4⟩]

/-- The step a7-a6 of a black pawn with the en-passant flag set: no en-passant capture is
possible on a6. -/
def flaggedA6 : Move :=
  { Move.step ⟨1, 0⟩ ⟨2, 0⟩ with isEnPassantCapture := true, enPassantVictimPos := ⟨1, 0⟩ }

/-- The position after 1. h4 a6 2. Rh3 b5: the corner h1 is empty and the en-passant square is
b6. -/
def afterRookLift : Board :=
  playMoves Board.initial
    [Move.step ⟨6, 7⟩ ⟨4, 7⟩, Move.step ⟨1, 0⟩ ⟨2, 0⟩, Move.step ⟨7, 7⟩ ⟨5, 7⟩,
      Move.step ⟨1, 1⟩ ⟨3, 1⟩]

/-- The two-file king move e1-g1. -/
def kingG1 : Move := Move.step ⟨7, 4⟩ ⟨7, 6⟩

/-- The position after 1. e4 e5 2. Nf3 Nf6, White to move. -/
def petrov : Board :=
  playMoves Board.initial
    [Move.step ⟨6, 4⟩ ⟨4, 4⟩, Move.step ⟨1, 4⟩ ⟨3, 4⟩, Move.step ⟨7, 6⟩ ⟨5, 5⟩,
      Move.step ⟨0, 6⟩ ⟨2, 5⟩]

/-- The move 3. Bc4 (f1-c4). -/
def bishopC4 : Move := Move.step ⟨7, 5⟩ ⟨4, 2⟩

/-- The move 3. ... Bc5 (f8-c5). -/
def bishopC5 : Move := Move.step ⟨0, 5⟩ ⟨3, 2⟩

/-- The board the HARD player searches below its candidate 3. Bc4. -/
def petrovBc4 : Board := boardAfter petrov bishopC4

/-- The board on which `generateLegalMoves` tries the reply 3. ... Bc5. -/
def petrovBishops : Board := boardForCheck petrovBc4 bishopC5

/-- The white king on its home square, not moved. -/
def whiteKingHome : Piece := fresh PieceClass.King PieceColor.WHITE 7 4

/-- The black king on its home square, not moved. -/
def blackKingHome : Piece := fresh PieceClass.King PieceColor.BLACK 0 4

/-! ## Reference definitions for the statements -/

/-- The scan of `isSquareAttacked` over `positions` meets the piece `king` of the attacking
colour, and no attacking piece met before it is a king or has a move that hits `square`. -/
def reachesKingFirst (b : Board) (square : Position) (attackerColor : PieceColor) (king : Piece) :
    List Position → Bool
  | [] => false
  | pos :: rest =>
    match b.getPieceAt pos with
    | some p =>
      if p.pieceColor = attackerColor then
        if p = king then true
        else if p.kind = PieceClass.King then false
        else if hitsSquare p (p.plainMoves b) square then false
        else reachesKingFirst b square attackerColor king rest
      else reachesKingFirst b square attackerColor king rest
    | none => reachesKingFirst b square attackerColor king rest

/-- The piece values in the words of the specification: the king counts as 0. -/
def materialValue : PieceType → Int
  | PieceType.PAWN => 100
  | PieceType.KNIGHT => 320
  | PieceType.BISHOP => 330
  | PieceType.ROOK => 500
  | PieceType.QUEEN => 900
  | PieceType.KING => 0
  | PieceType.EMPTY => 0

/-- The sum of the values of the pieces of colour `side` on the board. -/
def sideMaterial (b : Board) (side : PieceColor) : Int :=
  (Board.allPositions.map (fun pos =>
    match b.getPieceAt pos with
    | some p => if p.pieceColor = side then materialValue p.getType else 0
    | none => 0)).sum

/-- Every piece on the board is white or black, as every piece the program constructs is. -/
def TwoColoured (b : Board) : Prop :=
  ∀ pos p, b.getPieceAt pos = some p →
    p.pieceColor = PieceColor.WHITE ∨ p.pieceColor = PieceColor.BLACK

/-- The position after 1. e4 e5 2. Nf3 Nf6 3. Bc4 Bc5: both kings are unmoved with an empty path
to their own unmoved king-side rook. -/
def bothCastleReady : Board := playMoves petrov [bishopC4, bishopC5]

/-- The castling move `e1-g1` as `King::getValidMoves` builds it. -/
def castleG1 : Move := { Move.step ⟨7, 4⟩ ⟨7, 6⟩ with isCastlingMove := true }

/-- A black pawn on g2 that has moved. -/
def blackPawnG2 : Piece := ⟨PieceClass.Pawn, PieceColor.BLACK, ⟨6, 6⟩, true⟩

/-- Example board: white king e1 and rook h1, both unmoved, with the king-side castling right;
a black pawn on g2, which covers the empty square f1; a black king on e8 that has moved. -/
def pawnGuardsF1 : Board where
  grid := fun i j =>
    if i.val = 7 ∧ j.val = 4 then some whiteKingHome
    else if i.val = 7 ∧ j.val = 7 then some (fresh PieceClass.Rook PieceColor.WHITE 7 7)
    else if i.val = 6 ∧ j.val = 6 then some blackPawnG2
    else if i.val = 0 ∧ j.val = 4 then some ⟨PieceClass.King, PieceColor.BLACK, ⟨0, 4⟩, true⟩
    else none
  lastMove := Move.step ⟨-1, -1⟩ ⟨-1, -1⟩
  enPassantTargetSquare := ⟨-1, -1⟩
  whiteKingSideCastlePossible := true
  whiteQueenSideCastlePossible := false
  blackKingSideCastlePossible := false
  blackQueenSideCastlePossible := false
  halfMoveClock := 0

/-- In the words of the claim: after `move` the opponent of `playerColor` has no legal move and
its king is in check. -/
def IsMateMove (fuel : Nat) (playerColor : PieceColor) (board : Board) (move : Move) : Prop :=
  generateLegalMoves fuel (otherColor playerColor) (boardAfter board move) = some []
    ∧ isKingInCheck fuel (otherColor playerColor) (boardAfter board move) = some true

/-- The one-ply greedy score in the words of the claim: `evaluateMaterial(playerColor)` on the
board after the move, promotion applied, plus a flat 50 if the opponent's king is then in
check. -/
def greedyScore (fuel : Nat) (playerColor : PieceColor) (board : Board) (move : Move) :
    Option Int :=
  (isKingInCheck fuel (otherColor playerColor) (boardAfter board move)).map fun inCheck =>
    (boardAfter board move).evaluateMaterial playerColor + (if inCheck then 50 else 0)

/-- The legal moves of White on the start position, in the order `generateLegalMoves` returns
them. -/
def openingMoves : List Move :=
  [Move.step ⟨6, 0⟩ ⟨5, 0⟩, Move.step ⟨6, 0⟩ ⟨4, 0⟩, Move.step ⟨6, 1⟩ ⟨5, 1⟩,
    Move.step ⟨6, 1⟩ ⟨4, 1⟩, Move.step ⟨6, 2⟩ ⟨5, 2⟩, Move.step ⟨6, 2⟩ ⟨4, 2⟩,
    Move.step ⟨6, 3⟩ ⟨5, 3⟩, Move.step ⟨6, 3⟩ ⟨4, 3⟩, Move.step ⟨6, 4⟩ ⟨5, 4⟩,
    Move.step ⟨6, 4⟩ ⟨4, 4⟩, Move.step ⟨6, 5⟩ ⟨5, 5⟩, Move.step ⟨6, 5⟩ ⟨4, 5⟩,
    Move.step ⟨6, 6⟩ ⟨5, 6⟩, Move.step ⟨6, 6⟩ ⟨4, 6⟩, Move.step ⟨6, 7⟩ ⟨5, 7⟩,
    Move.step ⟨6, 7⟩ ⟨4, 7⟩, Move.step ⟨7, 1⟩ ⟨5, 0⟩, Move.step ⟨7, 1⟩ ⟨5, 2⟩,
    Move.step ⟨7, 6⟩ ⟨5, 5⟩, Move.step ⟨7, 6⟩ ⟨5, 7⟩]

/-- No pawn waits for its promotion piece: after the call, either the move names a promotion
piece or the piece on the destination square is not a pawn on its last rank. -/
def PromotionSettled (r : Bool × Board × Move) : Prop :=
  r.2.2.promotionPiece = PieceType.EMPTY →
    ∀ p, r.2.1.getPieceAt r.2.2.dst = some p →
      ¬ (p.getType = PieceType.PAWN
        ∧ ((p.pieceColor = PieceColor.WHITE ∧ r.2.2.dst.row = 0)
          ∨ (p.pieceColor = PieceColor.BLACK ∧ r.2.2.dst.row = 7)))

/-- The board as `makeMove` has written it when it reaches the en-passant test (lines 195-207):
`halfMoveClock` and `enPassantTargetSquare` are updated, nothing else. -/
def Board.makeMoveStart (b : Board) (move : Move) (pieceToMove : Piece) : Board :=
  let isPawnMove : Bool := decide (pieceToMove.getType = PieceType.PAWN)
  let isCapture : Bool := (b.getPieceAt move.dst).isSome || move.isEnPassantCapture
  let b := { b with halfMoveClock := if isPawnMove || isCapture then 0 else b.halfMoveClock + 1 }
  let b := { b with enPassantTargetSquare := ⟨-1, -1⟩ }
  if isPawnMove && decide ((move.src.row - move.dst.row).natAbs = 2) then
    { b with
      enPassantTargetSquare := ⟨Int.tdiv (move.src.row + move.dst.row) 2, move.src.col⟩ }
  else b

/-- The position after 1. e4 e5 2. Bc4 Nc6 3. Qh5 Nf6, White to move: Qxf7 is mate. -/
def scholar : Board :=
  playMoves Board.initial
    [Move.step ⟨6, 4⟩ ⟨4, 4⟩, Move.step ⟨1, 4⟩ ⟨3, 4⟩, Move.step ⟨7, 5⟩ ⟨4, 2⟩,
      Move.step ⟨0, 1⟩ ⟨2, 2⟩, Move.step ⟨7, 3⟩ ⟨3, 7⟩, Move.step ⟨0, 6⟩ ⟨2, 5⟩]

/-- The move 4. Qxf7 (h5-f7). -/
def queenF7 : Move := Move.step ⟨3, 7⟩ ⟨1, 5⟩

/-- The move 4. Nf3 (g1-f3). -/
def knightF3 : Move := Move.step ⟨7, 6⟩ ⟨5, 5⟩

/-- The move 4. ... Be7 (f8-e7). -/
def bishopE7 : Move := Move.step ⟨0, 5⟩ ⟨1, 4⟩

/-- The board the HARD player searches below its candidate 4. Nf3. -/
def scholarNf3 : Board := boardAfter scholar knightF3

/-- The board on which `generateLegalMoves` tries the reply 4. ... Be7. -/
def scholarBe7 : Board := boardForCheck scholarNf3 bishopE7

end Chess

namespace Othello

/-! ## Facts about the evaluator -/

theorem playerToPiece_ne_opponent (p : PlayerColor) :
    playerToPiece p ≠ playerToPiece (getOpponent p) := by
  cases p <;> decide

theorem countIn_cons (b : Board) (piece : Piece) (rc : Int × Int) (cells : List (Int × Int)) :
    countIn b piece (rc :: cells)
      = (if b.cell rc.1 rc.2 = piece then 1 else 0) + countIn b piece cells := by
  unfold countIn
  by_cases h : b.cell rc.1 rc.2 = piece
  · simp [List.filter_cons, h]; omega
  · simp [List.filter_cons, h]

theorem sumIn_cons (b : Board) (piece : Piece) (rc : Int × Int) (cells : List (Int × Int)) :
    sumIn b piece (rc :: cells)
      = (if b.cell rc.1 rc.2 = piece then tableAt rc.1 rc.2 else 0) + sumIn b piece cells := by
  unfold sumIn
  by_cases h : b.cell rc.1 rc.2 = piece
  · simp [List.filter_cons, h]
  · simp [List.filter_cons, h]

/-- The counting loop of `evaluate` computes the four filtered sums. -/
theorem tally_foldl (b : Board) (pp op : Piece) (hne : pp ≠ op) (cells : List (Int × Int))
    (t : Board.Tally) :
    cells.foldl (Board.tallyStep b pp op) t
      = ⟨t.playerDiscs + countIn b pp cells, t.opponentDiscs + countIn b op cells,
         t.playerPieceSquareScore + sumIn b pp cells,
         t.opponentPieceSquareScore + sumIn b op cells⟩ := by
  induction cells generalizing t with
  | nil => simp [countIn, sumIn]
  | cons rc rest ih =>
    rw [List.foldl_cons, ih, countIn_cons, countIn_cons, sumIn_cons, sumIn_cons]
    by_cases h1 : b.cell rc.1 rc.2 = pp
    · have h2 : b.cell rc.1 rc.2 ≠ op := fun h => hne (h1.symm.trans h)
      simp only [Board.tallyStep, if_pos h1, if_neg h2, Board.Tally.mk.injEq]
      refine ⟨by omega, by omega, by omega, by omega⟩
    · by_cases h2 : b.cell rc.1 rc.2 = op
      · simp only [Board.tallyStep, if_neg h1, if_pos h2, Board.Tally.mk.injEq]
        refine ⟨by omega, by omega, by omega, by omega⟩
      · simp only [Board.tallyStep, if_neg h1, if_neg h2, Board.Tally.mk.injEq]
        refine ⟨by omega, by omega, by omega, by omega⟩

theorem tally_eq (b : Board) (pp op : Piece) (hne : pp ≠ op) :
    b.tally pp op = ⟨discCount b pp, discCount b op, squareSum b pp, squareSum b op⟩ := by
  unfold Board.tally
  rw [tally_foldl b pp op hne]
  simp [discCount, squareSum]

/-- The four corner statements of `evaluate` count the corners of each side. -/
theorem corner_foldl (b : Board) (pp op : Piece) (hne : pp ≠ op) (cells : List (Int × Int))
    (k : Int × Int) :
    cells.foldl (Board.cornerStep b pp op) k
      = (k.1 + countIn b pp cells, k.2 + countIn b op cells) := by
  induction cells generalizing k with
  | nil => simp [countIn]
  | cons rc rest ih =>
    rw [List.foldl_cons, ih, countIn_cons, countIn_cons]
    by_cases h1 : b.cell rc.1 rc.2 = pp
    · have h2 : b.cell rc.1 rc.2 ≠ op := fun h => hne (h1.symm.trans h)
      simp only [Board.cornerStep, if_pos h1, if_neg h2, Prod.mk.injEq]
      refine ⟨by omega, by omega⟩
    · by_cases h2 : b.cell rc.1 rc.2 = op
      · simp only [Board.cornerStep, if_neg h1, if_pos h2, Prod.mk.injEq]
        refine ⟨by omega, by omega⟩
      · simp only [Board.cornerStep, if_neg h1, if_neg h2, Prod.mk.injEq]
        refine ⟨by omega, by omega⟩

/-- Closed form of `evaluate`: the two short-circuits, else the positional, disc, corner and
mobility-or-terminal terms. -/
theorem evaluate_eq (b : Board) (p : PlayerColor) :
    b.evaluate p =
      if sentinelLoss b p then -50000
      else if sentinelWin b p then 50000
      else positionalTerm b p + discDifferential b p * Board.discDiffWeight (totalDiscs b p)
        + cornerTerm b p
        + (if mobility b p + mobility b (getOpponent p) ≠ 0 then mobilityTerm b p
           else terminalTerm b p) := by
  have hne := playerToPiece_ne_opponent p
  unfold Board.evaluate
  simp only [tally_eq b _ _ hne, corner_foldl b _ _ hne]
  simp only [sentinelLoss, sentinelWin, positionalTerm, discDifferential, totalDiscs, cornerTerm,
    mobilityTerm, terminalTerm, mobility, cornerCount, zero_add]
  split_ifs <;> first | rfl | omega

theorem countIn_nonneg (b : Board) (piece : Piece) (cells : List (Int × Int)) :
    0 ≤ countIn b piece cells := by
  unfold countIn; omega

theorem countIn_add_le (b : Board) (pp op : Piece) (hne : pp ≠ op) (cells : List (Int × Int)) :
    countIn b pp cells + countIn b op cells ≤ (cells.length : Int) := by
  induction cells with
  | nil => simp [countIn]
  | cons rc rest ih =>
    rw [countIn_cons, countIn_cons, List.length_cons]
    by_cases h1 : b.cell rc.1 rc.2 = pp
    · have h2 : b.cell rc.1 rc.2 ≠ op := fun h => hne (h1.symm.trans h)
      rw [if_pos h1, if_neg h2]; push_cast; omega
    · rw [if_neg h1]; split_ifs <;> · push_cast; omega

theorem tableAt_bounds :
    ∀ rc ∈ Board.allCells, -500 ≤ tableAt rc.1 rc.2 ∧ tableAt rc.1 rc.2 ≤ 500 := by
  decide

theorem sumIn_bounds (b : Board) (piece : Piece) (cells : List (Int × Int))
    (hcells : ∀ rc ∈ cells, -500 ≤ tableAt rc.1 rc.2 ∧ tableAt rc.1 rc.2 ≤ 500) :
    -500 * countIn b piece cells ≤ sumIn b piece cells
      ∧ sumIn b piece cells ≤ 500 * countIn b piece cells := by
  induction cells with
  | nil => simp [countIn, sumIn]
  | cons rc rest ih =>
    have hrc := hcells rc (List.mem_cons_self _ _)
    have hrest := ih (fun x hx => hcells x (List.mem_cons_of_mem _ hx))
    rw [countIn_cons, sumIn_cons]
    split_ifs <;> omega

theorem validMoves_foldl_length (b : Board) (player : PlayerColor) (cells : List (Int × Int))
    (acc : List Move) :
    (cells.foldl (Board.validMoveStep b player) acc).length ≤ acc.length + cells.length := by
  induction cells generalizing acc with
  | nil => simp
  | cons rc rest ih =>
    rw [List.foldl_cons]
    refine le_trans (ih _) ?_
    unfold Board.validMoveStep
    split_ifs <;> simp only [List.length_append, List.length_cons, List.length_nil] <;> omega

theorem validMoves_foldl_mem (b : Board) (player : PlayerColor) (cells : List (Int × Int))
    (acc : List Move) (m : Move) :
    m ∈ cells.foldl (Board.validMoveStep b player) acc ↔
      m ∈ acc ∨ ∃ rc ∈ cells, m = ⟨rc.1, rc.2⟩ ∧ b.cell rc.1 rc.2 = Piece.EMPTY
        ∧ b.getFlipsForMove rc.1 rc.2 player ≠ [] := by
  induction cells generalizing acc with
  | nil => simp
  | cons rc rest ih =>
    rw [List.foldl_cons, ih]
    unfold Board.validMoveStep
    by_cases h1 : b.cell rc.1 rc.2 = Piece.EMPTY
    · by_cases h2 : b.getFlipsForMove rc.1 rc.2 player = []
      · simp [h1, h2]
      · have h3 : (!(b.getFlipsForMove rc.1 rc.2 player).isEmpty) = true := by
          simp [List.isEmpty_iff, h2]
        simp only [if_pos h1, if_pos h3, List.mem_append, List.mem_singleton, List.mem_cons,
          exists_eq_or_imp, List.not_mem_nil, or_false]
        constructor
        · rintro ((h | h) | h)
          · exact Or.inl h
          · exact Or.inr (Or.inl ⟨h, h1, h2⟩)
          · exact Or.inr (Or.inr h)
        · rintro (h | h | h)
          · exact Or.inl (Or.inl h)
          · exact Or.inl (Or.inr h.1)
          · exact Or.inr h
    · simp [h1]

/-- A move is legal exactly when its cell is one of the 64, empty, and flips something. -/
theorem mem_getValidMoves (b : Board) (player : PlayerColor) (m : Move) :
    m ∈ b.getValidMoves player ↔
      ∃ rc ∈ Board.allCells, m = ⟨rc.1, rc.2⟩ ∧ b.cell rc.1 rc.2 = Piece.EMPTY
        ∧ b.getFlipsForMove rc.1 rc.2 player ≠ [] := by
  unfold Board.getValidMoves
  rw [validMoves_foldl_mem]
  simp

theorem allCells_isValid : ∀ rc ∈ Board.allCells, (Move.mk rc.1 rc.2).isValid = true := by
  decide

theorem getValidMoves_isValid (b : Board) (player : PlayerColor) (m : Move)
    (hm : m ∈ b.getValidMoves player) : m.isValid = true := by
  obtain ⟨rc, hrc, hmrc, _⟩ := (mem_getValidMoves b player m).mp hm
  rw [hmrc]
  exact allCells_isValid rc hrc

theorem allCells_length : Board.allCells.length = 64 := by decide

theorem mobility_bounds (b : Board) (p : PlayerColor) : 0 ≤ mobility b p ∧ mobility b p ≤ 64 := by
  have h := validMoves_foldl_length b p Board.allCells []
  rw [allCells_length] at h
  unfold mobility Board.getValidMoves
  simp only [List.length_nil, zero_add] at h
  omega

theorem mobility_eq_zero_iff (b : Board) (p : PlayerColor) :
    mobility b p = 0 ↔ b.getValidMoves p = [] := by
  unfold mobility
  constructor
  · intro h
    exact List.length_eq_zero.mp (by omega)
  · intro h
    rw [h]; rfl

/-- Every score of `evaluate` is far inside the range of a 32-bit `int`. -/
theorem evaluate_abs_le (b : Board) (p : PlayerColor) :
    -100000 ≤ b.evaluate p ∧ b.evaluate p ≤ 100000 := by
  have hne := playerToPiece_ne_opponent p
  have hd := countIn_add_le b _ _ hne Board.allCells
  rw [allCells_length] at hd
  have hpd := countIn_nonneg b (playerToPiece p) Board.allCells
  have hod := countIn_nonneg b (playerToPiece (getOpponent p)) Board.allCells
  have hps := sumIn_bounds b (playerToPiece p) Board.allCells tableAt_bounds
  have hos := sumIn_bounds b (playerToPiece (getOpponent p)) Board.allCells tableAt_bounds
  have hc := countIn_add_le b _ _ hne Board.corners
  have hpc := countIn_nonneg b (playerToPiece p) Board.corners
  have hoc := countIn_nonneg b (playerToPiece (getOpponent p)) Board.corners
  have hcl : ((Board.corners.length : Nat) : Int) = 4 := by decide
  rw [hcl] at hc
  have hpm := mobility_bounds b p
  have hom := mobility_bounds b (getOpponent p)
  rw [evaluate_eq]
  simp only [sentinelLoss, sentinelWin, positionalTerm, discDifferential, totalDiscs, cornerTerm,
    mobilityTerm, terminalTerm, cornerCount, discCount, squareSum, Board.discDiffWeight]
  push_cast at hd
  split_ifs <;> omega

theorem evaluate_gt_INT_MIN (b : Board) (p : PlayerColor) : INT_MIN < b.evaluate p := by
  have h := evaluate_abs_le b p
  unfold INT_MIN; omega

theorem evaluate_lt_INT_MAX (b : Board) (p : PlayerColor) : b.evaluate p < INT_MAX := by
  have h := evaluate_abs_le b p
  unfold INT_MAX; omega

/-! ## Facts about the search -/

theorem foldl_max_spec (xs : List Int) (x : Int) :
    x ≤ xs.foldl max x ∧ (∀ y ∈ xs, y ≤ xs.foldl max x) ∧ xs.foldl max x ∈ x :: xs := by
  induction xs generalizing x with
  | nil => simp
  | cons y ys ih =>
    obtain ⟨h1, h2, h3⟩ := ih (max x y)
    rw [List.foldl_cons]
    refine ⟨by omega, ?_, ?_⟩
    · intro z hz
      rcases List.mem_cons.mp hz with rfl | hz
      · omega
      · exact h2 z hz
    · rcases List.mem_cons.mp h3 with h | h
      · rcases max_choice x y with hxy | hxy
        · rw [h, hxy]; exact List.mem_cons_self _ _
        · rw [h, hxy]; exact List.mem_cons_of_mem _ (List.mem_cons_self _ _)
      · exact List.mem_cons_of_mem _ (List.mem_cons_of_mem _ h)

theorem foldl_min_spec (xs : List Int) (x : Int) :
    xs.foldl min x ≤ x ∧ (∀ y ∈ xs, xs.foldl min x ≤ y) ∧ xs.foldl min x ∈ x :: xs := by
  induction xs generalizing x with
  | nil => simp
  | cons y ys ih =>
    obtain ⟨h1, h2, h3⟩ := ih (min x y)
    rw [List.foldl_cons]
    refine ⟨by omega, ?_, ?_⟩
    · intro z hz
      rcases List.mem_cons.mp hz with rfl | hz
      · omega
      · exact h2 z hz
    · rcases List.mem_cons.mp h3 with h | h
      · rcases min_choice x y with hxy | hxy
        · rw [h, hxy]; exact List.mem_cons_self _ _
        · rw [h, hxy]; exact List.mem_cons_of_mem _ (List.mem_cons_self _ _)
      · exact List.mem_cons_of_mem _ (List.mem_cons_of_mem _ h)

theorem maxOfList_spec (l : List Int) (hl : l ≠ []) :
    (∀ y ∈ l, y ≤ maxOfList l) ∧ maxOfList l ∈ l := by
  cases l with
  | nil => exact absurd rfl hl
  | cons x xs =>
    obtain ⟨h1, h2, h3⟩ := foldl_max_spec xs x
    refine ⟨?_, h3⟩
    intro y hy
    rcases List.mem_cons.mp hy with rfl | hy
    · exact h1
    · exact h2 y hy

theorem minOfList_spec (l : List Int) (hl : l ≠ []) :
    (∀ y ∈ l, minOfList l ≤ y) ∧ minOfList l ∈ l := by
  cases l with
  | nil => exact absurd rfl hl
  | cons x xs =>
    obtain ⟨h1, h2, h3⟩ := foldl_min_spec xs x
    refine ⟨?_, h3⟩
    intro y hy
    rcases List.mem_cons.mp hy with rfl | hy
    · exact h1
    · exact h2 y hy

theorem Sound.of_eq (v alpha beta : Int) : Sound v v alpha beta :=
  ⟨fun _ => le_refl _, fun _ => le_refl _, fun _ _ => rfl⟩

/-- The value of the unpruned recursion is one of the evaluator's scores. -/
theorem plainMinimax_bounds (perspective : PlayerColor) (d : Nat) :
    ∀ (board : Board) (maxi : Bool) (mover : PlayerColor),
      -100000 ≤ plainMinimax perspective d board maxi mover
        ∧ plainMinimax perspective d board maxi mover ≤ 100000 := by
  induction d with
  | zero => intro board maxi mover; exact evaluate_abs_le board perspective
  | succ d ih =>
    intro board maxi mover
    unfold plainMinimax
    by_cases hover : board.isGameOver = true
    · rw [if_pos hover]; exact evaluate_abs_le board perspective
    · rw [if_neg hover]
      by_cases hempty : (board.getValidMoves mover).isEmpty = true
      · rw [if_pos hempty]; exact ih _ _ _
      · rw [if_neg hempty]
        have hne : (board.getValidMoves mover).map (fun move =>
            plainMinimax perspective d (playMove board mover move) (!maxi)
              (getOpponent mover)) ≠ [] := by
          intro h
          apply hempty
          rw [List.map_eq_nil_iff] at h
          rw [h]; rfl
        cases maxi with
        | true =>
          have hmem := (maxOfList_spec _ hne).2
          obtain ⟨m, _, hm⟩ := List.mem_map.mp hmem
          simp only [if_true]
          rw [← hm]; exact ih _ _ _
        | false =>
          have hmem := (minOfList_spec _ hne).2
          obtain ⟨m, _, hm⟩ := List.mem_map.mp hmem
          simp only [Bool.false_eq_true, if_false]
          rw [← hm]; exact ih _ _ _

/-- Invariant of the maximizing loop.  With `me` the running maximum and `(a, be)` the current
window, the loop result bounds every child from above when it stays below `be`, is witnessed by a
child when it reaches `be`, and is attained by a child when strictly inside the window. -/
theorem maxLoop_sound {G : Type} (child : Board → Int → Int → G → Int × G) (V : Board → Int)
    (board : Board) (turn : PlayerColor) (lo hi : Int)
    (hchild : ∀ nb a be g, lo ≤ a → a < be → be ≤ hi → Sound (child nb a be g).1 (V nb) a be)
    (ms : List Move) :
    ∀ (me a be : Int) (g : G), lo ≤ a → a < be → be ≤ hi → me ≤ a →
      me ≤ (maxLoop child board turn ms me a be g).1
      ∧ ((maxLoop child board turn ms me a be g).1 < be →
          ∀ m ∈ ms, V (playMove board turn m) ≤ (maxLoop child board turn ms me a be g).1)
      ∧ (be ≤ (maxLoop child board turn ms me a be g).1 →
          ∃ m ∈ ms, (maxLoop child board turn ms me a be g).1 ≤ V (playMove board turn m))
      ∧ (a < (maxLoop child board turn ms me a be g).1 →
          (maxLoop child board turn ms me a be g).1 < be →
          ∃ m ∈ ms, V (playMove board turn m) = (maxLoop child board turn ms me a be g).1) := by
  induction ms with
  | nil =>
    intro me a be g hlo hab hhi hme
    simp only [maxLoop]
    refine ⟨le_refl _, ?_, ?_, ?_⟩
    · intro _ m hm; cases hm
    · intro h; omega
    · intro h; omega
  | cons m rest ih =>
    intro me a be g hlo hab hhi hme
    obtain ⟨hc1, hc2, hc3⟩ := hchild (playMove board turn m) a be g hlo hab hhi
    simp only [maxLoop]
    generalize child (playMove board turn m) a be g = r at hc1 hc2 hc3 ⊢
    by_cases hcut : be ≤ max a r.1
    · rw [if_pos hcut]
      refine ⟨by omega, fun _ => by omega, ?_, fun _ _ => by omega⟩
      intro _
      have hlow := hc2 (by omega)
      exact ⟨m, List.mem_cons_self _ _, by omega⟩
    · rw [if_neg hcut]
      have hih := ih (max me r.1) (max a r.1) be r.2 (by omega) (by omega) hhi (by omega)
      generalize maxLoop child board turn rest (max me r.1) (max a r.1) be r.2 = res
        at hih ⊢
      obtain ⟨i1, i2, i3, i4⟩ := hih
      refine ⟨by clear i2 i3 i4; omega, ?_, ?_, ?_⟩
      · intro hlt x hx
        rcases List.mem_cons.mp hx with hxm | hx
        · rw [hxm]
          clear i2 i3 i4
          by_cases hle : r.1 ≤ a
          · have := hc1 hle; omega
          · have := hc3 (by omega) (by omega); omega
        · exact i2 hlt x hx
      · intro hge
        obtain ⟨x, hx, hxv⟩ := i3 hge
        exact ⟨x, List.mem_cons_of_mem _ hx, hxv⟩
      · intro hgt hlt
        by_cases hbig : max a r.1 < res.1
        · obtain ⟨x, hx, hxv⟩ := i4 hbig hlt
          exact ⟨x, List.mem_cons_of_mem _ hx, hxv⟩
        · refine ⟨m, List.mem_cons_self _ _, ?_⟩
          clear i2 i3 i4
          have := hc3 (by omega) (by omega)
          omega

/-- Invariant of the minimizing loop, the mirror image of `maxLoop_sound`. -/
theorem minLoop_sound {G : Type} (child : Board → Int → Int → G → Int × G) (V : Board → Int)
    (board : Board) (turn : PlayerColor) (lo hi : Int)
    (hchild : ∀ nb a be g, lo ≤ a → a < be → be ≤ hi → Sound (child nb a be g).1 (V nb) a be)
    (ms : List Move) :
    ∀ (me a be : Int) (g : G), lo ≤ a → a < be → be ≤ hi → be ≤ me →
      (minLoop child board turn ms me a be g).1 ≤ me
      ∧ (a < (minLoop child board turn ms me a be g).1 →
          ∀ m ∈ ms, (minLoop child board turn ms me a be g).1 ≤ V (playMove board turn m))
      ∧ ((minLoop child board turn ms me a be g).1 ≤ a →
          ∃ m ∈ ms, V (playMove board turn m) ≤ (minLoop child board turn ms me a be g).1)
      ∧ (a < (minLoop child board turn ms me a be g).1 →
          (minLoop child board turn ms me a be g).1 < be →
          ∃ m ∈ ms, V (playMove board turn m) = (minLoop child board turn ms me a be g).1) := by
  induction ms with
  | nil =>
    intro me a be g hlo hab hhi hme
    simp only [minLoop]
    refine ⟨le_refl _, ?_, ?_, ?_⟩
    · intro _ m hm; cases hm
    · intro h; omega
    · intro _ h; omega
  | cons m rest ih =>
    intro me a be g hlo hab hhi hme
    obtain ⟨hc1, hc2, hc3⟩ := hchild (playMove board turn m) a be g hlo hab hhi
    simp only [minLoop]
    generalize child (playMove board turn m) a be g = r at hc1 hc2 hc3 ⊢
    by_cases hcut : min be r.1 ≤ a
    · rw [if_pos hcut]
      refine ⟨by omega, fun _ => by omega, ?_, fun _ _ => by omega⟩
      intro _
      have hup := hc1 (by omega)
      exact ⟨m, List.mem_cons_self _ _, by omega⟩
    · rw [if_neg hcut]
      have hih := ih (min me r.1) a (min be r.1) r.2 hlo (by omega) (by omega) (by omega)
      generalize minLoop child board turn rest (min me r.1) a (min be r.1) r.2 = res
        at hih ⊢
      obtain ⟨i1, i2, i3, i4⟩ := hih
      refine ⟨by clear i2 i3 i4; omega, ?_, ?_, ?_⟩
      · intro hgt x hx
        rcases List.mem_cons.mp hx with hxm | hx
        · rw [hxm]
          clear i2 i3 i4
          by_cases hge : be ≤ r.1
          · have := hc2 hge; omega
          · have := hc3 (by omega) (by omega); omega
        · exact i2 hgt x hx
      · intro hle
        obtain ⟨x, hx, hxv⟩ := i3 hle
        exact ⟨x, List.mem_cons_of_mem _ hx, hxv⟩
      · intro hgt hlt
        by_cases hsmall : res.1 < min be r.1
        · obtain ⟨x, hx, hxv⟩ := i4 hgt hsmall
          exact ⟨x, List.mem_cons_of_mem _ hx, hxv⟩
        · refine ⟨m, List.mem_cons_self _ _, ?_⟩
          clear i2 i3 i4
          have := hc3 (by omega) (by omega)
          omega

/-- Fail-soft soundness of `AIPlayer::minimax` for every window inside the `int` range. -/
theorem minimax_sound {G : Type} (sh : G → List Move → List Move × G)
    (hsh : ∀ g l, (sh g l).1.Perm l) (perspective : PlayerColor) (d : Nat) :
    ∀ (board : Board) (alpha beta : Int) (maxi : Bool) (turn : PlayerColor) (g : G),
      INT_MIN ≤ alpha → alpha < beta → beta ≤ INT_MAX →
      Sound (minimax sh board d alpha beta maxi perspective turn g).1
        (plainMinimax perspective d board maxi turn) alpha beta := by
  induction d with
  | zero =>
    intro board alpha beta maxi turn g _ _ _
    simp only [minimax, plainMinimax]
    exact Sound.of_eq _ _ _
  | succ d ih =>
    intro board alpha beta maxi turn g hlo hab hhi
    unfold minimax plainMinimax
    by_cases hover : board.isGameOver = true
    · simp only [if_pos hover]; exact Sound.of_eq _ _ _
    · simp only [if_neg hover]
      by_cases hempty : (board.getValidMoves turn).isEmpty = true
      · simp only [if_pos hempty]; exact ih _ _ _ _ _ _ hlo hab hhi
      · simp only [if_neg hempty]
        have hperm := hsh g (board.getValidMoves turn)
        generalize sh g (board.getValidMoves turn) = s at hperm ⊢
        cases maxi with
        | true =>
          simp only [if_true, Bool.not_true]
          have hne : (board.getValidMoves turn).map (fun move =>
              plainMinimax perspective d (playMove board turn move) false
                (getOpponent turn)) ≠ [] := by
            intro h
            apply hempty
            rw [List.map_eq_nil_iff] at h
            rw [h]; rfl
          obtain ⟨hmax, hmem⟩ := maxOfList_spec _ hne
          obtain ⟨_, l2, l3, l4⟩ := maxLoop_sound
            (fun nextBoard a b g1 =>
              minimax sh nextBoard d a b false perspective (getOpponent turn) g1)
            (fun nb => plainMinimax perspective d nb false (getOpponent turn))
            board turn INT_MIN INT_MAX
            (fun nb a be g1 h1 h2 h3 => ih nb a be false (getOpponent turn) g1 h1 h2 h3)
            s.1 INT_MIN alpha beta s.2 hlo hab hhi hlo
          generalize (maxLoop
            (fun nextBoard a b g1 =>
              minimax sh nextBoard d a b false perspective (getOpponent turn) g1)
            board turn s.1 INT_MIN alpha beta s.2).1 = r at l2 l3 l4 ⊢
          have hupper : r < beta → maxOfList ((board.getValidMoves turn).map (fun move =>
              plainMinimax perspective d (playMove board turn move) false
                (getOpponent turn))) ≤ r := by
            intro hlt
            obtain ⟨m, hm, hmv⟩ := List.mem_map.mp hmem
            rw [← hmv]
            exact l2 hlt m (hperm.mem_iff.mpr hm)
          have hlower : ∀ m ∈ s.1, plainMinimax perspective d (playMove board turn m) false
              (getOpponent turn) ≤ maxOfList ((board.getValidMoves turn).map (fun move =>
              plainMinimax perspective d (playMove board turn move) false
                (getOpponent turn))) := by
            intro m hm
            exact hmax _ (List.mem_map.mpr ⟨m, hperm.mem_iff.mp hm, rfl⟩)
          refine ⟨fun h => hupper (lt_of_le_of_lt h hab), ?_, ?_⟩
          · intro h
            obtain ⟨m, hm, hmv⟩ := l3 h
            exact le_trans hmv (hlower m hm)
          · intro h1 h2
            obtain ⟨m, hm, hmv⟩ := l4 h1 h2
            have h3 := hlower m hm
            have h4 := hupper h2
            rw [hmv] at h3
            exact le_antisymm h3 h4
        | false =>
          simp only [Bool.false_eq_true, if_false, Bool.not_false]
          have hne : (board.getValidMoves turn).map (fun move =>
              plainMinimax perspective d (playMove board turn move) true
                (getOpponent turn)) ≠ [] := by
            intro h
            apply hempty
            rw [List.map_eq_nil_iff] at h
            rw [h]; rfl
          obtain ⟨hmin, hmem⟩ := minOfList_spec _ hne
          obtain ⟨_, l2, l3, l4⟩ := minLoop_sound
            (fun nextBoard a b g1 =>
              minimax sh nextBoard d a b true perspective (getOpponent turn) g1)
            (fun nb => plainMinimax perspective d nb true (getOpponent turn))
            board turn INT_MIN INT_MAX
            (fun nb a be g1 h1 h2 h3 => ih nb a be true (getOpponent turn) g1 h1 h2 h3)
            s.1 INT_MAX alpha beta s.2 hlo hab hhi hhi
          generalize (minLoop
            (fun nextBoard a b g1 =>
              minimax sh nextBoard d a b true perspective (getOpponent turn) g1)
            board turn s.1 INT_MAX alpha beta s.2).1 = r at l2 l3 l4 ⊢
          have hlower : alpha < r → r ≤ minOfList ((board.getValidMoves turn).map (fun move =>
              plainMinimax perspective d (playMove board turn move) true
                (getOpponent turn))) := by
            intro hgt
            obtain ⟨m, hm, hmv⟩ := List.mem_map.mp hmem
            rw [← hmv]
            exact l2 hgt m (hperm.mem_iff.mpr hm)
          have hupper : ∀ m ∈ s.1, minOfList ((board.getValidMoves turn).map (fun move =>
              plainMinimax perspective d (playMove board turn move) true
                (getOpponent turn))) ≤ plainMinimax perspective d (playMove board turn m) true
              (getOpponent turn) := by
            intro m hm
            exact hmin _ (List.mem_map.mpr ⟨m, hperm.mem_iff.mp hm, rfl⟩)
          refine ⟨?_, fun h => hlower (lt_of_lt_of_le hab h), ?_⟩
          · intro h
            obtain ⟨m, hm, hmv⟩ := l3 h
            exact le_trans (hupper m hm) hmv
          · intro h1 h2
            obtain ⟨m, hm, hmv⟩ := l4 h1 h2
            have h3 := hupper m hm
            have h4 := hlower h1
            rw [hmv] at h3
            exact le_antisymm h4 h3

/-- With the full window the pruned search returns the value of the unpruned recursion, whatever
the shuffles do. -/
theorem minimax_full_window {G : Type} (sh : G → List Move → List Move × G)
    (hsh : ∀ g l, (sh g l).1.Perm l) (perspective : PlayerColor) (d : Nat) (board : Board)
    (maxi : Bool) (turn : PlayerColor) (g : G) :
    (minimax sh board d INT_MIN INT_MAX maxi perspective turn g).1
      = plainMinimax perspective d board maxi turn := by
  obtain ⟨h1, h2, h3⟩ := minimax_sound sh hsh perspective d board INT_MIN INT_MAX maxi turn g
    (le_refl _) (by decide) (le_refl _)
  have hb := plainMinimax_bounds perspective d board maxi turn
  generalize (minimax sh board d INT_MIN INT_MAX maxi perspective turn g).1 = r at h1 h2 h3 ⊢
  by_cases hlow : r ≤ INT_MIN
  · have := h1 hlow
    unfold INT_MIN at hlow this; omega
  · by_cases hhigh : INT_MAX ≤ r
    · have := h2 hhigh
      unfold INT_MAX at hhigh this; omega
    · exact h3 (by omega) (by omega)

theorem flag_after_move (mover perspective : PlayerColor) (hm : mover ≠ PlayerColor.NONE)
    (hp : perspective ≠ PlayerColor.NONE) :
    (!decide (mover = perspective)) = decide (getOpponent mover = perspective)
      ∧ getOpponent mover ≠ PlayerColor.NONE := by
  cases mover <;> cases perspective <;> first | (exact absurd rfl hm) | (exact absurd rfl hp) | decide

/-- When the flag says "the mover is the perspective side", the code-shaped recursion is the
recursion of the specification. -/
theorem plainMinimax_eq_fullMinimax (perspective : PlayerColor)
    (hp : perspective ≠ PlayerColor.NONE) (d : Nat) :
    ∀ (board : Board) (mover : PlayerColor), mover ≠ PlayerColor.NONE →
      plainMinimax perspective d board (decide (mover = perspective)) mover
        = fullMinimax perspective d board mover := by
  induction d with
  | zero => intro board mover _; rfl
  | succ d ih =>
    intro board mover hm
    obtain ⟨hflag, hopp⟩ := flag_after_move mover perspective hm hp
    unfold plainMinimax fullMinimax
    simp only [hflag, ih _ _ hopp, decide_eq_true_eq]

/-! ## Facts about the iterative-deepening driver -/

/-- Each level ranks the root moves by `levelScore`, independently of the generator. -/
theorem searchLevel_spec {G : Type} (sh : G → List Move → List Move × G)
    (hsh : ∀ g l, (sh g l).1.Perm l) (board : Board) (player : PlayerColor) (cd : Nat)
    (ms : List Move) :
    ∀ (bm : Move) (bs : Int) (g : G),
      bs ≤ (searchLevel sh board player cd ms bm bs g).1.2
      ∧ (∀ m ∈ ms, levelScore board player cd m
          ≤ (searchLevel sh board player cd ms bm bs g).1.2)
      ∧ ((searchLevel sh board player cd ms bm bs g).1 = (bm, bs)
          ∨ ((searchLevel sh board player cd ms bm bs g).1.1 ∈ ms
              ∧ levelScore board player cd (searchLevel sh board player cd ms bm bs g).1.1
                = (searchLevel sh board player cd ms bm bs g).1.2)) := by
  induction ms with
  | nil => intro bm bs g; simp [searchLevel]
  | cons m rest ih =>
    intro bm bs g
    have hscore : (minimax sh (playMove board player m) (cd - 1) INT_MIN INT_MAX false player
        (getOpponent player) g).1 = levelScore board player cd m :=
      minimax_full_window sh hsh player (cd - 1) (playMove board player m) false
        (getOpponent player) g
    simp only [searchLevel]
    generalize minimax sh (playMove board player m) (cd - 1) INT_MIN INT_MAX false player
      (getOpponent player) g = r at hscore ⊢
    by_cases hgt : r.1 > bs
    · rw [if_pos hgt]
      obtain ⟨i1, i2, i3⟩ := ih m r.1 r.2
      generalize searchLevel sh board player cd rest m r.1 r.2 = res at i1 i2 i3 ⊢
      refine ⟨le_of_lt (lt_of_lt_of_le hgt i1), ?_, ?_⟩
      · intro x hx
        rcases List.mem_cons.mp hx with hxm | hx
        · rw [hxm, ← hscore]; exact i1
        · exact i2 x hx
      · right
        rcases i3 with h | ⟨h1, h2⟩
        · rw [h]; exact ⟨List.mem_cons_self _ _, hscore.symm⟩
        · exact ⟨List.mem_cons_of_mem _ h1, h2⟩
    · rw [if_neg hgt]
      obtain ⟨i1, i2, i3⟩ := ih bm bs r.2
      generalize searchLevel sh board player cd rest bm bs r.2 = res at i1 i2 i3 ⊢
      refine ⟨i1, ?_, ?_⟩
      · intro x hx
        rcases List.mem_cons.mp hx with hxm | hx
        · rw [hxm, ← hscore]; exact le_trans (not_lt.mp hgt) i1
        · exact i2 x hx
      · rcases i3 with h | ⟨h1, h2⟩
        · left; exact h
        · right; exact ⟨List.mem_cons_of_mem _ h1, h2⟩

theorem levelScore_gt_INT_MIN (board : Board) (player : PlayerColor) (cd : Nat) (m : Move) :
    INT_MIN < levelScore board player cd m := by
  have h := plainMinimax_bounds player (cd - 1) (playMove board player m) false
    (getOpponent player)
  unfold levelScore INT_MIN; omega

/-- A level started from the sentinel and `INT_MIN` ends on a move of best `levelScore`. -/
theorem searchLevel_best {G : Type} (sh : G → List Move → List Move × G)
    (hsh : ∀ g l, (sh g l).1.Perm l) (board : Board) (player : PlayerColor) (cd : Nat)
    (ms : List Move) (hms : ms ≠ []) (g : G) :
    (searchLevel sh board player cd ms ⟨-1, -1⟩ INT_MIN g).1.1 ∈ ms
      ∧ ∀ m ∈ ms, levelScore board player cd m
          ≤ levelScore board player cd (searchLevel sh board player cd ms ⟨-1, -1⟩ INT_MIN g).1.1 := by
  obtain ⟨_, i2, i3⟩ := searchLevel_spec sh hsh board player cd ms ⟨-1, -1⟩ INT_MIN g
  generalize searchLevel sh board player cd ms ⟨-1, -1⟩ INT_MIN g = res at i2 i3 ⊢
  rcases i3 with h | ⟨h1, h2⟩
  · exfalso
    obtain ⟨m0, hm0⟩ := List.exists_mem_of_ne_nil ms hms
    have hle := i2 m0 hm0
    have hgt := levelScore_gt_INT_MIN board player cd m0
    rw [h] at hle
    exact absurd hle (not_le.mpr hgt)
  · refine ⟨h1, ?_⟩
    intro m hm
    rw [h2]; exact i2 m hm

theorem searchLevel_mem {G : Type} (sh : G → List Move → List Move × G) (board : Board)
    (player : PlayerColor) (cd : Nat) (ms : List Move) :
    ∀ (bm : Move) (bs : Int) (g : G),
      (searchLevel sh board player cd ms bm bs g).1.1 = bm
        ∨ (searchLevel sh board player cd ms bm bs g).1.1 ∈ ms := by
  induction ms with
  | nil => intro bm bs g; left; rfl
  | cons m rest ih =>
    intro bm bs g
    simp only [searchLevel]
    split_ifs
    · rcases ih m _ _ with h | h
      · right; rw [h]; exact List.mem_cons_self _ _
      · right; exact List.mem_cons_of_mem _ h
    · rcases ih bm bs _ with h | h
      · left; exact h
      · right; exact List.mem_cons_of_mem _ h

/-- The best move kept by the outer loop never leaves the candidate list. -/
theorem deepen_mem {G : Type} (sh : G → List Move → List Move × G) (maxDepth limit : Int)
    (elapsed : Nat → Int) (board : Board) (player : PlayerColor) (vm : List Move) :
    ∀ (fuel cd : Nat) (best : Move) (g : G), best ∈ vm →
      (deepen sh maxDepth limit elapsed board player vm fuel cd best g).1 ∈ vm := by
  intro fuel
  induction fuel with
  | zero => intro cd best g hbest; exact hbest
  | succ k ih =>
    intro cd best g hbest
    simp only [deepen]
    by_cases hcd : (cd : Int) ≤ maxDepth
    · rw [if_pos hcd]
      have hlvl := searchLevel_mem sh board player cd vm ⟨-1, -1⟩ INT_MIN g
      generalize searchLevel sh board player cd vm ⟨-1, -1⟩ INT_MIN g = lvl at hlvl ⊢
      have hbest2 : (if lvl.1.1.isValid = true then lvl.1.1 else best) ∈ vm := by
        by_cases hv : lvl.1.1.isValid = true
        · rw [if_pos hv]
          rcases hlvl with h | h
          · rw [h] at hv; exact absurd hv (by decide)
          · exact h
        · rw [if_neg hv]; exact hbest
      generalize (if lvl.1.1.isValid = true then lvl.1.1 else best) = best2 at hbest2 ⊢
      by_cases hstop : elapsed cd ≥ limit ∧ (cd : Int) < maxDepth
      · rw [if_pos hstop]; exact hbest2
      · rw [if_neg hstop]; exact ih _ _ _ hbest2
    · rw [if_neg hcd]; exact hbest

theorem stopFrom_stop (cd M : Nat) (limit : Int) (elapsed : Nat → Int) (hcd : cd < M)
    (hstop : limit ≤ elapsed cd) : stopFrom cd M limit elapsed = cd := by
  unfold stopFrom
  obtain ⟨n, hn⟩ : ∃ n, M - cd = n + 1 := ⟨M - cd - 1, by omega⟩
  rw [hn, List.range'_succ, List.find?_cons]
  simp [hstop]

theorem stopFrom_continue (cd M : Nat) (limit : Int) (elapsed : Nat → Int) (hcd : cd < M)
    (hgo : ¬ limit ≤ elapsed cd) :
    stopFrom cd M limit elapsed = stopFrom (cd + 1) M limit elapsed := by
  unfold stopFrom
  obtain ⟨n, hn⟩ : ∃ n, M - cd = n + 1 := ⟨M - cd - 1, by omega⟩
  have hn2 : M - (cd + 1) = n := by omega
  rw [hn, hn2, List.range'_succ, List.find?_cons]
  simp [hgo]

theorem stopFrom_last (M : Nat) (limit : Int) (elapsed : Nat → Int) :
    stopFrom M M limit elapsed = M := by
  unfold stopFrom
  simp

/-- The outer loop returns a best move of the last level it completes, `stopFrom cd`. -/
theorem deepen_spec {G : Type} (sh : G → List Move → List Move × G)
    (hsh : ∀ g l, (sh g l).1.Perm l) (maxDepth limit : Int) (elapsed : Nat → Int)
    (board : Board) (player : PlayerColor) (vm : List Move) (hvm : vm ≠ [])
    (hvalid : ∀ m ∈ vm, m.isValid = true) :
    ∀ (fuel cd : Nat) (best : Move) (g : G), (cd : Int) ≤ maxDepth →
      fuel + cd = maxDepth.toNat + 1 →
      (deepen sh maxDepth limit elapsed board player vm fuel cd best g).1 ∈ vm
      ∧ ∀ m ∈ vm, levelScore board player (stopFrom cd maxDepth.toNat limit elapsed) m
          ≤ levelScore board player (stopFrom cd maxDepth.toNat limit elapsed)
              (deepen sh maxDepth limit elapsed board player vm fuel cd best g).1 := by
  intro fuel
  induction fuel with
  | zero => intro cd best g hcd hfuel; omega
  | succ k ih =>
    intro cd best g hcd hfuel
    simp only [deepen, if_pos hcd]
    obtain ⟨hmem, hbest⟩ := searchLevel_best sh hsh board player cd vm hvm g
    generalize searchLevel sh board player cd vm ⟨-1, -1⟩ INT_MIN g = lvl at hmem hbest ⊢
    rw [if_pos (hvalid _ hmem)]
    by_cases hstop : elapsed cd ≥ limit ∧ (cd : Int) < maxDepth
    · rw [if_pos hstop]
      rw [stopFrom_stop cd maxDepth.toNat limit elapsed (by omega) hstop.1]
      exact ⟨hmem, hbest⟩
    · rw [if_neg hstop]
      by_cases hlast : (cd : Int) < maxDepth
      · have hgo : ¬ limit ≤ elapsed cd := fun h => hstop ⟨h, hlast⟩
        rw [stopFrom_continue cd maxDepth.toNat limit elapsed (by omega) hgo]
        exact ih (cd + 1) lvl.1.1 lvl.2 (by push_cast; omega) (by omega)
      · have hk : k = 0 := by omega
        have hM : maxDepth.toNat = cd := by omega
        subst hk
        rw [hM, stopFrom_last]
        exact ⟨hmem, hbest⟩

/-- When the first clock check already finds the budget used up, the loop does exactly what it
does for `maxDepth = 1`. -/
theorem deepen_first_stop {G : Type} (sh : G → List Move → List Move × G)
    (maxDepth limit : Int) (elapsed : Nat → Int) (board : Board) (player : PlayerColor)
    (vm : List Move) (best : Move) (g : G) (hdepth : 1 ≤ maxDepth) (hstop : limit ≤ elapsed 1) :
    deepen sh maxDepth limit elapsed board player vm maxDepth.toNat 1 best g
      = deepen sh 1 limit elapsed board player vm 1 1 best g := by
  obtain ⟨k, hk⟩ : ∃ k, maxDepth.toNat = k + 1 := ⟨maxDepth.toNat - 1, by omega⟩
  rw [hk]
  have h1 : ((1 : Nat) : Int) ≤ maxDepth := by omega
  have h2 : ((1 : Nat) : Int) ≤ 1 := by omega
  have h3 : ¬ (((1 : Nat) : Int) < 1) := by omega
  simp only [deepen, if_pos h1, if_pos h2, h3, and_false, if_false]
  by_cases hlt : ((1 : Nat) : Int) < maxDepth
  · have hc : elapsed 1 ≥ limit ∧ ((1 : Nat) : Int) < maxDepth := ⟨hstop, hlt⟩
    rw [if_pos hc]
  · have hc : ¬ (elapsed 1 ≥ limit ∧ ((1 : Nat) : Int) < maxDepth) := fun h => hlt h.2
    have hk0 : k = 0 := by omega
    subst hk0
    rw [if_neg hc]
    simp only [deepen]

/-- More fuel than `maxDepth.toNat + 1 - currentDepth` does not change the outer loop. -/
theorem deepen_fuel {G : Type} (sh : G → List Move → List Move × G) (maxDepth limit : Int)
    (elapsed : Nat → Int) (board : Board) (player : PlayerColor) (vm : List Move) :
    ∀ (fuel cd : Nat) (best : Move) (g : G), maxDepth.toNat + 1 ≤ fuel + cd →
      deepen sh maxDepth limit elapsed board player vm (fuel + 1) cd best g
        = deepen sh maxDepth limit elapsed board player vm fuel cd best g := by
  intro fuel
  induction fuel with
  | zero =>
    intro cd best g h
    have hcd : ¬ ((cd : Int) ≤ maxDepth) := by omega
    simp only [deepen, if_neg hcd]
  | succ k ih =>
    intro cd best g h
    rw [deepen]
    conv_rhs => rw [deepen]
    split_ifs
    · rfl
    · exact ih _ _ _ (by omega)
    · rfl

/-- The `while` loop of `getFlipsForMove` needs no more fuel once the walk has left the grid. -/
theorem walkLine_fuel_succ (b : Board) (opp : Piece) (dr dc : Int) :
    ∀ (fuel : Nat) (r c : Int) (line : List Move),
      Board.isWithinBounds (r + fuel * dr) (c + fuel * dc) = false →
      Board.walkLine b opp dr dc (fuel + 1) r c line = Board.walkLine b opp dr dc fuel r c line := by
  intro fuel
  induction fuel with
  | zero =>
    intro r c line h
    simp only [Nat.cast_zero, zero_mul, add_zero] at h
    simp [Board.walkLine, h]
  | succ k ih =>
    intro r c line h
    rw [Board.walkLine]
    conv_rhs => rw [Board.walkLine]
    split_ifs
    · apply ih
      rw [← h]
      congr 1 <;> push_cast <;> ring
    · rfl

/-- Eight iterations are enough for every line that starts next to a cell of the grid. -/
theorem walkLine_fuel_enough (b : Board) (opp : Piece) (r_start c_start : Int)
    (hin : Board.isWithinBounds r_start c_start = true) (d : Int × Int)
    (hd : d ∈ Board.directions) (extra : Nat) (line : List Move) :
    Board.walkLine b opp d.1 d.2 (8 + extra) (r_start + d.1) (c_start + d.2) line
      = Board.walkLine b opp d.1 d.2 8 (r_start + d.1) (c_start + d.2) line := by
  induction extra with
  | zero => rfl
  | succ k ih =>
    rw [← ih]
    refine walkLine_fuel_succ b opp d.1 d.2 (8 + k) _ _ line ?_
    simp only [Board.isWithinBounds, Bool.and_eq_true, decide_eq_true_eq] at hin
    simp only [Board.directions, List.mem_cons, List.mem_singleton, List.not_mem_nil,
      or_false] at hd
    simp only [Board.isWithinBounds, Bool.and_eq_false_iff, decide_eq_false_iff_not]
    push_cast
    rcases hd with h | h | h | h | h | h | h | h <;> subst h <;> simp only <;> omega

theorem rotateShuffle_perm : ∀ (g : Unit) (l : List Move), (rotateShuffle g l).1.Perm l :=
  fun _ l => List.rotate_perm l 1

/-- With two or more legal moves the driver shuffles them and runs the outer loop. -/
theorem findBest_of_two {G : Type} (sh : G → List Move → List Move × G)
    (maxDepth limit : Int) (elapsed : Nat → Int) (board : Board) (player : PlayerColor) (g : G)
    (a b : Move) (rest : List Move) (h : board.getValidMoves player = a :: b :: rest) :
    findBestMoveIterativeDeepening sh maxDepth limit elapsed board player g
      = deepen sh maxDepth limit elapsed board player (sh g (a :: b :: rest)).1 maxDepth.toNat 1
          ((sh g (a :: b :: rest)).1.headD ⟨-1, -1⟩) (sh g (a :: b :: rest)).2 := by
  unfold findBestMoveIterativeDeepening
  simp only [h]

theorem two_moves_cases (l : List Move) (h : 2 ≤ l.length) :
    ∃ a b rest, l = a :: b :: rest := by
  match l, h with
  | a :: b :: rest, _ => exact ⟨a, b, rest, rfl⟩

theorem headD_mem_of_perm (l s : List Move) (d : Move) (hperm : s.Perm l) (hl : l ≠ []) :
    s.headD d ∈ s := by
  cases s with
  | nil => exact absurd (List.Perm.eq_nil hperm.symm) hl
  | cons x xs => exact List.mem_cons_self _ _

/-! ## The claims -/

/-- C1. Alpha-beta equivalence: for every board, every depth, every perspective side and side to
move in {BLACK, WHITE} and every generator whose shuffle returns a permutation, `minimax` called
with the full window `(INT_MIN, INT_MAX)` returns exactly the value of the unpruned recursion
`fullMinimax` of the same depth. -/
theorem minimax_full_window_eq_fullMinimax {G : Type} (sh : G → List Move → List Move × G)
    (hsh : ∀ g l, (sh g l).1.Perm l) (board : Board) (depth : Nat)
    (perspective mover : PlayerColor) (hp : perspective ≠ PlayerColor.NONE)
    (hm : mover ≠ PlayerColor.NONE) (g : G) :
    (minimax sh board depth INT_MIN INT_MAX (decide (mover = perspective)) perspective mover g).1
      = fullMinimax perspective depth board mover := by
  rw [minimax_full_window sh hsh]
  exact plainMinimax_eq_fullMinimax perspective hp depth board mover hm

/-- C1, instance: the start position searched three plies deep for Black, White to move. -/
theorem minimax_full_window_eq_fullMinimax_witness :
    (minimax rotateShuffle Board.initial 3 INT_MIN INT_MAX
        (decide (PlayerColor.WHITE = PlayerColor.BLACK)) PlayerColor.BLACK PlayerColor.WHITE ()).1
      = fullMinimax PlayerColor.BLACK 3 Board.initial PlayerColor.WHITE :=
  minimax_full_window_eq_fullMinimax rotateShuffle rotateShuffle_perm Board.initial 3
    PlayerColor.BLACK PlayerColor.WHITE (by decide) (by decide) ()

/-- C2. With at least two legal moves and `maxDepth >= 1`, the driver returns a legal move whose
score at the last completed level `D = stopDepth ...` - the full-window `minimax` of the position
after the move, `D - 1` plies deep, whatever the generator state - is at least the score of every
legal move at that level. -/
theorem findBest_best_at_stop_depth {G : Type} (sh : G → List Move → List Move × G)
    (hsh : ∀ g l, (sh g l).1.Perm l) (maxDepth timeLimitPerMove : Int) (elapsed : Nat → Int)
    (board : Board) (player : PlayerColor) (g : G) (hdepth : 1 ≤ maxDepth)
    (hmoves : 2 ≤ (board.getValidMoves player).length) :
    (findBestMoveIterativeDeepening sh maxDepth timeLimitPerMove elapsed board player g).1
        ∈ board.getValidMoves player
      ∧ ∀ m ∈ board.getValidMoves player, ∀ g1 g2 : G,
          (minimax sh (playMove board player m)
              (stopDepth maxDepth.toNat timeLimitPerMove elapsed - 1) INT_MIN INT_MAX false
              player (getOpponent player) g1).1
            ≤ (minimax sh
                (playMove board player
                  (findBestMoveIterativeDeepening sh maxDepth timeLimitPerMove elapsed board
                    player g).1)
                (stopDepth maxDepth.toNat timeLimitPerMove elapsed - 1) INT_MIN INT_MAX false
                player (getOpponent player) g2).1 := by
  obtain ⟨a, b, rest, hvm⟩ := two_moves_cases _ hmoves
  have hperm := hsh g (a :: b :: rest)
  rw [findBest_of_two sh maxDepth timeLimitPerMove elapsed board player g a b rest hvm]
  have hne : (sh g (a :: b :: rest)).1 ≠ [] := by
    intro h
    rw [h] at hperm
    exact absurd (List.Perm.eq_nil hperm.symm) (by simp)
  have hvalid : ∀ m ∈ (sh g (a :: b :: rest)).1, m.isValid = true := by
    intro m hm
    apply getValidMoves_isValid board player
    rw [hvm]; exact hperm.mem_iff.mp hm
  obtain ⟨h1, h2⟩ := deepen_spec sh hsh maxDepth timeLimitPerMove elapsed board player
    (sh g (a :: b :: rest)).1 hne hvalid maxDepth.toNat 1
    ((sh g (a :: b :: rest)).1.headD ⟨-1, -1⟩) (sh g (a :: b :: rest)).2
    (by push_cast; exact hdepth) rfl
  rw [hvm]
  refine ⟨hperm.mem_iff.mp h1, ?_⟩
  intro m hm g1 g2
  rw [minimax_full_window sh hsh, minimax_full_window sh hsh]
  exact h2 m (hperm.mem_iff.mpr hm)

/-- C2, instance: the start position, Black to move, `maxDepth = 3`, 1500 ms, a clock that
reads 40 ms more after every level. -/
theorem findBest_best_at_stop_depth_witness :
    (findBestMoveIterativeDeepening rotateShuffle 3 1500 (fun k => 40 * (k : Int))
        Board.initial PlayerColor.BLACK ()).1 ∈ Board.initial.getValidMoves PlayerColor.BLACK
      ∧ ∀ m ∈ Board.initial.getValidMoves PlayerColor.BLACK, ∀ g1 g2 : Unit,
          (minimax rotateShuffle (playMove Board.initial PlayerColor.BLACK m)
              (stopDepth (3 : Int).toNat 1500 (fun k => 40 * (k : Int)) - 1) INT_MIN INT_MAX false
              PlayerColor.BLACK (getOpponent PlayerColor.BLACK) g1).1
            ≤ (minimax rotateShuffle
                (playMove Board.initial PlayerColor.BLACK
                  (findBestMoveIterativeDeepening rotateShuffle 3 1500 (fun k => 40 * (k : Int))
                    Board.initial PlayerColor.BLACK ()).1)
                (stopDepth (3 : Int).toNat 1500 (fun k => 40 * (k : Int)) - 1) INT_MIN INT_MAX
                false PlayerColor.BLACK (getOpponent PlayerColor.BLACK) g2).1 :=
  findBest_best_at_stop_depth rotateShuffle rotateShuffle_perm 3 1500 (fun k => 40 * (k : Int))
    Board.initial PlayerColor.BLACK () (by decide) (by decide)

/-- C3. Whenever the player has a legal move, the move returned by the driver is one of the
player's legal moves, for every `maxDepth` (zero and negative included), time limit, clock and
shuffle. -/
theorem findBest_mem_validMoves {G : Type} (sh : G → List Move → List Move × G)
    (hsh : ∀ g l, (sh g l).1.Perm l) (maxDepth timeLimitPerMove : Int) (elapsed : Nat → Int)
    (board : Board) (player : PlayerColor) (g : G) (hne : board.getValidMoves player ≠ []) :
    (findBestMoveIterativeDeepening sh maxDepth timeLimitPerMove elapsed board player g).1
      ∈ board.getValidMoves player := by
  cases hvm : board.getValidMoves player with
  | nil => exact absurd hvm hne
  | cons a tail =>
    cases tail with
    | nil =>
      unfold findBestMoveIterativeDeepening
      simp only [hvm]
      exact List.mem_cons_self _ _
    | cons b rest =>
      have hperm := hsh g (a :: b :: rest)
      rw [findBest_of_two sh maxDepth timeLimitPerMove elapsed board player g a b rest hvm]
      apply hperm.mem_iff.mp
      apply deepen_mem
      exact headD_mem_of_perm _ _ _ hperm (by simp)

/-- C3, instance: the start position with `maxDepth = -2` and a clock running backwards. -/
theorem findBest_mem_validMoves_witness :
    (findBestMoveIterativeDeepening rotateShuffle (-2) 0 (fun k => -(k : Int)) Board.initial
        PlayerColor.BLACK ()).1 ∈ Board.initial.getValidMoves PlayerColor.BLACK :=
  findBest_mem_validMoves rotateShuffle rotateShuffle_perm (-2) 0 (fun k => -(k : Int))
    Board.initial PlayerColor.BLACK () (by decide)

/-- C4. With a budget of 0 ms (and a clock that has not run backwards at the first check), for
`maxDepth >= 1` and at least two legal moves the driver returns the depth-1 result: a legal move
that maximises `evaluate` of the position after the move; and the whole outcome, generator state
included, is the outcome of `maxDepth = 1`, so no deeper level is started. -/
theorem findBest_zero_budget {G : Type} (sh : G → List Move → List Move × G)
    (hsh : ∀ g l, (sh g l).1.Perm l) (maxDepth : Int) (elapsed : Nat → Int) (board : Board)
    (player : PlayerColor) (g : G) (hdepth : 1 ≤ maxDepth)
    (hmoves : 2 ≤ (board.getValidMoves player).length) (hclock : 0 ≤ elapsed 1) :
    (findBestMoveIterativeDeepening sh maxDepth 0 elapsed board player g).1
        ∈ board.getValidMoves player
      ∧ (∀ m ∈ board.getValidMoves player,
          (playMove board player m).evaluate player
            ≤ (playMove board player
                (findBestMoveIterativeDeepening sh maxDepth 0 elapsed board player g).1).evaluate
                player)
      ∧ findBestMoveIterativeDeepening sh maxDepth 0 elapsed board player g
          = findBestMoveIterativeDeepening sh 1 0 elapsed board player g := by
  obtain ⟨a, b, rest, hvm⟩ := two_moves_cases _ hmoves
  have hperm := hsh g (a :: b :: rest)
  have hsame : findBestMoveIterativeDeepening sh maxDepth 0 elapsed board player g
      = findBestMoveIterativeDeepening sh 1 0 elapsed board player g := by
    rw [findBest_of_two sh maxDepth 0 elapsed board player g a b rest hvm,
      findBest_of_two sh 1 0 elapsed board player g a b rest hvm]
    exact deepen_first_stop sh maxDepth 0 elapsed board player _ _ _ hdepth hclock
  rw [hsame]
  refine ⟨?_, ?_, rfl⟩
  all_goals
    rw [findBest_of_two sh 1 0 elapsed board player g a b rest hvm]
    have hne : (sh g (a :: b :: rest)).1 ≠ [] := by
      intro h
      rw [h] at hperm
      exact absurd (List.Perm.eq_nil hperm.symm) (by simp)
    have hvalid : ∀ m ∈ (sh g (a :: b :: rest)).1, m.isValid = true := by
      intro m hm
      apply getValidMoves_isValid board player
      rw [hvm]; exact hperm.mem_iff.mp hm
    obtain ⟨h1, h2⟩ := deepen_spec sh hsh 1 0 elapsed board player
      (sh g (a :: b :: rest)).1 hne hvalid (1 : Int).toNat 1
      ((sh g (a :: b :: rest)).1.headD ⟨-1, -1⟩) (sh g (a :: b :: rest)).2 (by decide) rfl
    rw [hvm]
  · exact hperm.mem_iff.mp h1
  · intro m hm
    have h3 := h2 m (hperm.mem_iff.mpr hm)
    rw [show (1 : Int).toNat = 1 from rfl, stopFrom_last] at h3
    exact h3

/-- C4, instance: the start position, Black to move, `maxDepth = 3`, budget 0. -/
theorem findBest_zero_budget_witness :
    (findBestMoveIterativeDeepening rotateShuffle 3 0 (fun k => 40 * (k : Int)) Board.initial
        PlayerColor.BLACK ()).1 ∈ Board.initial.getValidMoves PlayerColor.BLACK
      ∧ (∀ m ∈ Board.initial.getValidMoves PlayerColor.BLACK,
          (playMove Board.initial PlayerColor.BLACK m).evaluate PlayerColor.BLACK
            ≤ (playMove Board.initial PlayerColor.BLACK
                (findBestMoveIterativeDeepening rotateShuffle 3 0 (fun k => 40 * (k : Int))
                  Board.initial PlayerColor.BLACK ()).1).evaluate PlayerColor.BLACK)
      ∧ findBestMoveIterativeDeepening rotateShuffle 3 0 (fun k => 40 * (k : Int))
            Board.initial PlayerColor.BLACK ()
          = findBestMoveIterativeDeepening rotateShuffle 1 0 (fun k => 40 * (k : Int))
            Board.initial PlayerColor.BLACK () :=
  findBest_zero_budget rotateShuffle rotateShuffle_perm 3 (fun k => 40 * (k : Int))
    Board.initial PlayerColor.BLACK () (by decide) (by decide) (by decide)

/-- C5. With exactly one legal move the driver returns that move and leaves the generator
untouched, whatever `maxDepth`, the time limit, the clock and the shuffle are: neither the
search nor the evaluator takes part in the result. -/
theorem findBest_single_move {G : Type} (sh : G → List Move → List Move × G)
    (maxDepth timeLimitPerMove : Int) (elapsed : Nat → Int) (board : Board)
    (player : PlayerColor) (g : G) (only : Move) (h : board.getValidMoves player = [only]) :
    findBestMoveIterativeDeepening sh maxDepth timeLimitPerMove elapsed board player g
      = (only, g) := by
  unfold findBestMoveIterativeDeepening
  simp only [h]

set_option maxRecDepth 100000 in
/-- C5, instance: black on `(0,0)`, white on `(0,1)`; Black's only move is `(0,2)`. -/
theorem findBest_single_move_witness :
    findBestMoveIterativeDeepening rotateShuffle 4 1500 (fun _ => 0) cornerPair
        PlayerColor.BLACK () = (⟨0, 2⟩, ()) :=
  findBest_single_move rotateShuffle 4 1500 (fun _ => 0) cornerPair PlayerColor.BLACK ()
    ⟨0, 2⟩ (by decide)

set_option maxRecDepth 100000 in
/-- C6, counterexample: on the board with black on row 0 and white on row 7 Black has no legal
move, and the driver returns the move `(-1,-1)` as an ordinary value; no error is raised. -/
theorem findBest_returns_sentinel :
    (twoRows 0 7).getValidMoves PlayerColor.BLACK = []
      ∧ (findBestMoveIterativeDeepening rotateShuffle 4 1500 (fun _ => 0) (twoRows 0 7)
          PlayerColor.BLACK ()).1 = ⟨-1, -1⟩
      ∧ (findBestMoveIterativeDeepening rotateShuffle 4 1500 (fun _ => 0) (twoRows 0 7)
          PlayerColor.BLACK ()).1.isValid = false := by
  decide

/-- C6, amended. With no legal move the driver returns the sentinel move `(-1,-1)`, whose
`isValid()` is false, and leaves the generator untouched. -/
theorem findBest_no_moves {G : Type} (sh : G → List Move → List Move × G)
    (maxDepth timeLimitPerMove : Int) (elapsed : Nat → Int) (board : Board)
    (player : PlayerColor) (g : G) (h : board.getValidMoves player = []) :
    findBestMoveIterativeDeepening sh maxDepth timeLimitPerMove elapsed board player g
        = (⟨-1, -1⟩, g)
      ∧ (findBestMoveIterativeDeepening sh maxDepth timeLimitPerMove elapsed board player
          g).1.isValid = false := by
  have hres : findBestMoveIterativeDeepening sh maxDepth timeLimitPerMove elapsed board player g
      = (⟨-1, -1⟩, g) := by
    unfold findBestMoveIterativeDeepening
    simp only [h]
  rw [hres]
  exact ⟨rfl, rfl⟩

set_option maxRecDepth 100000 in
/-- C6, instance of the amended statement: black on row 0, white on row 7, Black to move. -/
theorem findBest_no_moves_witness :
    findBestMoveIterativeDeepening rotateShuffle 4 1500 (fun _ => 0) (twoRows 0 7)
        PlayerColor.BLACK () = (⟨-1, -1⟩, ())
      ∧ (findBestMoveIterativeDeepening rotateShuffle 4 1500 (fun _ => 0) (twoRows 0 7)
          PlayerColor.BLACK ()).1.isValid = false :=
  findBest_no_moves rotateShuffle 4 1500 (fun _ => 0) (twoRows 0 7) PlayerColor.BLACK ()
    (by decide)

/-- C7. `evaluate` is zero-sum: the score for Black is the negation of the score for White on
every board, the terminal positions and the two short-circuits included. -/
theorem evaluate_zero_sum (b : Board) :
    b.evaluate PlayerColor.BLACK = -b.evaluate PlayerColor.WHITE := by
  rw [evaluate_eq, evaluate_eq]
  have ho1 : getOpponent PlayerColor.BLACK = PlayerColor.WHITE := rfl
  have ho2 : getOpponent PlayerColor.WHITE = PlayerColor.BLACK := rfl
  have hp1 : playerToPiece PlayerColor.BLACK = Piece.BLACK_PIECE := rfl
  have hp2 : playerToPiece PlayerColor.WHITE = Piece.WHITE_PIECE := rfl
  simp only [sentinelLoss, sentinelWin, positionalTerm, discDifferential, totalDiscs, cornerTerm,
    mobilityTerm, terminalTerm, ho1, ho2, hp1, hp2]
  rw [add_comm (discCount b Piece.WHITE_PIECE) (discCount b Piece.BLACK_PIECE)]
  generalize Board.discDiffWeight (discCount b Piece.BLACK_PIECE + discCount b Piece.WHITE_PIECE)
    = w
  have hprod : (discCount b Piece.WHITE_PIECE - discCount b Piece.BLACK_PIECE) * w
      = -((discCount b Piece.BLACK_PIECE - discCount b Piece.WHITE_PIECE) * w) := by ring
  rw [hprod]
  generalize (discCount b Piece.BLACK_PIECE - discCount b Piece.WHITE_PIECE) * w = prod
  split_ifs <;> omega

set_option maxRecDepth 100000 in
/-- C8, counterexample: two finished boards with 8 black and 8 white discs each - black on row 0
and white on row 7, against black on row 0 and white on row 3 - score 0 and 2324 for Black. -/
theorem terminal_score_depends_on_cells :
    (twoRows 0 7).isGameOver = true ∧ (twoRows 0 3).isGameOver = true
      ∧ (twoRows 0 7).getScore = (8, 8) ∧ (twoRows 0 3).getScore = (8, 8)
      ∧ (twoRows 0 7).evaluate PlayerColor.BLACK = 0
      ∧ (twoRows 0 3).evaluate PlayerColor.BLACK = 2324 := by
  decide

theorem isGameOver_moves (b : Board) (p : PlayerColor) (hp : p ≠ PlayerColor.NONE)
    (hover : b.isGameOver = true) :
    mobility b p = 0 ∧ mobility b (getOpponent p) = 0 := by
  simp only [Board.isGameOver, Bool.and_eq_true, List.isEmpty_iff] at hover
  cases p with
  | NONE => exact absurd rfl hp
  | BLACK =>
    exact ⟨(mobility_eq_zero_iff b _).mpr hover.1, (mobility_eq_zero_iff b _).mpr hover.2⟩
  | WHITE =>
    exact ⟨(mobility_eq_zero_iff b _).mpr hover.2, (mobility_eq_zero_iff b _).mpr hover.1⟩

/-- C8, amended. On a board where neither side has a legal move, `evaluate` for a side `p` is
-50000 when `p` has no disc and the board holds more than 4, else +50000 when the opponent has
no disc and the board holds more than 4, and otherwise the positional, disc-count and corner
terms plus the terminal term of magnitude 20000: only the mobility term is replaced. -/
theorem evaluate_terminal (b : Board) (p : PlayerColor) (hp : p ≠ PlayerColor.NONE)
    (hover : b.isGameOver = true) :
    b.evaluate p =
      if discCount b (playerToPiece p) = 0 ∧ totalDiscs b p > 4 then -50000
      else if discCount b (playerToPiece (getOpponent p)) = 0 ∧ totalDiscs b p > 4 then 50000
      else positionalTerm b p + discDifferential b p * Board.discDiffWeight (totalDiscs b p)
        + cornerTerm b p + terminalTerm b p := by
  obtain ⟨h1, h2⟩ := isGameOver_moves b p hp hover
  rw [evaluate_eq]
  simp only [sentinelLoss, sentinelWin, h1, h2, true_and, add_zero, ne_eq, not_true_eq_false,
    if_false]

set_option maxRecDepth 100000 in
/-- C8, instance of the amended statement: black on row 0, white on row 3, scored for Black. -/
theorem evaluate_terminal_witness :
    (twoRows 0 3).evaluate PlayerColor.BLACK =
      if discCount (twoRows 0 3) (playerToPiece PlayerColor.BLACK) = 0
          ∧ totalDiscs (twoRows 0 3) PlayerColor.BLACK > 4 then -50000
      else if discCount (twoRows 0 3) (playerToPiece (getOpponent PlayerColor.BLACK)) = 0
          ∧ totalDiscs (twoRows 0 3) PlayerColor.BLACK > 4 then 50000
      else positionalTerm (twoRows 0 3) PlayerColor.BLACK
        + discDifferential (twoRows 0 3) PlayerColor.BLACK
          * Board.discDiffWeight (totalDiscs (twoRows 0 3) PlayerColor.BLACK)
        + cornerTerm (twoRows 0 3) PlayerColor.BLACK
        + terminalTerm (twoRows 0 3) PlayerColor.BLACK :=
  evaluate_terminal (twoRows 0 3) PlayerColor.BLACK (by decide) (by decide)

set_option maxRecDepth 100000 in
/-- C9, counterexample: a board with exactly 16 discs (25% filled) and a board with exactly 48
discs (75% filled) both have their disc differential multiplied by 15, not by 5 and not by 100:
what `evaluate` adds to the other terms is `8 * 15` on the first and `16 * 15` on the second. -/
theorem disc_weight_at_boundaries :
    (totalDiscs sixteenDiscs PlayerColor.BLACK = 16
      ∧ discDifferential sixteenDiscs PlayerColor.BLACK = 8
      ∧ sixteenDiscs.evaluate PlayerColor.BLACK
          - (positionalTerm sixteenDiscs PlayerColor.BLACK + cornerTerm sixteenDiscs PlayerColor.BLACK
              + terminalTerm sixteenDiscs PlayerColor.BLACK) = 8 * 15)
    ∧ (totalDiscs (bands 4 2) PlayerColor.BLACK = 48
      ∧ discDifferential (bands 4 2) PlayerColor.BLACK = 16
      ∧ (bands 4 2).evaluate PlayerColor.BLACK
          - (positionalTerm (bands 4 2) PlayerColor.BLACK + cornerTerm (bands 4 2) PlayerColor.BLACK
              + mobilityTerm (bands 4 2) PlayerColor.BLACK) = 16 * 15) := by
  decide

/-- C9, amended. Outside the two short-circuits, `evaluate` multiplies the disc differential by
5 when fewer than 16 discs are on the board, by 100 when more than 48 are, and by 15 for every
total from 16 to 48, both ends included. -/
theorem evaluate_disc_weight (b : Board) (p : PlayerColor) (hs1 : ¬ sentinelLoss b p)
    (hs2 : ¬ sentinelWin b p) :
    b.evaluate p =
      discDifferential b p
          * (if totalDiscs b p < 16 then 5 else if 48 < totalDiscs b p then 100 else 15)
        + (positionalTerm b p + cornerTerm b p
            + (if mobility b p + mobility b (getOpponent p) ≠ 0 then mobilityTerm b p
               else terminalTerm b p)) := by
  rw [evaluate_eq, if_neg hs1, if_neg hs2]
  have hw : Board.discDiffWeight (totalDiscs b p)
      = (if totalDiscs b p < 16 then 5 else if 48 < totalDiscs b p then 100 else 15) := by
    unfold Board.discDiffWeight
    split_ifs <;> first | rfl | omega
  rw [hw]
  ring

set_option maxRecDepth 100000 in
/-- C9, instance of the amended statement: the 16-disc board, scored for Black. -/
theorem evaluate_disc_weight_witness :
    sixteenDiscs.evaluate PlayerColor.BLACK =
      discDifferential sixteenDiscs PlayerColor.BLACK
          * (if totalDiscs sixteenDiscs PlayerColor.BLACK < 16 then 5
             else if 48 < totalDiscs sixteenDiscs PlayerColor.BLACK then 100 else 15)
        + (positionalTerm sixteenDiscs PlayerColor.BLACK + cornerTerm sixteenDiscs PlayerColor.BLACK
            + (if mobility sixteenDiscs PlayerColor.BLACK
                  + mobility sixteenDiscs (getOpponent PlayerColor.BLACK) ≠ 0
               then mobilityTerm sixteenDiscs PlayerColor.BLACK
               else terminalTerm sixteenDiscs PlayerColor.BLACK)) :=
  evaluate_disc_weight sixteenDiscs PlayerColor.BLACK (by decide) (by decide)

/-- C10. On a board where at least one side has a legal move and neither short-circuit applies,
`evaluate` for `p` is the sum of four terms: table sum of `p` minus table sum of the opponent,
disc differential times the phase weight (which is 5, 15 or 100), 800 per corner of `p` minus
800 per corner of the opponent, and 50 per legal move of `p` minus 50 per legal move of the
opponent. -/
theorem evaluate_four_terms (b : Board) (p : PlayerColor)
    (hmove : b.getValidMoves p ≠ [] ∨ b.getValidMoves (getOpponent p) ≠ [])
    (hs1 : ¬ sentinelLoss b p) (hs2 : ¬ sentinelWin b p) :
    b.evaluate p =
        (squareSum b (playerToPiece p) - squareSum b (playerToPiece (getOpponent p)))
        + (discCount b (playerToPiece p) - discCount b (playerToPiece (getOpponent p)))
            * Board.discDiffWeight
                (discCount b (playerToPiece p) + discCount b (playerToPiece (getOpponent p)))
        + 800 * (cornerCount b (playerToPiece p) - cornerCount b (playerToPiece (getOpponent p)))
        + 50 * (mobility b p - mobility b (getOpponent p))
      ∧ (Board.discDiffWeight
            (discCount b (playerToPiece p) + discCount b (playerToPiece (getOpponent p))) = 5
          ∨ Board.discDiffWeight
            (discCount b (playerToPiece p) + discCount b (playerToPiece (getOpponent p))) = 15
          ∨ Board.discDiffWeight
            (discCount b (playerToPiece p) + discCount b (playerToPiece (getOpponent p))) = 100) := by
  have hmob : mobility b p + mobility b (getOpponent p) ≠ 0 := by
    have h1 := mobility_bounds b p
    have h2 := mobility_bounds b (getOpponent p)
    have h3 := mobility_eq_zero_iff b p
    have h4 := mobility_eq_zero_iff b (getOpponent p)
    intro h
    rcases hmove with h5 | h5
    · exact h5 (h3.mp (by omega))
    · exact h5 (h4.mp (by omega))
  constructor
  · rw [evaluate_eq, if_neg hs1, if_neg hs2, if_pos hmob]
    rfl
  · unfold Board.discDiffWeight
    split_ifs
    · exact Or.inr (Or.inr rfl)
    · exact Or.inl rfl
    · exact Or.inr (Or.inl rfl)

set_option maxRecDepth 100000 in
/-- C10, instance: the start position, scored for Black. -/
theorem evaluate_four_terms_witness :
    Board.initial.evaluate PlayerColor.BLACK =
        (squareSum Board.initial (playerToPiece PlayerColor.BLACK)
          - squareSum Board.initial (playerToPiece (getOpponent PlayerColor.BLACK)))
        + (discCount Board.initial (playerToPiece PlayerColor.BLACK)
            - discCount Board.initial (playerToPiece (getOpponent PlayerColor.BLACK)))
            * Board.discDiffWeight
                (discCount Board.initial (playerToPiece PlayerColor.BLACK)
                  + discCount Board.initial (playerToPiece (getOpponent PlayerColor.BLACK)))
        + 800 * (cornerCount Board.initial (playerToPiece PlayerColor.BLACK)
            - cornerCount Board.initial (playerToPiece (getOpponent PlayerColor.BLACK)))
        + 50 * (mobility Board.initial PlayerColor.BLACK
            - mobility Board.initial (getOpponent PlayerColor.BLACK)) :=
  (evaluate_four_terms Board.initial PlayerColor.BLACK (by decide) (by decide) (by decide)).1

/-! ## Facts shared by the later claims -/

theorem minimax_leaf {G : Type} (sh : G → List Move → List Move × G) (board : Board)
    (depth : Nat) (alpha beta : Int) (maxi : Bool) (perspective turn : PlayerColor) (g : G)
    (hleaf : depth = 0 ∨ board.isGameOver = true) :
    minimax sh board depth alpha beta maxi perspective turn g
      = (board.evaluate perspective, g) := by
  cases depth with
  | zero => rfl
  | succ d =>
    rcases hleaf with h | h
    · exact absurd h (Nat.succ_ne_zero d)
    · unfold minimax
      simp only [h, if_true]

theorem getOpponent_ne_NONE (p : PlayerColor) : getOpponent p ≠ PlayerColor.NONE := by
  cases p <;> decide

theorem not_isGameOver_of_opponent_moves (b : Board) (p : PlayerColor)
    (h : b.getValidMoves (getOpponent p) ≠ []) : b.isGameOver = false := by
  cases hb : b.isGameOver with
  | false => rfl
  | true =>
    exfalso
    simp only [Board.isGameOver, Bool.and_eq_true, List.isEmpty_iff] at hb
    cases p with
    | NONE => exact h hb.1
    | BLACK => exact h hb.2
    | WHITE => exact h hb.1

theorem setCell_cell (b : Board) (r c : Int) (p : Piece) (r2 c2 : Int)
    (hin : Board.isWithinBounds r2 c2 = true) :
    (b.setCell r c p).cell r2 c2 = if r2 = r ∧ c2 = c then p else b.cell r2 c2 := by
  simp only [Board.isWithinBounds, Bool.and_eq_true, decide_eq_true_eq] at hin
  have h : 0 ≤ r2 ∧ r2 < 8 ∧ 0 ≤ c2 ∧ c2 < 8 := ⟨hin.1.1.1, hin.1.1.2, hin.1.2, hin.2⟩
  simp only [Board.cell, Board.setCell, dif_pos h]
  have h1 : ((r2.toNat : Nat) : Int) = r2 := Int.toNat_of_nonneg h.1
  have h2 : ((c2.toNat : Nat) : Int) = c2 := Int.toNat_of_nonneg h.2.2.1
  simp only [h1, h2]

/-- Cell by cell, `applyMove` writes the player's piece on the move's cell and on every cell of
`flips` and leaves the other cells as they were. -/
theorem applyMove_foldl_cell (piece : Piece) (flips : List Move) :
    ∀ (b : Board) (r c : Int), Board.isWithinBounds r c = true →
      (flips.foldl (fun g p => g.setCell p.row p.col piece) b).cell r c
        = if (⟨r, c⟩ : Move) ∈ flips then piece else b.cell r c := by
  induction flips with
  | nil => intro b r c _; simp
  | cons f rest ih =>
    intro b r c hin
    rw [List.foldl_cons, ih _ r c hin, setCell_cell b f.row f.col piece r c hin]
    by_cases hrest : (⟨r, c⟩ : Move) ∈ rest
    · simp [hrest]
    · by_cases hf : r = f.row ∧ c = f.col
      · have : (⟨r, c⟩ : Move) = f := by cases f; simp_all
        simp [hrest, hf, this]
      · have : (⟨r, c⟩ : Move) ≠ f := by
          intro h; apply hf; rw [← h]; exact ⟨rfl, rfl⟩
        simp [hrest, hf, this]

theorem applyMove_cell (b : Board) (move : Move) (player : PlayerColor) (flips : List Move)
    (r c : Int) (hin : Board.isWithinBounds r c = true) :
    (b.applyMove move player flips).cell r c
      = if (⟨r, c⟩ : Move) = move ∨ (⟨r, c⟩ : Move) ∈ flips then playerToPiece player
        else b.cell r c := by
  unfold Board.applyMove
  rw [applyMove_foldl_cell _ _ _ r c hin, setCell_cell _ _ _ _ r c hin]
  by_cases hfl : (⟨r, c⟩ : Move) ∈ flips
  · simp [hfl]
  · by_cases hm : r = move.row ∧ c = move.col
    · have : (⟨r, c⟩ : Move) = move := by cases move; simp_all
      simp [hfl, hm, this]
    · have : (⟨r, c⟩ : Move) ≠ move := by
        intro h; apply hm; rw [← h]; exact ⟨rfl, rfl⟩
      simp [hfl, hm, this]

/-! ## The claims, continued -/

/-- C11. On a board holding more than 4 discs: when the perspective side has no disc and no
legal move `evaluate` is exactly -50000; otherwise, when the opponent has no disc and no legal
move, it is exactly +50000. No other term enters either value. -/
theorem evaluate_zero_disc_sentinel (b : Board) (p : PlayerColor) (hp : p ≠ PlayerColor.NONE)
    (htotal : discCount b Piece.BLACK_PIECE + discCount b Piece.WHITE_PIECE > 4) :
    (discCount b (playerToPiece p) = 0 ∧ b.getValidMoves p = [] → b.evaluate p = -50000)
      ∧ (¬ (discCount b (playerToPiece p) = 0 ∧ b.getValidMoves p = []) →
          discCount b (playerToPiece (getOpponent p)) = 0
            ∧ b.getValidMoves (getOpponent p) = [] →
          b.evaluate p = 50000) := by
  have ht : totalDiscs b p > 4 := by
    cases p with
    | NONE => exact absurd rfl hp
    | BLACK => exact htotal
    | WHITE =>
      have : totalDiscs b PlayerColor.WHITE
          = discCount b Piece.WHITE_PIECE + discCount b Piece.BLACK_PIECE := rfl
      omega
  constructor
  · rintro ⟨h1, h2⟩
    have hloss : sentinelLoss b p := ⟨h1, (mobility_eq_zero_iff b p).mpr h2, ht⟩
    rw [evaluate_eq, if_pos hloss]
  · rintro hnot ⟨h1, h2⟩
    have hloss : ¬ sentinelLoss b p := fun h => hnot ⟨h.1, (mobility_eq_zero_iff b p).mp h.2.1⟩
    have hwin : sentinelWin b p := ⟨h1, (mobility_eq_zero_iff b _).mpr h2, ht⟩
    rw [evaluate_eq, if_neg hloss, if_pos hwin]

set_option maxRecDepth 100000 in
/-- C11, instance: eight black discs on row 0 and no white disc, scored for Black. -/
theorem evaluate_zero_disc_sentinel_witness :
    (discCount blackRowOnly (playerToPiece PlayerColor.BLACK) = 0
        ∧ blackRowOnly.getValidMoves PlayerColor.BLACK = [] →
        blackRowOnly.evaluate PlayerColor.BLACK = -50000)
      ∧ (¬ (discCount blackRowOnly (playerToPiece PlayerColor.BLACK) = 0
            ∧ blackRowOnly.getValidMoves PlayerColor.BLACK = []) →
          discCount blackRowOnly (playerToPiece (getOpponent PlayerColor.BLACK)) = 0
            ∧ blackRowOnly.getValidMoves (getOpponent PlayerColor.BLACK) = [] →
          blackRowOnly.evaluate PlayerColor.BLACK = 50000) :=
  evaluate_zero_disc_sentinel blackRowOnly PlayerColor.BLACK (by decide) (by decide)

/-- C13. At depth 0, or on a board where neither side has a legal move, `minimax` returns
`evaluate` of the board for the perspective side and does not touch the generator, whatever
alpha, beta, the maximizing flag and the side to move are. -/
theorem minimax_leaf_evaluate {G : Type} (sh : G → List Move → List Move × G) (board : Board)
    (depth : Nat) (alpha beta : Int) (maximizingPlayer : Bool)
    (aiPlayerPerspective currentPlayerTurn : PlayerColor) (g : G)
    (hleaf : depth = 0 ∨ board.isGameOver = true) :
    minimax sh board depth alpha beta maximizingPlayer aiPlayerPerspective currentPlayerTurn g
      = (board.evaluate aiPlayerPerspective, g) :=
  minimax_leaf sh board depth alpha beta maximizingPlayer aiPlayerPerspective
    currentPlayerTurn g hleaf

set_option maxRecDepth 100000 in
/-- C13, instance: a finished board (black on row 0, white on row 7) searched 5 plies deep. -/
theorem minimax_leaf_evaluate_witness :
    minimax rotateShuffle (twoRows 0 7) 5 (-7) 12 true PlayerColor.WHITE PlayerColor.BLACK ()
      = ((twoRows 0 7).evaluate PlayerColor.WHITE, ()) :=
  minimax_leaf_evaluate rotateShuffle (twoRows 0 7) 5 (-7) 12 true PlayerColor.WHITE
    PlayerColor.BLACK () (Or.inr (by decide))

/-- C14. Forced pass: when the side to move has no legal move and its opponent has one,
`minimax` at depth `d + 1` is `minimax` at depth `d` on the same board with the same window, the
opponent to move and the maximizing flag negated - which, for sides in {BLACK, WHITE}, is again
the flag "the mover is the perspective side". -/
theorem minimax_forced_pass {G : Type} (sh : G → List Move → List Move × G) (board : Board)
    (d : Nat) (alpha beta : Int) (maximizingPlayer : Bool)
    (aiPlayerPerspective currentPlayerTurn : PlayerColor) (g : G)
    (hnone : board.getValidMoves currentPlayerTurn = [])
    (hopp : board.getValidMoves (getOpponent currentPlayerTurn) ≠ []) :
    minimax sh board (d + 1) alpha beta maximizingPlayer aiPlayerPerspective currentPlayerTurn g
        = minimax sh board d alpha beta (!maximizingPlayer) aiPlayerPerspective
            (getOpponent currentPlayerTurn) g
      ∧ (currentPlayerTurn ≠ PlayerColor.NONE → aiPlayerPerspective ≠ PlayerColor.NONE →
          (!decide (currentPlayerTurn = aiPlayerPerspective))
            = decide (getOpponent currentPlayerTurn = aiPlayerPerspective)) := by
  constructor
  · have hover := not_isGameOver_of_opponent_moves board currentPlayerTurn hopp
    conv_lhs => unfold minimax
    simp only [hover, hnone, List.isEmpty_nil, if_true, Bool.false_eq_true, if_false]
  · intro h1 h2
    exact (flag_after_move currentPlayerTurn aiPlayerPerspective h1 h2).1

set_option maxRecDepth 100000 in
/-- C14, instance: black on rows 0 to 3, white on rows 4 and 5; White cannot move, Black can. -/
theorem minimax_forced_pass_witness :
    minimax rotateShuffle (bands 4 2) (1 + 1) INT_MIN INT_MAX false PlayerColor.BLACK
        PlayerColor.WHITE ()
        = minimax rotateShuffle (bands 4 2) 1 INT_MIN INT_MAX (!false) PlayerColor.BLACK
            (getOpponent PlayerColor.WHITE) ()
      ∧ (PlayerColor.WHITE ≠ PlayerColor.NONE → PlayerColor.BLACK ≠ PlayerColor.NONE →
          (!decide (PlayerColor.WHITE = PlayerColor.BLACK))
            = decide (getOpponent PlayerColor.WHITE = PlayerColor.BLACK)) :=
  minimax_forced_pass rotateShuffle (bands 4 2) 1 INT_MIN INT_MAX false PlayerColor.BLACK
    PlayerColor.WHITE () (by decide) (by decide)

set_option maxRecDepth 100000 in
/-- C17, counterexample: on the start position `(3,3)` holds a white disc and is no legal move of
Black; `applyMove` with the flips `getFlipsForMove` reports (none) raises nothing and turns the
cell black. -/
theorem applyMove_overwrites_occupied_cell :
    (⟨3, 3⟩ : Move) ∉ Board.initial.getValidMoves PlayerColor.BLACK
      ∧ Board.initial.getFlipsForMove 3 3 PlayerColor.BLACK = []
      ∧ Board.initial.cell 3 3 = Piece.WHITE_PIECE
      ∧ (Board.initial.applyMove ⟨3, 3⟩ PlayerColor.BLACK
          (Board.initial.getFlipsForMove 3 3 PlayerColor.BLACK)).cell 3 3
          = Piece.BLACK_PIECE := by
  decide

/-- C17, amended. `applyMove` checks nothing: for a move and flips on the grid, legal or not,
every cell of the result holds the player's piece when it is the move's cell or one of the flips,
and its previous content otherwise. -/
theorem applyMove_unchecked (b : Board) (move : Move) (player : PlayerColor)
    (flips : List Move) (_hmove : Board.isWithinBounds move.row move.col = true)
    (_hflips : ∀ f ∈ flips, Board.isWithinBounds f.row f.col = true)
    (r c : Int) (hin : Board.isWithinBounds r c = true) :
    (b.applyMove move player flips).cell r c
      = if (⟨r, c⟩ : Move) = move ∨ (⟨r, c⟩ : Move) ∈ flips then playerToPiece player
        else b.cell r c :=
  applyMove_cell b move player flips r c hin

set_option maxRecDepth 100000 in
/-- C17, instance of the amended statement: Black "plays" the occupied cell `(3,3)` of the start
position; the cell is read back. -/
theorem applyMove_unchecked_witness :
    (Board.initial.applyMove ⟨3, 3⟩ PlayerColor.BLACK []).cell 3 3
      = if (⟨3, 3⟩ : Move) = ⟨3, 3⟩ ∨ (⟨3, 3⟩ : Move) ∈ ([] : List Move)
        then playerToPiece PlayerColor.BLACK
        else Board.initial.cell 3 3 :=
  applyMove_unchecked Board.initial ⟨3, 3⟩ PlayerColor.BLACK [] (by decide)
    (fun f hf => absurd hf (List.not_mem_nil f)) 3 3 (by decide)

theorem int32_eq (x : Int) (h1 : -2147483648 ≤ x) (h2 : x ≤ 2147483647) : int32 x = some x := by
  unfold int32 INT_MIN INT_MAX
  rw [if_pos ⟨h1, h2⟩]

/-- The positional term is bounded by the total magnitude of the table. -/
theorem sumIn_sub_bounds (b : Board) (pp op : Piece) (hne : pp ≠ op)
    (cells : List (Int × Int)) :
    -tableMagnitude cells ≤ sumIn b pp cells - sumIn b op cells
      ∧ sumIn b pp cells - sumIn b op cells ≤ tableMagnitude cells := by
  induction cells with
  | nil => simp [sumIn, tableMagnitude]
  | cons rc rest ih =>
    have hmag : tableMagnitude (rc :: rest)
        = ((tableAt rc.1 rc.2).natAbs : Int) + tableMagnitude rest := by
      simp [tableMagnitude]
    rw [sumIn_cons, sumIn_cons, hmag]
    by_cases h1 : b.cell rc.1 rc.2 = pp
    · have h2 : b.cell rc.1 rc.2 ≠ op := fun h => hne (h1.symm.trans h)
      rw [if_pos h1, if_neg h2]; omega
    · rw [if_neg h1]; split_ifs <;> omega

theorem tableMagnitude_allCells : tableMagnitude Board.allCells = 4604 := by decide

/-- The checked counting loop never overflows and computes what the unchecked loop computes. -/
theorem tallyChecked_foldl (b : Board) (pp op : Piece) (cells : List (Int × Int)) :
    ∀ (t : Board.Tally) (n : Int), 0 ≤ n → n + cells.length ≤ 1000 →
      (∀ rc ∈ cells, -500 ≤ tableAt rc.1 rc.2 ∧ tableAt rc.1 rc.2 ≤ 500) →
      0 ≤ t.playerDiscs → t.playerDiscs ≤ n → 0 ≤ t.opponentDiscs → t.opponentDiscs ≤ n →
      -500 * n ≤ t.playerPieceSquareScore → t.playerPieceSquareScore ≤ 500 * n →
      -500 * n ≤ t.opponentPieceSquareScore → t.opponentPieceSquareScore ≤ 500 * n →
      cells.foldlM (tallyStepChecked b pp op) t = some (cells.foldl (Board.tallyStep b pp op) t) := by
  induction cells with
  | nil => intro t n _ _ _ _ _ _ _ _ _ _ _; rfl
  | cons rc rest ih =>
    intro t n hn hlen htab h1 h2 h3 h4 h5 h6 h7 h8
    have hrc := htab rc (List.mem_cons_self _ _)
    have hrest : ∀ x ∈ rest, -500 ≤ tableAt x.1 x.2 ∧ tableAt x.1 x.2 ≤ 500 :=
      fun x hx => htab x (List.mem_cons_of_mem _ hx)
    have hlen2 : (n + 1) + (rest.length : Int) ≤ 1000 := by
      simp only [List.length_cons] at hlen; push_cast at hlen; omega
    rw [List.foldlM_cons, List.foldl_cons]
    by_cases c1 : b.cell rc.1 rc.2 = pp
    · have e1 := int32_eq (t.playerDiscs + 1) (by omega) (by omega)
      have e2 := int32_eq (t.playerPieceSquareScore + tableAt rc.1 rc.2) (by omega) (by omega)
      simp only [tallyStepChecked, Board.tallyStep, if_pos c1, e1, e2, bind, Option.bind, pure]
      exact ih _ (n + 1) (by omega) hlen2 hrest (by simp only; omega) (by simp only; omega)
        (by simp only; omega) (by simp only; omega) (by simp only; omega) (by simp only; omega)
        (by simp only; omega) (by simp only; omega)
    · by_cases c2 : b.cell rc.1 rc.2 = op
      · have e1 := int32_eq (t.opponentDiscs + 1) (by omega) (by omega)
        have e2 := int32_eq (t.opponentPieceSquareScore + tableAt rc.1 rc.2) (by omega)
          (by omega)
        simp only [tallyStepChecked, Board.tallyStep, if_neg c1, if_pos c2, e1, e2, bind,
          Option.bind, pure]
        exact ih _ (n + 1) (by omega) hlen2 hrest (by simp only; omega) (by simp only; omega)
          (by simp only; omega) (by simp only; omega) (by simp only; omega)
          (by simp only; omega) (by simp only; omega) (by simp only; omega)
      · simp only [tallyStepChecked, Board.tallyStep, if_neg c1, if_neg c2, bind, Option.bind,
          pure]
        exact ih _ (n + 1) (by omega) hlen2 hrest h1 (by omega) h3 (by omega) (by omega)
          (by omega) (by omega) (by omega)

theorem cornerChecked_foldl (b : Board) (pp op : Piece) (cells : List (Int × Int)) :
    ∀ (k : Int × Int) (n : Int), 0 ≤ n → n + cells.length ≤ 1000 →
      0 ≤ k.1 → k.1 ≤ n → 0 ≤ k.2 → k.2 ≤ n →
      cells.foldlM (cornerStepChecked b pp op) k
        = some (cells.foldl (Board.cornerStep b pp op) k) := by
  induction cells with
  | nil => intro k n _ _ _ _ _ _; rfl
  | cons rc rest ih =>
    intro k n hn hlen h1 h2 h3 h4
    have hlen2 : (n + 1) + (rest.length : Int) ≤ 1000 := by
      simp only [List.length_cons] at hlen; push_cast at hlen; omega
    rw [List.foldlM_cons, List.foldl_cons]
    by_cases c1 : b.cell rc.1 rc.2 = pp
    · have e1 := int32_eq (k.1 + 1) (by omega) (by omega)
      simp only [cornerStepChecked, Board.cornerStep, if_pos c1, e1, bind, Option.bind, pure]
      exact ih _ (n + 1) (by omega) hlen2 (by simp only; omega) (by simp only; omega)
        (by simp only; omega) (by simp only; omega)
    · by_cases c2 : b.cell rc.1 rc.2 = op
      · have e1 := int32_eq (k.2 + 1) (by omega) (by omega)
        simp only [cornerStepChecked, Board.cornerStep, if_neg c1, if_pos c2, e1, bind,
          Option.bind, pure]
        exact ih _ (n + 1) (by omega) hlen2 (by simp only; omega) (by simp only; omega)
          (by simp only; omega) (by simp only; omega)
      · simp only [cornerStepChecked, Board.cornerStep, if_neg c1, if_neg c2, bind, Option.bind,
          pure]
        exact ih _ (n + 1) (by omega) hlen2 h1 (by omega) h3 (by omega)

/-- No `int` operation of `evaluate` overflows: the checked evaluator returns what the unchecked
one computes. -/
theorem evaluateChecked_eq (b : Board) (p : PlayerColor) :
    evaluateChecked b p = some (b.evaluate p) := by
  have hne := playerToPiece_ne_opponent p
  have hd := countIn_add_le b _ _ hne Board.allCells
  rw [allCells_length] at hd
  have hpd := countIn_nonneg b (playerToPiece p) Board.allCells
  have hod := countIn_nonneg b (playerToPiece (getOpponent p)) Board.allCells
  have hpos := sumIn_sub_bounds b _ _ hne Board.allCells
  rw [tableMagnitude_allCells] at hpos
  have hc := countIn_add_le b _ _ hne Board.corners
  have hpc := countIn_nonneg b (playerToPiece p) Board.corners
  have hoc := countIn_nonneg b (playerToPiece (getOpponent p)) Board.corners
  have hcl : ((Board.corners.length : Nat) : Int) = 4 := by decide
  rw [hcl] at hc
  have hpm := mobility_bounds b p
  have hom := mobility_bounds b (getOpponent p)
  have htally := tallyChecked_foldl b (playerToPiece p) (playerToPiece (getOpponent p))
    Board.allCells ⟨0, 0, 0, 0⟩ 0 (le_refl _) (by rw [allCells_length]; decide) tableAt_bounds
    (le_refl _) (le_refl _) (le_refl _) (le_refl _) (by decide) (by decide) (by decide)
    (by decide)
  have hcorner := cornerChecked_foldl b (playerToPiece p) (playerToPiece (getOpponent p))
    Board.corners (0, 0) 0 (le_refl _) (by decide) (le_refl _) (le_refl _) (le_refl _)
    (le_refl _)
  have htl : Board.corners.foldl
      (Board.cornerStep b (playerToPiece p) (playerToPiece (getOpponent p))) (0, 0)
      = (cornerCount b (playerToPiece p), cornerCount b (playerToPiece (getOpponent p))) := by
    rw [corner_foldl b _ _ hne]; simp [cornerCount]
  have hty : Board.allCells.foldl
      (Board.tallyStep b (playerToPiece p) (playerToPiece (getOpponent p))) ⟨0, 0, 0, 0⟩
      = ⟨discCount b (playerToPiece p), discCount b (playerToPiece (getOpponent p)),
          squareSum b (playerToPiece p), squareSum b (playerToPiece (getOpponent p))⟩ :=
    tally_eq b _ _ hne
  rw [hty] at htally
  rw [htl] at hcorner
  unfold discCount at htally
  unfold squareSum at htally
  unfold cornerCount at hcorner
  unfold mobility at hpm hom
  generalize hA : countIn b (playerToPiece p) Board.allCells = pd at *
  generalize hB : countIn b (playerToPiece (getOpponent p)) Board.allCells = od at *
  generalize hC : sumIn b (playerToPiece p) Board.allCells = ps at *
  generalize hD : sumIn b (playerToPiece (getOpponent p)) Board.allCells = os at *
  generalize hE : countIn b (playerToPiece p) Board.corners = pc at *
  generalize hF : countIn b (playerToPiece (getOpponent p)) Board.corners = oc at *
  generalize hG : ((b.getValidMoves p).length : Int) = pm at *
  generalize hH : ((b.getValidMoves (getOpponent p)).length : Int) = om at *
  push_cast at hd
  have hw : Board.discDiffWeight (pd + od) = 5 ∨ Board.discDiffWeight (pd + od) = 15
      ∨ Board.discDiffWeight (pd + od) = 100 := by
    unfold Board.discDiffWeight
    split_ifs
    · exact Or.inr (Or.inr rfl)
    · exact Or.inl rfl
    · exact Or.inr (Or.inl rfl)
  have hprod : -6400 ≤ (pd - od) * Board.discDiffWeight (pd + od)
      ∧ (pd - od) * Board.discDiffWeight (pd + od) ≤ 6400 := by
    rcases hw with h | h | h <;> rw [h] <;> omega
  have hev : b.evaluate p =
      if pd = 0 ∧ pm = 0 ∧ pd + od > 4 then -50000
      else if od = 0 ∧ om = 0 ∧ pd + od > 4 then 50000
      else ps - os + (pd - od) * Board.discDiffWeight (pd + od) + 800 * (pc - oc)
        + (if pm + om ≠ 0 then 50 * (pm - om)
           else if pd - od > 0 then 20000 else if pd - od < 0 then -20000 else 0) := by
    rw [evaluate_eq]
    simp only [sentinelLoss, sentinelWin, positionalTerm, discDifferential, totalDiscs,
      cornerTerm, mobilityTerm, terminalTerm, cornerCount, discCount, squareSum, mobility,
      hA, hB, hC, hD, hE, hF, hG, hH]
  rw [hev]
  unfold evaluateChecked
  simp only [htally, hcorner, hG, hH, Option.bind, termsChecked, mobilityStepChecked]
  generalize Board.discDiffWeight (pd + od) = w at hprod ⊢
  generalize hq : (pd - od) * w = q at hprod ⊢
  rw [int32_eq (ps - os) (by omega) (by omega)]
  simp only
  rw [int32_eq (0 + (ps - os)) (by omega) (by omega)]
  simp only
  rw [int32_eq (pd - od) (by omega) (by omega)]
  simp only [hq]
  rw [int32_eq q (by omega) (by omega)]
  simp only
  rw [int32_eq (0 + (ps - os) + q) (by omega) (by omega)]
  simp only
  rw [int32_eq (pc - oc) (by omega) (by omega)]
  simp only
  rw [int32_eq ((pc - oc) * 800) (by omega) (by omega)]
  simp only
  rw [int32_eq (0 + (ps - os) + q + (pc - oc) * 800) (by omega) (by omega)]
  simp only
  by_cases hmv : pm + om ≠ 0
  · simp only [if_pos hmv]
    rw [int32_eq (pm - om) (by omega) (by omega)]
    simp only
    rw [int32_eq (50 * (pm - om)) (by omega) (by omega)]
    simp only
    rw [int32_eq (0 + (ps - os) + q + (pc - oc) * 800 + 50 * (pm - om)) (by omega) (by omega)]
    simp only
    split_ifs <;> first | rfl | (congr 1; omega)
  · simp only [if_neg hmv]
    by_cases hgt : pd > od
    · simp only [if_pos hgt]
      rw [int32_eq (0 + (ps - os) + q + (pc - oc) * 800 + 20000) (by omega) (by omega)]
      simp only
      split_ifs <;> first | rfl | (congr 1; omega)
    · simp only [if_neg hgt]
      by_cases hlt : od > pd
      · simp only [if_pos hlt]
        rw [int32_eq (0 + (ps - os) + q + (pc - oc) * 800 - 20000) (by omega) (by omega)]
        simp only
        split_ifs <;> first | rfl | (congr 1; omega)
      · simp only [if_neg hlt]
        split_ifs <;> first | rfl | (congr 1; omega)

/-- Outside the two short-circuits the score stays strictly inside the sentinels. -/
theorem evaluate_inside_sentinels (b : Board) (p : PlayerColor) (hs1 : ¬ sentinelLoss b p)
    (hs2 : ¬ sentinelWin b p) : -50000 < b.evaluate p ∧ b.evaluate p < 50000 := by
  have hne := playerToPiece_ne_opponent p
  have hd := countIn_add_le b _ _ hne Board.allCells
  rw [allCells_length] at hd
  have hpd := countIn_nonneg b (playerToPiece p) Board.allCells
  have hod := countIn_nonneg b (playerToPiece (getOpponent p)) Board.allCells
  have hpos := sumIn_sub_bounds b _ _ hne Board.allCells
  rw [tableMagnitude_allCells] at hpos
  have hc := countIn_add_le b _ _ hne Board.corners
  have hpc := countIn_nonneg b (playerToPiece p) Board.corners
  have hoc := countIn_nonneg b (playerToPiece (getOpponent p)) Board.corners
  have hcl : ((Board.corners.length : Nat) : Int) = 4 := by decide
  rw [hcl] at hc
  have hpm := mobility_bounds b p
  have hom := mobility_bounds b (getOpponent p)
  rw [evaluate_eq, if_neg hs1, if_neg hs2]
  simp only [positionalTerm, discDifferential, totalDiscs, cornerTerm,
    mobilityTerm, terminalTerm, cornerCount, discCount, squareSum, Board.discDiffWeight]
  push_cast at hd
  split_ifs <;> omega

/-- C12. Whenever `evaluate` does not take a zero-disc short-circuit its result lies strictly
between -50000 and +50000, and no `int` operation inside `evaluate` overflows 32 bits: the
evaluator with every operation checked returns the same score. -/
theorem evaluate_no_sentinel_collision (b : Board) (p : PlayerColor)
    (hs1 : ¬ sentinelLoss b p) (hs2 : ¬ sentinelWin b p) :
    -50000 < b.evaluate p ∧ b.evaluate p < 50000
      ∧ evaluateChecked b p = some (b.evaluate p) :=
  ⟨(evaluate_inside_sentinels b p hs1 hs2).1, (evaluate_inside_sentinels b p hs1 hs2).2,
    evaluateChecked_eq b p⟩

set_option maxRecDepth 100000 in
/-- C12, instance: the 16-disc example board, scored for Black. -/
theorem evaluate_no_sentinel_collision_witness :
    -50000 < sixteenDiscs.evaluate PlayerColor.BLACK
      ∧ sixteenDiscs.evaluate PlayerColor.BLACK < 50000
      ∧ evaluateChecked sixteenDiscs PlayerColor.BLACK
          = some (sixteenDiscs.evaluate PlayerColor.BLACK) :=
  evaluate_no_sentinel_collision sixteenDiscs PlayerColor.BLACK (by decide) (by decide)

/-! ## Facts about move generation -/

theorem mem_directions (d : Int × Int) : d ∈ Board.directions ↔ IsDirection d := by
  obtain ⟨a, b⟩ := d
  constructor
  · intro h
    simp only [Board.directions, List.mem_cons, List.mem_singleton, List.not_mem_nil, or_false,
      Prod.mk.injEq] at h
    unfold IsDirection
    simp only
    omega
  · intro h
    unfold IsDirection at h
    simp only at h
    have ha : a = -1 ∨ a = 0 ∨ a = 1 := by omega
    have hb : b = -1 ∨ b = 0 ∨ b = 1 := by omega
    rcases ha with rfl | rfl | rfl <;> rcases hb with rfl | rfl | rfl <;>
      first | decide | (exfalso; omega)

theorem allCells_inBounds : ∀ rc ∈ Board.allCells, Board.isWithinBounds rc.1 rc.2 = true := by
  decide

theorem mem_allCells (r c : Int) :
    (r, c) ∈ Board.allCells ↔ Board.isWithinBounds r c = true := by
  constructor
  · intro h; exact allCells_inBounds (r, c) h
  · intro h
    simp only [Board.isWithinBounds, Bool.and_eq_true, decide_eq_true_eq] at h
    have hr : r = 0 ∨ r = 1 ∨ r = 2 ∨ r = 3 ∨ r = 4 ∨ r = 5 ∨ r = 6 ∨ r = 7 := by omega
    have hc : c = 0 ∨ c = 1 ∨ c = 2 ∨ c = 3 ∨ c = 4 ∨ c = 5 ∨ c = 6 ∨ c = 7 := by omega
    rcases hr with rfl | rfl | rfl | rfl | rfl | rfl | rfl | rfl <;>
      rcases hc with rfl | rfl | rfl | rfl | rfl | rfl | rfl | rfl <;> decide

/-- What the `while` loop of `getFlipsForMove` computes: it advances `n` cells, all of them
opponent discs on the grid, appends them in order, and stops at the first cell that is not one
(unless the fuel ran out first). -/
theorem walkLine_spec (b : Board) (opp : Piece) (dr dc : Int) :
    ∀ (fuel : Nat) (r c : Int) (line : List Move),
      ∃ n : Nat, n ≤ fuel
        ∧ Board.walkLine b opp dr dc fuel r c line
            = (r + n * dr, c + n * dc,
                line ++ (List.range n).map (fun j : Nat => (⟨r + j * dr, c + j * dc⟩ : Move)))
        ∧ (∀ j : Nat, j < n →
            Board.isWithinBounds (r + j * dr) (c + j * dc) = true
              ∧ b.cell (r + j * dr) (c + j * dc) = opp)
        ∧ (n < fuel →
            ¬ (Board.isWithinBounds (r + n * dr) (c + n * dc) = true
              ∧ b.cell (r + n * dr) (c + n * dc) = opp)) := by
  intro fuel
  induction fuel with
  | zero =>
    intro r c line
    exact ⟨0, le_refl _, by simp [Board.walkLine], fun j hj => absurd hj (Nat.not_lt_zero j),
      fun h => absurd h (Nat.lt_irrefl 0)⟩
  | succ k ih =>
    intro r c line
    by_cases hcond : Board.isWithinBounds r c = true ∧ b.cell r c = opp
    · obtain ⟨n, hn, heq, hall, hstop⟩ := ih (r + dr) (c + dc) (line ++ [⟨r, c⟩])
      refine ⟨n + 1, by omega, ?_, ?_, ?_⟩
      · have hc2 : (Board.isWithinBounds r c && decide (b.cell r c = opp)) = true := by
          simp [hcond.1, hcond.2]
        rw [Board.walkLine, if_pos hc2, heq]
        have e1 : r + dr + (n : Int) * dr = r + ((n + 1 : Nat) : Int) * dr := by
          push_cast; ring
        have e2 : c + dc + (n : Int) * dc = c + ((n + 1 : Nat) : Int) * dc := by
          push_cast; ring
        rw [e1, e2]
        congr 2
        rw [List.range_succ_eq_map, List.map_cons, List.map_map, List.append_assoc]
        congr 1
        simp only [Nat.cast_zero, zero_mul, add_zero, List.singleton_append, List.cons.injEq,
          true_and]
        apply List.map_congr_left
        intro j _
        simp only [Function.comp, Nat.succ_eq_add_one, Move.mk.injEq]
        constructor <;> (push_cast; ring)
      · intro j hj
        cases j with
        | zero => simpa using hcond
        | succ j =>
          have h := hall j (by omega)
          have e1 : r + ((j + 1 : Nat) : Int) * dr = r + dr + (j : Int) * dr := by
            push_cast; ring
          have e2 : c + ((j + 1 : Nat) : Int) * dc = c + dc + (j : Int) * dc := by
            push_cast; ring
          rw [e1, e2]; exact h
      · intro hlt
        have h := hstop (by omega)
        have e1 : r + ((n + 1 : Nat) : Int) * dr = r + dr + (n : Int) * dr := by
          push_cast; ring
        have e2 : c + ((n + 1 : Nat) : Int) * dc = c + dc + (n : Int) * dc := by
          push_cast; ring
        rw [e1, e2]; exact h
    · refine ⟨0, Nat.zero_le _, ?_, fun j hj => absurd hj (Nat.not_lt_zero j), ?_⟩
      · have hc2 : ¬ (Board.isWithinBounds r c && decide (b.cell r c = opp)) = true := by
          simpa using hcond
        rw [Board.walkLine, if_neg hc2]
        simp
      · intro _
        simpa using hcond

/-- The flips of one line are the cells of the bracketed run of that line, if there is one. -/
theorem mem_lineFlips (b : Board) (player : PlayerColor) (r0 c0 : Int)
    (hin : Board.isWithinBounds r0 c0 = true) (d : Int × Int) (hd : IsDirection d) (x : Move) :
    x ∈ Board.lineFlips b (playerToPiece player) (playerToPiece (getOpponent player)) r0 c0 d
      ↔ ∃ k : Nat, Brackets b player r0 c0 d k
          ∧ ∃ j : Nat, 1 ≤ j ∧ j ≤ k ∧ x = ⟨r0 + j * d.1, c0 + j * d.2⟩ := by
  obtain ⟨n, hn, heq, hall, hstop⟩ := walkLine_spec b (playerToPiece (getOpponent player))
    d.1 d.2 8 (r0 + d.1) (c0 + d.2) []
  have hne := playerToPiece_ne_opponent player
  have shiftR : ∀ j : Nat, r0 + d.1 + (j : Int) * d.1 = r0 + ((j + 1 : Nat) : Int) * d.1 := by
    intro j; push_cast; ring
  have shiftC : ∀ j : Nat, c0 + d.2 + (j : Int) * d.2 = c0 + ((j + 1 : Nat) : Int) * d.2 := by
    intro j; push_cast; ring
  simp only [shiftR, shiftC] at heq hall hstop
  -- the walk leaves the grid before the fuel runs out
  have hn8 : n < 8 := by
    by_contra hge
    have h7 := (hall 7 (by omega)).1
    simp only [Board.isWithinBounds, Bool.and_eq_true, decide_eq_true_eq] at h7 hin
    unfold IsDirection at hd
    push_cast at h7
    omega
  have hstop2 := hstop hn8
  have hlist : ∀ x : Move,
      x ∈ (List.range n).map
          (fun j : Nat =>
            (⟨r0 + ((j + 1 : Nat) : Int) * d.1, c0 + ((j + 1 : Nat) : Int) * d.2⟩ : Move))
        ↔ ∃ j : Nat, 1 ≤ j ∧ j ≤ n ∧ x = ⟨r0 + j * d.1, c0 + j * d.2⟩ := by
    intro x
    simp only [List.mem_map, List.mem_range]
    constructor
    · rintro ⟨j, hj, rfl⟩
      exact ⟨j + 1, by omega, by omega, rfl⟩
    · rintro ⟨j, h1, h2, rfl⟩
      refine ⟨j - 1, by omega, ?_⟩
      have : j - 1 + 1 = j := by omega
      rw [this]
  unfold Board.lineFlips
  simp only [heq, List.nil_append]
  constructor
  · intro hx
    split_ifs at hx with hcond
    · simp only [Bool.and_eq_true, decide_eq_true_eq, Bool.not_eq_true', List.isEmpty_eq_false,
        ne_eq] at hcond
      obtain ⟨⟨hb, hcell⟩, hnonempty⟩ := hcond
      have hn1 : 1 ≤ n := by
        by_contra h0
        have : n = 0 := by omega
        rw [this] at hnonempty
        simp at hnonempty
      refine ⟨n, ⟨hn1, ?_, hb, hcell⟩, (hlist x).mp hx⟩
      intro j h1 h2
      have := hall (j - 1) (by omega)
      have hj : j - 1 + 1 = j := by omega
      rw [hj] at this
      exact this
    · exact absurd hx (List.not_mem_nil _)
  · rintro ⟨k, ⟨hk1, hrun, hendB, hendC⟩, hj⟩
    have hkn : k = n := by
      rcases Nat.lt_trichotomy n k with hlt | heq2 | hgt
      · exfalso
        exact hstop2 (hrun (n + 1) (by omega) (by omega))
      · exact heq2.symm
      · exfalso
        have := (hall k hgt).2
        rw [hendC] at this
        exact hne this
    subst hkn
    have hcond : (Board.isWithinBounds (r0 + ((k + 1 : Nat) : Int) * d.1)
          (c0 + ((k + 1 : Nat) : Int) * d.2)
        && decide (b.cell (r0 + ((k + 1 : Nat) : Int) * d.1) (c0 + ((k + 1 : Nat) : Int) * d.2)
            = playerToPiece player)
        && !((List.range k).map (fun j : Nat =>
            (⟨r0 + ((j + 1 : Nat) : Int) * d.1, c0 + ((j + 1 : Nat) : Int) * d.2⟩ :
              Move))).isEmpty)
        = true := by
      simp only [hendB, hendC, decide_True, Bool.and_self, Bool.true_and, Bool.not_eq_true',
        List.isEmpty_eq_false]
      obtain ⟨m, hm⟩ : ∃ m, k = m + 1 := ⟨k - 1, by omega⟩
      rw [hm, List.range_succ_eq_map]
      simp
    rw [if_pos hcond]
    exact (hlist x).mpr hj

theorem mem_foldl_append {α β : Type} (f : α → List β) (l : List α) (acc : List β) (x : β) :
    x ∈ l.foldl (fun a d => a ++ f d) acc ↔ x ∈ acc ∨ ∃ d ∈ l, x ∈ f d := by
  induction l generalizing acc with
  | nil => simp
  | cons d rest ih =>
    rw [List.foldl_cons, ih]
    simp only [List.mem_append, List.mem_cons, exists_eq_or_imp]
    tauto

/-- The flips of a move on an empty cell of the grid are the cells of the bracketed runs in the
8 directions. -/
theorem mem_getFlipsForMove (b : Board) (player : PlayerColor) (r c : Int)
    (hin : Board.isWithinBounds r c = true) (hempty : b.cell r c = Piece.EMPTY) (x : Move) :
    x ∈ b.getFlipsForMove r c player
      ↔ ∃ d, IsDirection d ∧ ∃ k : Nat, Brackets b player r c d k
          ∧ ∃ j : Nat, 1 ≤ j ∧ j ≤ k ∧ x = ⟨r + j * d.1, c + j * d.2⟩ := by
  unfold Board.getFlipsForMove
  have hguard : ¬ ((!Board.isWithinBounds r c || decide (b.cell r c ≠ Piece.EMPTY)) = true) := by
    simp [hin, hempty]
  rw [if_neg hguard]
  simp only
  rw [mem_foldl_append]
  simp only [List.not_mem_nil, false_or]
  constructor
  · rintro ⟨d, hd, hx⟩
    have hdir := (mem_directions d).mp hd
    exact ⟨d, hdir, (mem_lineFlips b player r c hin d hdir x).mp hx⟩
  · rintro ⟨d, hdir, hx⟩
    exact ⟨d, (mem_directions d).mpr hdir, (mem_lineFlips b player r c hin d hdir x).mpr hx⟩

theorem getFlipsForMove_ne_nil_iff (b : Board) (player : PlayerColor) (r c : Int)
    (hin : Board.isWithinBounds r c = true) (hempty : b.cell r c = Piece.EMPTY) :
    b.getFlipsForMove r c player ≠ []
      ↔ ∃ d, IsDirection d ∧ ∃ k : Nat, Brackets b player r c d k := by
  constructor
  · intro h
    obtain ⟨x, hx⟩ := List.exists_mem_of_ne_nil _ h
    obtain ⟨d, hd, k, hk, _⟩ := (mem_getFlipsForMove b player r c hin hempty x).mp hx
    exact ⟨d, hd, k, hk⟩
  · rintro ⟨d, hd, k, hk⟩ h
    have hx := (mem_getFlipsForMove b player r c hin hempty ⟨r + (1 : Nat) * d.1, c + (1 : Nat) * d.2⟩).mpr
      ⟨d, hd, k, hk, 1, le_refl _, hk.1, rfl⟩
    rw [h] at hx
    exact absurd hx (List.not_mem_nil _)

/-- C15. A cell is a legal move of `player` exactly when it is on the board, empty, and in at
least one of the 8 directions a run of one or more opponent discs starting next to it is
immediately followed by a disc of `player`; the flips of such a cell are exactly the opponent
discs of all those runs; off the board or on an occupied cell there are no flips. -/
theorem getValidMoves_iff_brackets (b : Board) (player : PlayerColor) :
    (∀ m : Move, m ∈ b.getValidMoves player ↔
        Board.isWithinBounds m.row m.col = true ∧ b.cell m.row m.col = Piece.EMPTY
          ∧ ∃ d, IsDirection d ∧ ∃ k : Nat, Brackets b player m.row m.col d k)
      ∧ (∀ (r c : Int) (x : Move), Board.isWithinBounds r c = true → b.cell r c = Piece.EMPTY →
          (x ∈ b.getFlipsForMove r c player ↔
            ∃ d, IsDirection d ∧ ∃ k : Nat, Brackets b player r c d k
              ∧ ∃ j : Nat, 1 ≤ j ∧ j ≤ k ∧ x = ⟨r + j * d.1, c + j * d.2⟩))
      ∧ (∀ r c : Int, ¬ (Board.isWithinBounds r c = true ∧ b.cell r c = Piece.EMPTY) →
          b.getFlipsForMove r c player = []) := by
  refine ⟨?_, ?_, ?_⟩
  · intro m
    rw [mem_getValidMoves]
    constructor
    · rintro ⟨rc, hrc, hm, hempty, hflips⟩
      have hin := allCells_inBounds rc hrc
      subst hm
      exact ⟨hin, hempty, (getFlipsForMove_ne_nil_iff b player rc.1 rc.2 hin hempty).mp hflips⟩
    · rintro ⟨hin, hempty, hbr⟩
      exact ⟨(m.row, m.col), (mem_allCells m.row m.col).mpr hin, rfl, hempty,
        (getFlipsForMove_ne_nil_iff b player m.row m.col hin hempty).mpr hbr⟩
  · intro r c x hin hempty
    exact mem_getFlipsForMove b player r c hin hempty x
  · intro r c h
    unfold Board.getFlipsForMove
    have hguard : (!Board.isWithinBounds r c || decide (b.cell r c ≠ Piece.EMPTY)) = true := by
      by_cases hin : Board.isWithinBounds r c = true
      · have : b.cell r c ≠ Piece.EMPTY := fun he => h ⟨hin, he⟩
        simp [this]
      · simp [hin]
    rw [if_pos hguard]

/-! ## The opening position -/

theorem findBest_mem_of_moves {G : Type} (sh : G → List Move → List Move × G)
    (hsh : ∀ g l, (sh g l).1.Perm l) (maxDepth timeLimitPerMove : Int) (elapsed : Nat → Int)
    (board : Board) (player : PlayerColor) (g : G) (hne : board.getValidMoves player ≠ []) :
    (findBestMoveIterativeDeepening sh maxDepth timeLimitPerMove elapsed board player g).1
      ∈ board.getValidMoves player := by
  cases hvm : board.getValidMoves player with
  | nil => exact absurd hvm hne
  | cons a tail =>
    cases tail with
    | nil =>
      unfold findBestMoveIterativeDeepening
      simp only [hvm]
      exact List.mem_cons_self _ _
    | cons b rest =>
      have hperm := hsh g (a :: b :: rest)
      rw [findBest_of_two sh maxDepth timeLimitPerMove elapsed board player g a b rest hvm]
      apply hperm.mem_iff.mp
      apply deepen_mem
      exact headD_mem_of_perm _ _ _ hperm (by simp)

set_option maxRecDepth 100000 in
theorem initial_validMoves :
    Board.initial.getValidMoves PlayerColor.BLACK = [⟨2, 3⟩, ⟨3, 2⟩, ⟨4, 5⟩, ⟨5, 4⟩] := by
  decide

set_option maxRecDepth 100000 in
theorem initial_cells :
    Board.initial.cell 3 3 = Piece.WHITE_PIECE ∧ Board.initial.cell 4 4 = Piece.WHITE_PIECE
      ∧ Board.initial.cell 3 4 = Piece.BLACK_PIECE ∧ Board.initial.cell 4 3 = Piece.BLACK_PIECE
      ∧ discCount Board.initial Piece.WHITE_PIECE = 2
      ∧ discCount Board.initial Piece.BLACK_PIECE = 2 := by
  decide

/-- C23. The start position holds white on (3,3) and (4,4), black on (3,4) and (4,3) and nothing
else; Black's legal moves are exactly (2,3), (3,2), (4,5), (5,4); and with `maxDepth = 2` the
driver returns one of these four for every shuffle, time limit and clock. -/
theorem opening_move_is_one_of_four {G : Type} (sh : G → List Move → List Move × G)
    (hsh : ∀ g l, (sh g l).1.Perm l) (timeLimitPerMove : Int) (elapsed : Nat → Int) (g : G) :
    (Board.initial.cell 3 3 = Piece.WHITE_PIECE ∧ Board.initial.cell 4 4 = Piece.WHITE_PIECE
      ∧ Board.initial.cell 3 4 = Piece.BLACK_PIECE ∧ Board.initial.cell 4 3 = Piece.BLACK_PIECE
      ∧ discCount Board.initial Piece.WHITE_PIECE = 2
      ∧ discCount Board.initial Piece.BLACK_PIECE = 2)
    ∧ Board.initial.getValidMoves PlayerColor.BLACK = [⟨2, 3⟩, ⟨3, 2⟩, ⟨4, 5⟩, ⟨5, 4⟩]
    ∧ (findBestMoveIterativeDeepening sh 2 timeLimitPerMove elapsed Board.initial
          PlayerColor.BLACK g).1 ∈ ([⟨2, 3⟩, ⟨3, 2⟩, ⟨4, 5⟩, ⟨5, 4⟩] : List Move) := by
  refine ⟨initial_cells, initial_validMoves, ?_⟩
  have h := findBest_mem_of_moves sh hsh 2 timeLimitPerMove elapsed Board.initial
    PlayerColor.BLACK g (by rw [initial_validMoves]; simp)
  rwa [initial_validMoves] at h

set_option maxRecDepth 100000 in
/-- C23, instance: the rotating shuffle, a budget of 1500 ms and a clock of 40 ms per level. -/
theorem opening_move_is_one_of_four_witness :
    ((Board.initial.cell 3 3 = Piece.WHITE_PIECE ∧ Board.initial.cell 4 4 = Piece.WHITE_PIECE
      ∧ Board.initial.cell 3 4 = Piece.BLACK_PIECE ∧ Board.initial.cell 4 3 = Piece.BLACK_PIECE
      ∧ discCount Board.initial Piece.WHITE_PIECE = 2
      ∧ discCount Board.initial Piece.BLACK_PIECE = 2)
    ∧ Board.initial.getValidMoves PlayerColor.BLACK = [⟨2, 3⟩, ⟨3, 2⟩, ⟨4, 5⟩, ⟨5, 4⟩]
    ∧ (findBestMoveIterativeDeepening rotateShuffle 2 1500 (fun k => 40 * (k : Int))
          Board.initial PlayerColor.BLACK ()).1
        ∈ ([⟨2, 3⟩, ⟨3, 2⟩, ⟨4, 5⟩, ⟨5, 4⟩] : List Move)) :=
  opening_move_is_one_of_four rotateShuffle rotateShuffle_perm 1500 (fun k => 40 * (k : Int)) ()

/-! ## The sign of a finished game -/

theorem evaluate_finished_bounds (b : Board) (p : PlayerColor) (hp : p ≠ PlayerColor.NONE)
    (hover : b.isGameOver = true) :
    (discCount b (playerToPiece p) > discCount b (playerToPiece (getOpponent p)) →
        12000 < b.evaluate p)
      ∧ (discCount b (playerToPiece p) < discCount b (playerToPiece (getOpponent p)) →
        b.evaluate p < -12000) := by
  have hne := playerToPiece_ne_opponent p
  have hd := countIn_add_le b _ _ hne Board.allCells
  rw [allCells_length] at hd
  have hpd := countIn_nonneg b (playerToPiece p) Board.allCells
  have hod := countIn_nonneg b (playerToPiece (getOpponent p)) Board.allCells
  have hpos := sumIn_sub_bounds b _ _ hne Board.allCells
  rw [tableMagnitude_allCells] at hpos
  have hc := countIn_add_le b _ _ hne Board.corners
  have hpc := countIn_nonneg b (playerToPiece p) Board.corners
  have hoc := countIn_nonneg b (playerToPiece (getOpponent p)) Board.corners
  have hcl : ((Board.corners.length : Nat) : Int) = 4 := by decide
  rw [hcl] at hc
  obtain ⟨hm1, hm2⟩ := isGameOver_moves b p hp hover
  rw [evaluate_eq]
  simp only [sentinelLoss, sentinelWin, positionalTerm, discDifferential, totalDiscs, cornerTerm,
    mobilityTerm, terminalTerm, cornerCount, discCount, squareSum, Board.discDiffWeight, hm1, hm2]
  simp only [discCount] at hpd hod hd
  push_cast at hd
  constructor
  · intro hmore
    split_ifs <;> omega
  · intro hless
    split_ifs <;> omega

/-- C28. On a board where neither side has a legal move, `evaluate` for a side in {BLACK, WHITE}
is strictly positive (above 12000) when that side has more discs than its opponent and strictly
negative (below -12000) when it has fewer: the terminal term of magnitude 20000 outweighs the
positional term (at most 4604 in magnitude) and the corner term (at most 3200), and the disc-count
term has the sign of the terminal term. -/
theorem evaluate_sign_of_finished_game (b : Board) (p : PlayerColor)
    (hp : p ≠ PlayerColor.NONE) (hover : b.isGameOver = true) :
    (discCount b (playerToPiece p) > discCount b (playerToPiece (getOpponent p)) →
        0 < b.evaluate p ∧ 12000 < b.evaluate p)
      ∧ (discCount b (playerToPiece p) < discCount b (playerToPiece (getOpponent p)) →
        b.evaluate p < 0 ∧ b.evaluate p < -12000) := by
  have h := evaluate_finished_bounds b p hp hover
  constructor
  · intro hm
    have := h.1 hm
    exact ⟨by omega, this⟩
  · intro hl
    have := h.2 hl
    exact ⟨by omega, this⟩

set_option maxRecDepth 100000 in
/-- C28, instance: the 16-disc example board, on which neither side can move and Black has 12
discs against 4, scored for Black. -/
theorem evaluate_sign_of_finished_game_witness :
    sixteenDiscs.isGameOver = true
      ∧ ((discCount sixteenDiscs (playerToPiece PlayerColor.BLACK)
            > discCount sixteenDiscs (playerToPiece (getOpponent PlayerColor.BLACK)) →
          0 < sixteenDiscs.evaluate PlayerColor.BLACK
            ∧ 12000 < sixteenDiscs.evaluate PlayerColor.BLACK)
        ∧ (discCount sixteenDiscs (playerToPiece PlayerColor.BLACK)
            < discCount sixteenDiscs (playerToPiece (getOpponent PlayerColor.BLACK)) →
          sixteenDiscs.evaluate PlayerColor.BLACK < 0
            ∧ sixteenDiscs.evaluate PlayerColor.BLACK < -12000)) :=
  ⟨by decide, evaluate_sign_of_finished_game sixteenDiscs PlayerColor.BLACK (by decide)
    (by decide)⟩

/-! ## Disc accounting of a move -/

theorem getScore_foldl (b : Board) (cells : List (Int × Int)) (s : Int × Int) :
    cells.foldl
        (fun s rc =>
          if b.cell rc.1 rc.2 = Piece.BLACK_PIECE then (s.1 + 1, s.2)
          else if b.cell rc.1 rc.2 = Piece.WHITE_PIECE then (s.1, s.2 + 1)
          else s) s
      = (s.1 + countIn b Piece.BLACK_PIECE cells, s.2 + countIn b Piece.WHITE_PIECE cells) := by
  induction cells generalizing s with
  | nil => simp [countIn]
  | cons rc rest ih =>
    rw [List.foldl_cons, ih, countIn_cons, countIn_cons]
    by_cases h1 : b.cell rc.1 rc.2 = Piece.BLACK_PIECE
    · have h2 : ¬ b.cell rc.1 rc.2 = Piece.WHITE_PIECE := by rw [h1]; decide
      simp only [if_pos h1, if_neg h2]
      ext <;> simp only <;> ring
    · by_cases h2 : b.cell rc.1 rc.2 = Piece.WHITE_PIECE
      · simp only [if_neg h1, if_pos h2]
        ext <;> simp only <;> ring
      · simp only [if_neg h1, if_neg h2]
        ext <;> simp only <;> ring

theorem getScore_eq (b : Board) :
    b.getScore = (discCount b Piece.BLACK_PIECE, discCount b Piece.WHITE_PIECE) := by
  unfold Board.getScore
  rw [getScore_foldl]
  simp [discCount]

theorem scoreOf_getScore (b : Board) (p : PlayerColor) (hp : p ≠ PlayerColor.NONE) :
    scoreOf b.getScore p = discCount b (playerToPiece p) := by
  rw [getScore_eq]
  cases p with
  | NONE => exact absurd rfl hp
  | BLACK => rfl
  | WHITE => rfl

theorem step_injective (r0 c0 : Int) (d : Int × Int) (hd : IsDirection d) (j k : Nat)
    (h : (⟨r0 + j * d.1, c0 + j * d.2⟩ : Move) = ⟨r0 + k * d.1, c0 + k * d.2⟩) : j = k := by
  obtain ⟨d1, d2⟩ := d
  unfold IsDirection at hd
  simp only at hd
  simp only [Move.mk.injEq] at h
  have h1 : d1 = -1 ∨ d1 = 0 ∨ d1 = 1 := by omega
  have h2 : d2 = -1 ∨ d2 = 0 ∨ d2 = 1 := by omega
  rcases h1 with e1 | e1 | e1 <;> rcases h2 with e2 | e2 | e2 <;> subst e1 <;> subst e2 <;>
    omega

theorem step_direction_unique (r0 c0 : Int) (d e : Int × Int) (hd : IsDirection d)
    (he : IsDirection e) (j k : Nat) (hj : 1 ≤ j) (hk : 1 ≤ k)
    (h : (⟨r0 + j * d.1, c0 + j * d.2⟩ : Move) = ⟨r0 + k * e.1, c0 + k * e.2⟩) : d = e := by
  obtain ⟨d1, d2⟩ := d
  obtain ⟨e1, e2⟩ := e
  unfold IsDirection at hd he
  simp only at hd he
  simp only [Move.mk.injEq] at h
  have h1 : d1 = -1 ∨ d1 = 0 ∨ d1 = 1 := by omega
  have h2 : d2 = -1 ∨ d2 = 0 ∨ d2 = 1 := by omega
  have h3 : e1 = -1 ∨ e1 = 0 ∨ e1 = 1 := by omega
  have h4 : e2 = -1 ∨ e2 = 0 ∨ e2 = 1 := by omega
  rcases h1 with a | a | a <;> rcases h2 with b | b | b <;> rcases h3 with c | c | c <;>
    rcases h4 with f | f | f <;> subst a <;> subst b <;> subst c <;> subst f <;>
    first | rfl | (exfalso; omega)

theorem lineFlips_nodup (b : Board) (pp op : Piece) (r0 c0 : Int) (d : Int × Int)
    (hd : IsDirection d) : (Board.lineFlips b pp op r0 c0 d).Nodup := by
  obtain ⟨n, _, heq, _, _⟩ := walkLine_spec b op d.1 d.2 8 (r0 + d.1) (c0 + d.2) []
  unfold Board.lineFlips
  simp only [heq, List.nil_append]
  split_ifs
  · apply List.Nodup.map_on _ (List.nodup_range n)
    intro j _ k _ h
    have shiftR : ∀ j : Nat, r0 + d.1 + (j : Int) * d.1 = r0 + ((j + 1 : Nat) : Int) * d.1 := by
      intro j; push_cast; ring
    have shiftC : ∀ j : Nat, c0 + d.2 + (j : Int) * d.2 = c0 + ((j + 1 : Nat) : Int) * d.2 := by
      intro j; push_cast; ring
    rw [shiftR, shiftC, shiftR, shiftC] at h
    have := step_injective r0 c0 d hd (j + 1) (k + 1) h
    omega
  · exact List.nodup_nil

theorem nodup_foldl_append {α β : Type} (f : α → List β) :
    ∀ (l : List α) (acc : List β), acc.Nodup → (∀ d ∈ l, (f d).Nodup) →
      (∀ d ∈ l, ∀ x ∈ acc, x ∉ f d) → l.Pairwise (fun d e => ∀ x ∈ f d, x ∉ f e) →
      (l.foldl (fun a d => a ++ f d) acc).Nodup := by
  intro l
  induction l with
  | nil => intro acc h _ _ _; exact h
  | cons d rest ih =>
    intro acc hacc hf hdisj hpair
    rw [List.foldl_cons]
    obtain ⟨hd, hrest⟩ := List.pairwise_cons.mp hpair
    apply ih
    · apply List.Nodup.append hacc (hf d (List.mem_cons_self _ _))
      intro x hx1 hx2
      exact hdisj d (List.mem_cons_self _ _) x hx1 hx2
    · intro e he; exact hf e (List.mem_cons_of_mem _ he)
    · intro e he x hx
      rcases List.mem_append.mp hx with h1 | h1
      · exact hdisj e (List.mem_cons_of_mem _ he) x h1
      · exact hd e he x h1
    · exact hrest

theorem directions_pairwise : Board.directions.Pairwise (fun d e => d ≠ e) := by decide

theorem getFlipsForMove_nodup (b : Board) (player : PlayerColor) (r c : Int) :
    (b.getFlipsForMove r c player).Nodup := by
  unfold Board.getFlipsForMove
  split_ifs with hguard
  · exact List.nodup_nil
  · have hin : Board.isWithinBounds r c = true := by
      simp only [Bool.or_eq_true, Bool.not_eq_true', decide_eq_true_eq, not_or] at hguard
      simpa using hguard.1
    simp only
    apply nodup_foldl_append
    · exact List.nodup_nil
    · intro d hd
      exact lineFlips_nodup b _ _ r c d ((mem_directions d).mp hd)
    · intro d _ x hx; exact absurd hx (List.not_mem_nil _)
    · apply List.Pairwise.imp_of_mem _ directions_pairwise
      intro d e hd he hne x hx1 hx2
      have hd' := (mem_directions d).mp hd
      have he' := (mem_directions e).mp he
      obtain ⟨_, _, j, hj1, _, hxj⟩ := (mem_lineFlips b player r c hin d hd' x).mp hx1
      obtain ⟨_, _, k, hk1, _, hxk⟩ := (mem_lineFlips b player r c hin e he' x).mp hx2
      exact hne (step_direction_unique r c d e hd' he' j k hj1 hk1 (hxj.symm.trans hxk))

theorem countIn_split (b b2 : Board) (piece : Piece) (F : List Move) (cells : List (Int × Int))
    (h1 : ∀ rc ∈ cells, (⟨rc.1, rc.2⟩ : Move) ∈ F →
      b.cell rc.1 rc.2 = piece ∧ b2.cell rc.1 rc.2 ≠ piece)
    (h2 : ∀ rc ∈ cells, (⟨rc.1, rc.2⟩ : Move) ∉ F →
      (b.cell rc.1 rc.2 = piece ↔ b2.cell rc.1 rc.2 = piece)) :
    countIn b piece cells
      = countIn b2 piece cells
        + ((cells.filter (fun rc => decide ((⟨rc.1, rc.2⟩ : Move) ∈ F))).length : Int) := by
  induction cells with
  | nil => simp [countIn]
  | cons rc rest ih =>
    have ih' := ih (fun x hx => h1 x (List.mem_cons_of_mem _ hx))
      (fun x hx => h2 x (List.mem_cons_of_mem _ hx))
    rw [countIn_cons, countIn_cons, ih']
    by_cases hF : (⟨rc.1, rc.2⟩ : Move) ∈ F
    · obtain ⟨ha, hb⟩ := h1 rc (List.mem_cons_self _ _) hF
      rw [if_pos ha, if_neg hb, List.filter_cons_of_pos (by simpa using hF)]
      simp only [List.length_cons]
      push_cast; ring
    · have hiff := h2 rc (List.mem_cons_self _ _) hF
      rw [List.filter_cons_of_neg (by simpa using hF)]
      by_cases ha : b.cell rc.1 rc.2 = piece
      · rw [if_pos ha, if_pos (hiff.mp ha)]; ring
      · rw [if_neg ha, if_neg (fun hb => ha (hiff.mpr hb))]; ring

theorem allCells_nodup : Board.allCells.Nodup := by decide

theorem filter_members_length (F : List Move) (hF : F.Nodup)
    (hin : ∀ f ∈ F, Board.isWithinBounds f.row f.col = true) :
    (Board.allCells.filter (fun rc => decide ((⟨rc.1, rc.2⟩ : Move) ∈ F))).length = F.length := by
  have hperm : ((Board.allCells.filter (fun rc => decide ((⟨rc.1, rc.2⟩ : Move) ∈ F))).map
      (fun rc => (⟨rc.1, rc.2⟩ : Move))).Perm F := by
    apply (List.perm_ext_iff_of_nodup _ hF).mpr
    · intro x
      simp only [List.mem_map, List.mem_filter, decide_eq_true_eq]
      constructor
      · rintro ⟨rc, ⟨_, h⟩, rfl⟩; exact h
      · intro hx
        refine ⟨(x.row, x.col), ⟨(mem_allCells x.row x.col).mpr (hin x hx), ?_⟩, rfl⟩
        exact hx
    · apply List.Nodup.map_on _ (allCells_nodup.filter _)
      intro x _ y _ h
      simp only [Move.mk.injEq] at h
      exact Prod.ext h.1 h.2
  have := hperm.length_eq
  rw [List.length_map] at this
  exact this

/-- C27. For a legal move `m` of a side in {BLACK, WHITE} with `flips = getFlipsForMove(m)`: the
flips are pairwise distinct cells of the grid holding opponent discs, and there is at least one;
after `applyMove` the disc count of the player in `getScore` has grown by `1 + |flips|`, that of
the opponent has shrunk by `|flips|`, the total has grown by 1, and every other cell of the grid
is unchanged. -/
theorem applyMove_disc_accounting (b : Board) (player : PlayerColor)
    (hp : player ≠ PlayerColor.NONE) (m : Move) (hm : m ∈ b.getValidMoves player) :
    (b.getFlipsForMove m.row m.col player).Nodup
      ∧ (∀ f ∈ b.getFlipsForMove m.row m.col player,
          Board.isWithinBounds f.row f.col = true
            ∧ b.cell f.row f.col = playerToPiece (getOpponent player))
      ∧ b.getFlipsForMove m.row m.col player ≠ []
      ∧ scoreOf (b.applyMove m player (b.getFlipsForMove m.row m.col player)).getScore player
          = scoreOf b.getScore player + 1 + (b.getFlipsForMove m.row m.col player).length
      ∧ scoreOf (b.applyMove m player (b.getFlipsForMove m.row m.col player)).getScore
            (getOpponent player)
          = scoreOf b.getScore (getOpponent player)
            - (b.getFlipsForMove m.row m.col player).length
      ∧ (b.applyMove m player (b.getFlipsForMove m.row m.col player)).getScore.1
          + (b.applyMove m player (b.getFlipsForMove m.row m.col player)).getScore.2
          = b.getScore.1 + b.getScore.2 + 1
      ∧ (∀ r c : Int, Board.isWithinBounds r c = true → (⟨r, c⟩ : Move) ≠ m →
          (⟨r, c⟩ : Move) ∉ b.getFlipsForMove m.row m.col player →
          (b.applyMove m player (b.getFlipsForMove m.row m.col player)).cell r c = b.cell r c) := by
  obtain ⟨rc, hrc, hmeq, hempty, hne⟩ := (mem_getValidMoves b player m).mp hm
  have hin := allCells_inBounds rc hrc
  subst hmeq
  simp only at hin hempty hne ⊢
  have hnodup := getFlipsForMove_nodup b player rc.1 rc.2
  have hopp : ∀ f ∈ b.getFlipsForMove rc.1 rc.2 player,
      Board.isWithinBounds f.row f.col = true
        ∧ b.cell f.row f.col = playerToPiece (getOpponent player) := by
    intro f hf
    obtain ⟨d, _, k, hk, j, hj1, hj2, hfj⟩ :=
      (mem_getFlipsForMove b player rc.1 rc.2 hin hempty f).mp hf
    subst hfj
    exact hk.2.1 j hj1 hj2
  have hpne := playerToPiece_ne_opponent player
  have hpp : playerToPiece player ≠ Piece.EMPTY := by
    cases player with
    | NONE => exact absurd rfl hp
    | BLACK => decide
    | WHITE => decide
  have hop : playerToPiece (getOpponent player) ≠ Piece.EMPTY := by
    cases player <;> decide
  have hmnot : (⟨rc.1, rc.2⟩ : Move) ∉ b.getFlipsForMove rc.1 rc.2 player := by
    intro h
    have := (hopp _ h).2
    simp only at this
    rw [hempty] at this
    exact hop this.symm
  have hcell := applyMove_cell b ⟨rc.1, rc.2⟩ player (b.getFlipsForMove rc.1 rc.2 player)
  -- the player gains the cell of the move and the flips
  have hgain : discCount (b.applyMove ⟨rc.1, rc.2⟩ player (b.getFlipsForMove rc.1 rc.2 player))
        (playerToPiece player)
      = discCount b (playerToPiece player) + 1
        + ((b.getFlipsForMove rc.1 rc.2 player).length : Int) := by
    have h := countIn_split
      (b.applyMove ⟨rc.1, rc.2⟩ player (b.getFlipsForMove rc.1 rc.2 player)) b
      (playerToPiece player) (⟨rc.1, rc.2⟩ :: b.getFlipsForMove rc.1 rc.2 player)
      Board.allCells
      (by
        intro x hx hxS
        have hxin := allCells_inBounds x hx
        rw [hcell x.1 x.2 hxin]
        have hor : (⟨x.1, x.2⟩ : Move) = ⟨rc.1, rc.2⟩
            ∨ (⟨x.1, x.2⟩ : Move) ∈ b.getFlipsForMove rc.1 rc.2 player := List.mem_cons.mp hxS
        rw [if_pos hor]
        refine ⟨rfl, ?_⟩
        rcases hor with e | e
        · simp only [Move.mk.injEq] at e
          rw [e.1, e.2, hempty]; exact fun h => hpp h.symm
        · have := (hopp _ e).2
          simp only at this
          rw [this]; exact fun h => hpne h.symm)
      (by
        intro x hx hxS
        have hxin := allCells_inBounds x hx
        rw [hcell x.1 x.2 hxin]
        have hor : ¬ ((⟨x.1, x.2⟩ : Move) = ⟨rc.1, rc.2⟩
            ∨ (⟨x.1, x.2⟩ : Move) ∈ b.getFlipsForMove rc.1 rc.2 player) :=
          fun h => hxS (List.mem_cons.mpr h)
        rw [if_neg hor])
    have hlen := filter_members_length (⟨rc.1, rc.2⟩ :: b.getFlipsForMove rc.1 rc.2 player)
      (List.nodup_cons.mpr ⟨hmnot, hnodup⟩)
      (by
        intro f hf
        rcases List.mem_cons.mp hf with e | e
        · rw [e]; exact hin
        · exact (hopp f e).1)
    unfold discCount
    rw [h, hlen]
    simp only [List.length_cons]
    push_cast; ring
  -- the opponent loses the flips
  have hloss : discCount b (playerToPiece (getOpponent player))
      = discCount (b.applyMove ⟨rc.1, rc.2⟩ player (b.getFlipsForMove rc.1 rc.2 player))
          (playerToPiece (getOpponent player))
        + ((b.getFlipsForMove rc.1 rc.2 player).length : Int) := by
    have h := countIn_split b
      (b.applyMove ⟨rc.1, rc.2⟩ player (b.getFlipsForMove rc.1 rc.2 player))
      (playerToPiece (getOpponent player)) (b.getFlipsForMove rc.1 rc.2 player)
      Board.allCells
      (by
        intro x hx hxF
        have hxin := allCells_inBounds x hx
        rw [hcell x.1 x.2 hxin, if_pos (Or.inr hxF)]
        exact ⟨(hopp _ hxF).2, hpne⟩)
      (by
        intro x hx hxF
        have hxin := allCells_inBounds x hx
        rw [hcell x.1 x.2 hxin]
        by_cases e : (⟨x.1, x.2⟩ : Move) = ⟨rc.1, rc.2⟩
        · rw [if_pos (Or.inl e)]
          simp only [Move.mk.injEq] at e
          rw [e.1, e.2, hempty]
          constructor
          · intro h; exact absurd h.symm hop
          · intro h; exact absurd h hpne
        · rw [if_neg (fun h => h.elim e hxF)])
    have hlen := filter_members_length (b.getFlipsForMove rc.1 rc.2 player) hnodup
      (fun f hf => (hopp f hf).1)
    unfold discCount
    rw [h, hlen]
  have hopne : getOpponent player ≠ PlayerColor.NONE := by cases player <;> decide
  refine ⟨hnodup, hopp, hne, ?_, ?_, ?_, ?_⟩
  · rw [scoreOf_getScore _ _ hp, scoreOf_getScore _ _ hp, hgain]
  · rw [scoreOf_getScore _ _ hopne, scoreOf_getScore _ _ hopne, hloss]; ring
  · rw [getScore_eq, getScore_eq]
    simp only
    cases player with
    | NONE => exact absurd rfl hp
    | BLACK =>
      have e1 : playerToPiece PlayerColor.BLACK = Piece.BLACK_PIECE := rfl
      have e2 : playerToPiece (getOpponent PlayerColor.BLACK) = Piece.WHITE_PIECE := rfl
      rw [e1] at hgain
      rw [e2] at hloss
      omega
    | WHITE =>
      have e1 : playerToPiece PlayerColor.WHITE = Piece.WHITE_PIECE := rfl
      have e2 : playerToPiece (getOpponent PlayerColor.WHITE) = Piece.BLACK_PIECE := rfl
      rw [e1] at hgain
      rw [e2] at hloss
      omega
  · intro r c hrcin h1 h2
    rw [hcell r c hrcin, if_neg (fun h => h.elim h1 h2)]

set_option maxRecDepth 100000 in
/-- C27, instance: Black plays (2,3) on the start position. -/
theorem applyMove_disc_accounting_witness :
    (Board.initial.getFlipsForMove 2 3 PlayerColor.BLACK).Nodup
      ∧ (∀ f ∈ Board.initial.getFlipsForMove 2 3 PlayerColor.BLACK,
          Board.isWithinBounds f.row f.col = true
            ∧ Board.initial.cell f.row f.col = playerToPiece (getOpponent PlayerColor.BLACK))
      ∧ Board.initial.getFlipsForMove 2 3 PlayerColor.BLACK ≠ []
      ∧ scoreOf (Board.initial.applyMove ⟨2, 3⟩ PlayerColor.BLACK
            (Board.initial.getFlipsForMove 2 3 PlayerColor.BLACK)).getScore PlayerColor.BLACK
          = scoreOf Board.initial.getScore PlayerColor.BLACK + 1
            + (Board.initial.getFlipsForMove 2 3 PlayerColor.BLACK).length
      ∧ scoreOf (Board.initial.applyMove ⟨2, 3⟩ PlayerColor.BLACK
            (Board.initial.getFlipsForMove 2 3 PlayerColor.BLACK)).getScore
            (getOpponent PlayerColor.BLACK)
          = scoreOf Board.initial.getScore (getOpponent PlayerColor.BLACK)
            - (Board.initial.getFlipsForMove 2 3 PlayerColor.BLACK).length
      ∧ (Board.initial.applyMove ⟨2, 3⟩ PlayerColor.BLACK
            (Board.initial.getFlipsForMove 2 3 PlayerColor.BLACK)).getScore.1
          + (Board.initial.applyMove ⟨2, 3⟩ PlayerColor.BLACK
            (Board.initial.getFlipsForMove 2 3 PlayerColor.BLACK)).getScore.2
          = Board.initial.getScore.1 + Board.initial.getScore.2 + 1
      ∧ (∀ r c : Int, Board.isWithinBounds r c = true → (⟨r, c⟩ : Move) ≠ ⟨2, 3⟩ →
          (⟨r, c⟩ : Move) ∉ Board.initial.getFlipsForMove 2 3 PlayerColor.BLACK →
          (Board.initial.applyMove ⟨2, 3⟩ PlayerColor.BLACK
            (Board.initial.getFlipsForMove 2 3 PlayerColor.BLACK)).cell r c
            = Board.initial.cell r c) :=
  applyMove_disc_accounting Board.initial PlayerColor.BLACK (by decide) ⟨2, 3⟩ (by decide)

/-! ## The search with its recursion bounded and its calls of `applyMove` recorded -/

theorem maxLoopTrace_some {G : Type}
    (childT : Board → Int → Int → G → Option ((Int × G) × List Applied))
    (child : Board → Int → Int → G → Int × G)
    (h : ∀ nb a b g, ∃ log, childT nb a b g = some (child nb a b g, log))
    (board : Board) (turn : PlayerColor) :
    ∀ (moves : List Move) (maxEval alpha beta : Int) (g : G),
      ∃ log, maxLoopTrace childT board turn moves maxEval alpha beta g
        = some (maxLoop child board turn moves maxEval alpha beta g, log) := by
  intro moves
  induction moves with
  | nil => intro maxEval alpha beta g; exact ⟨[], by rw [maxLoopTrace, maxLoop]⟩
  | cons move rest ih =>
    intro maxEval alpha beta g
    obtain ⟨log, hl⟩ := h (board.applyMove move turn
      (board.getFlipsForMove move.row move.col turn)) alpha beta g
    rw [maxLoopTrace, maxLoop]
    simp only [hl]
    by_cases hb : beta ≤ max alpha (child (board.applyMove move turn
        (board.getFlipsForMove move.row move.col turn)) alpha beta g).1
    · rw [if_pos hb, if_pos hb]
      exact ⟨_, rfl⟩
    · rw [if_neg hb, if_neg hb]
      obtain ⟨log2, hl2⟩ := ih (max maxEval (child (board.applyMove move turn
          (board.getFlipsForMove move.row move.col turn)) alpha beta g).1)
        (max alpha (child (board.applyMove move turn
          (board.getFlipsForMove move.row move.col turn)) alpha beta g).1) beta
        (child (board.applyMove move turn
          (board.getFlipsForMove move.row move.col turn)) alpha beta g).2
      rw [hl2]
      exact ⟨_, rfl⟩

theorem minLoopTrace_some {G : Type}
    (childT : Board → Int → Int → G → Option ((Int × G) × List Applied))
    (child : Board → Int → Int → G → Int × G)
    (h : ∀ nb a b g, ∃ log, childT nb a b g = some (child nb a b g, log))
    (board : Board) (turn : PlayerColor) :
    ∀ (moves : List Move) (minEval alpha beta : Int) (g : G),
      ∃ log, minLoopTrace childT board turn moves minEval alpha beta g
        = some (minLoop child board turn moves minEval alpha beta g, log) := by
  intro moves
  induction moves with
  | nil => intro minEval alpha beta g; exact ⟨[], by rw [minLoopTrace, minLoop]⟩
  | cons move rest ih =>
    intro minEval alpha beta g
    obtain ⟨log, hl⟩ := h (board.applyMove move turn
      (board.getFlipsForMove move.row move.col turn)) alpha beta g
    rw [minLoopTrace, minLoop]
    simp only [hl]
    by_cases hb : min beta (child (board.applyMove move turn
        (board.getFlipsForMove move.row move.col turn)) alpha beta g).1 ≤ alpha
    · rw [if_pos hb, if_pos hb]
      exact ⟨_, rfl⟩
    · rw [if_neg hb, if_neg hb]
      obtain ⟨log2, hl2⟩ := ih (min minEval (child (board.applyMove move turn
          (board.getFlipsForMove move.row move.col turn)) alpha beta g).1) alpha
        (min beta (child (board.applyMove move turn
          (board.getFlipsForMove move.row move.col turn)) alpha beta g).1)
        (child (board.applyMove move turn
          (board.getFlipsForMove move.row move.col turn)) alpha beta g).2
      rw [hl2]
      exact ⟨_, rfl⟩

/-- With a nesting bound above `depth` the bounded search returns, and its value and generator
state are those of `minimax`. -/
theorem minimaxTrace_some {G : Type} (sh : G → List Move → List Move × G) :
    ∀ (d fuel : Nat), d < fuel →
      ∀ (board : Board) (alpha beta : Int) (mp : Bool) (persp turn : PlayerColor) (g : G),
        ∃ log, minimaxTrace sh fuel board (d : Int) alpha beta mp persp turn g
          = some (minimax sh board d alpha beta mp persp turn g, log) := by
  intro d
  induction d with
  | zero =>
    intro fuel hf board alpha beta mp persp turn g
    obtain ⟨f, rfl⟩ : ∃ f, fuel = f + 1 := ⟨fuel - 1, by omega⟩
    rw [minimaxTrace, minimax]
    exact ⟨[], by simp⟩
  | succ d ih =>
    intro fuel hf board alpha beta mp persp turn g
    obtain ⟨f, rfl⟩ : ∃ f, fuel = f + 1 := ⟨fuel - 1, by omega⟩
    have hdf : d < f := by omega
    have hsub : ((d + 1 : Nat) : Int) - 1 = (d : Int) := by push_cast; ring
    have hnz : ¬ ((d + 1 : Nat) : Int) = 0 := by push_cast; omega
    rw [minimaxTrace, minimax]
    by_cases hover : board.isGameOver = true
    · rw [if_pos (Or.inr hover), if_pos hover]
      exact ⟨[], rfl⟩
    · rw [if_neg (fun h => h.elim hnz hover), if_neg hover]
      simp only [hsub]
      by_cases hempty : (board.getValidMoves turn).isEmpty = true
      · rw [if_pos hempty, if_pos hempty]
        exact ih f hdf board alpha beta (!mp) persp (getOpponent turn) g
      · rw [if_neg hempty, if_neg hempty]
        by_cases hmp : mp = true
        · rw [if_pos hmp, if_pos hmp]
          exact maxLoopTrace_some _ _
            (fun nb a b g1 => ih f hdf nb a b false persp (getOpponent turn) g1) _ _ _ _ _ _ _
        · rw [if_neg hmp, if_neg hmp]
          exact minLoopTrace_some _ _
            (fun nb a b g1 => ih f hdf nb a b true persp (getOpponent turn) g1) _ _ _ _ _ _ _

theorem legal_of_mem (board : Board) (turn : PlayerColor) (move : Move)
    (h : move ∈ board.getValidMoves turn) :
    Applied.Legal ⟨board, move, turn, board.getFlipsForMove move.row move.col turn⟩ := by
  obtain ⟨rc, hrc, hm, hempty, hne⟩ := (mem_getValidMoves board turn move).mp h
  subst hm
  exact ⟨h, allCells_inBounds rc hrc, hempty, rfl, hne⟩

theorem maxLoopTrace_legal {G : Type}
    (childT : Board → Int → Int → G → Option ((Int × G) × List Applied))
    (h : ∀ nb a b g r, childT nb a b g = some r → ∀ x ∈ r.2, x.Legal)
    (board : Board) (turn : PlayerColor) :
    ∀ (moves : List Move), (∀ m ∈ moves, m ∈ board.getValidMoves turn) →
      ∀ (maxEval alpha beta : Int) (g : G) (r : (Int × G) × List Applied),
        maxLoopTrace childT board turn moves maxEval alpha beta g = some r →
        ∀ x ∈ r.2, x.Legal := by
  intro moves
  induction moves with
  | nil =>
    intro _ maxEval alpha beta g r hr
    rw [maxLoopTrace] at hr
    have := Option.some.inj hr
    subst this
    intro x hx; exact absurd hx (List.not_mem_nil _)
  | cons move rest ih =>
    intro hmoves maxEval alpha beta g r hr
    have hlegal := legal_of_mem board turn move (hmoves move (List.mem_cons_self _ _))
    have hrest : ∀ m ∈ rest, m ∈ board.getValidMoves turn :=
      fun m hm => hmoves m (List.mem_cons_of_mem _ hm)
    rw [maxLoopTrace] at hr
    simp only at hr
    cases hc : childT (board.applyMove move turn
        (board.getFlipsForMove move.row move.col turn)) alpha beta g with
    | none => rw [hc] at hr; exact absurd hr (by simp)
    | some c =>
      rw [hc] at hr
      simp only at hr
      have hcl := h _ _ _ _ c hc
      by_cases hb : beta ≤ max alpha c.1.1
      · rw [if_pos hb] at hr
        have := Option.some.inj hr
        subst this
        intro x hx
        rcases List.mem_cons.mp hx with e | e
        · rw [e]; exact hlegal
        · exact hcl x e
      · rw [if_neg hb] at hr
        cases ht : maxLoopTrace childT board turn rest (max maxEval c.1.1) (max alpha c.1.1)
            beta c.1.2 with
        | none => rw [ht] at hr; exact absurd hr (by simp)
        | some t =>
          rw [ht] at hr
          have := Option.some.inj hr
          subst this
          intro x hx
          rcases List.mem_cons.mp hx with e | e
          · rw [e]; exact hlegal
          · rcases List.mem_append.mp e with e1 | e1
            · exact hcl x e1
            · exact ih hrest _ _ _ _ t ht x e1

theorem minLoopTrace_legal {G : Type}
    (childT : Board → Int → Int → G → Option ((Int × G) × List Applied))
    (h : ∀ nb a b g r, childT nb a b g = some r → ∀ x ∈ r.2, x.Legal)
    (board : Board) (turn : PlayerColor) :
    ∀ (moves : List Move), (∀ m ∈ moves, m ∈ board.getValidMoves turn) →
      ∀ (minEval alpha beta : Int) (g : G) (r : (Int × G) × List Applied),
        minLoopTrace childT board turn moves minEval alpha beta g = some r →
        ∀ x ∈ r.2, x.Legal := by
  intro moves
  induction moves with
  | nil =>
    intro _ minEval alpha beta g r hr
    rw [minLoopTrace] at hr
    have := Option.some.inj hr
    subst this
    intro x hx; exact absurd hx (List.not_mem_nil _)
  | cons move rest ih =>
    intro hmoves minEval alpha beta g r hr
    have hlegal := legal_of_mem board turn move (hmoves move (List.mem_cons_self _ _))
    have hrest : ∀ m ∈ rest, m ∈ board.getValidMoves turn :=
      fun m hm => hmoves m (List.mem_cons_of_mem _ hm)
    rw [minLoopTrace] at hr
    simp only at hr
    cases hc : childT (board.applyMove move turn
        (board.getFlipsForMove move.row move.col turn)) alpha beta g with
    | none => rw [hc] at hr; exact absurd hr (by simp)
    | some c =>
      rw [hc] at hr
      simp only at hr
      have hcl := h _ _ _ _ c hc
      by_cases hb : min beta c.1.1 ≤ alpha
      · rw [if_pos hb] at hr
        have := Option.some.inj hr
        subst this
        intro x hx
        rcases List.mem_cons.mp hx with e | e
        · rw [e]; exact hlegal
        · exact hcl x e
      · rw [if_neg hb] at hr
        cases ht : minLoopTrace childT board turn rest (min minEval c.1.1) alpha
            (min beta c.1.1) c.1.2 with
        | none => rw [ht] at hr; exact absurd hr (by simp)
        | some t =>
          rw [ht] at hr
          have := Option.some.inj hr
          subst this
          intro x hx
          rcases List.mem_cons.mp hx with e | e
          · rw [e]; exact hlegal
          · rcases List.mem_append.mp e with e1 | e1
            · exact hcl x e1
            · exact ih hrest _ _ _ _ t ht x e1

theorem minimaxTrace_legal {G : Type} (sh : G → List Move → List Move × G)
    (hsh : ∀ g l, (sh g l).1.Perm l) :
    ∀ (fuel : Nat) (board : Board) (depth alpha beta : Int) (mp : Bool)
      (persp turn : PlayerColor) (g : G) (r : (Int × G) × List Applied),
      minimaxTrace sh fuel board depth alpha beta mp persp turn g = some r →
      ∀ x ∈ r.2, x.Legal := by
  intro fuel
  induction fuel with
  | zero =>
    intro board depth alpha beta mp persp turn g r hr
    rw [minimaxTrace] at hr
    exact absurd hr (by simp)
  | succ f ih =>
    intro board depth alpha beta mp persp turn g r hr
    rw [minimaxTrace] at hr
    by_cases hleaf : depth = 0 ∨ board.isGameOver = true
    · rw [if_pos hleaf] at hr
      have := Option.some.inj hr
      subst this
      intro x hx; exact absurd hx (List.not_mem_nil _)
    · rw [if_neg hleaf] at hr
      simp only at hr
      by_cases hempty : (board.getValidMoves turn).isEmpty = true
      · rw [if_pos hempty] at hr
        exact ih _ _ _ _ _ _ _ _ r hr
      · rw [if_neg hempty] at hr
        have hmoves : ∀ m ∈ (sh g (board.getValidMoves turn)).1,
            m ∈ board.getValidMoves turn := fun m hm => (hsh g _).mem_iff.mp hm
        by_cases hmp : mp = true
        · rw [if_pos hmp] at hr
          exact maxLoopTrace_legal _ (fun nb a b g1 c hc => ih _ _ _ _ _ _ _ _ c hc) board turn
            _ hmoves _ _ _ _ r hr
        · rw [if_neg hmp] at hr
          exact minLoopTrace_legal _ (fun nb a b g1 c hc => ih _ _ _ _ _ _ _ _ c hc) board turn
            _ hmoves _ _ _ _ r hr

theorem searchLevelTrace_some {G : Type} (sh : G → List Move → List Move × G) (fuel : Nat)
    (board : Board) (player : PlayerColor) (currentDepth : Nat) (h1 : 1 ≤ currentDepth)
    (hf : currentDepth ≤ fuel) :
    ∀ (moves : List Move) (bestMove : Move) (bestScore : Int) (g : G),
      ∃ log, searchLevelTrace sh fuel board player currentDepth moves bestMove bestScore g
        = some (searchLevel sh board player currentDepth moves bestMove bestScore g, log) := by
  have hsub : ((currentDepth : Nat) : Int) - 1 = ((currentDepth - 1 : Nat) : Int) := by omega
  intro moves
  induction moves with
  | nil => intro bm bs g; exact ⟨[], by rw [searchLevelTrace, searchLevel]⟩
  | cons move rest ih =>
    intro bm bs g
    obtain ⟨log, hl⟩ := minimaxTrace_some sh (currentDepth - 1) fuel (by omega)
      (board.applyMove move player (board.getFlipsForMove move.row move.col player))
      INT_MIN INT_MAX false player (getOpponent player) g
    rw [searchLevelTrace, searchLevel]
    simp only [hsub, hl]
    by_cases hb : (minimax sh (board.applyMove move player
        (board.getFlipsForMove move.row move.col player)) (currentDepth - 1) INT_MIN INT_MAX
        false player (getOpponent player) g).1 > bs
    · rw [if_pos hb, if_pos hb]
      obtain ⟨log2, hl2⟩ := ih move (minimax sh (board.applyMove move player
        (board.getFlipsForMove move.row move.col player)) (currentDepth - 1) INT_MIN INT_MAX
        false player (getOpponent player) g).1 (minimax sh (board.applyMove move player
        (board.getFlipsForMove move.row move.col player)) (currentDepth - 1) INT_MIN INT_MAX
        false player (getOpponent player) g).2
      rw [hl2]
      exact ⟨_, rfl⟩
    · rw [if_neg hb, if_neg hb]
      obtain ⟨log2, hl2⟩ := ih bm bs (minimax sh (board.applyMove move player
        (board.getFlipsForMove move.row move.col player)) (currentDepth - 1) INT_MIN INT_MAX
        false player (getOpponent player) g).2
      rw [hl2]
      exact ⟨_, rfl⟩

theorem searchLevelTrace_legal {G : Type} (sh : G → List Move → List Move × G)
    (hsh : ∀ g l, (sh g l).1.Perm l) (fuel : Nat) (board : Board) (player : PlayerColor)
    (currentDepth : Nat) :
    ∀ (moves : List Move), (∀ m ∈ moves, m ∈ board.getValidMoves player) →
      ∀ (bestMove : Move) (bestScore : Int) (g : G) (r : ((Move × Int) × G) × List Applied),
        searchLevelTrace sh fuel board player currentDepth moves bestMove bestScore g = some r →
        ∀ x ∈ r.2, x.Legal := by
  intro moves
  induction moves with
  | nil =>
    intro _ bm bs g r hr
    rw [searchLevelTrace] at hr
    have := Option.some.inj hr
    subst this
    intro x hx; exact absurd hx (List.not_mem_nil _)
  | cons move rest ih =>
    intro hmoves bm bs g r hr
    have hlegal := legal_of_mem board player move (hmoves move (List.mem_cons_self _ _))
    have hrest : ∀ m ∈ rest, m ∈ board.getValidMoves player :=
      fun m hm => hmoves m (List.mem_cons_of_mem _ hm)
    rw [searchLevelTrace] at hr
    cases hc : minimaxTrace sh fuel (board.applyMove move player
        (board.getFlipsForMove move.row move.col player)) ((currentDepth : Int) - 1) INT_MIN
        INT_MAX false player (getOpponent player) g with
    | none => rw [hc] at hr; exact absurd hr (by simp)
    | some c =>
      rw [hc] at hr
      simp only at hr
      have hcl := minimaxTrace_legal sh hsh _ _ _ _ _ _ _ _ _ c hc
      cases ht : (if c.1.1 > bs then
          searchLevelTrace sh fuel board player currentDepth rest move c.1.1 c.1.2
        else searchLevelTrace sh fuel board player currentDepth rest bm bs c.1.2) with
      | none => rw [ht] at hr; exact absurd hr (by simp)
      | some t =>
        rw [ht] at hr
        have := Option.some.inj hr
        subst this
        have htl : ∀ x ∈ t.2, x.Legal := by
          by_cases hb : c.1.1 > bs
          · rw [if_pos hb] at ht; exact ih hrest _ _ _ t ht
          · rw [if_neg hb] at ht; exact ih hrest _ _ _ t ht
        intro x hx
        rcases List.mem_cons.mp hx with e | e
        · rw [e]; exact hlegal
        · rcases List.mem_append.mp e with e1 | e1
          · exact hcl x e1
          · exact htl x e1

theorem deepenTrace_some {G : Type} (sh : G → List Move → List Move × G) (fuel : Nat)
    (maxDepth limit : Int) (elapsed : Nat → Int) (board : Board) (player : PlayerColor)
    (vm : List Move) (hfuel : maxDepth.toNat ≤ fuel) :
    ∀ (budget n cd : Nat) (best : Move) (g : G), 1 ≤ cd → cd ≤ maxDepth.toNat + 1 →
      maxDepth.toNat + 1 < budget + cd → maxDepth.toNat + 1 ≤ n + cd →
      ∃ log, deepenTrace sh fuel maxDepth limit elapsed board player vm budget cd best g
        = some (deepen sh maxDepth limit elapsed board player vm n cd best g, log) := by
  intro budget
  induction budget with
  | zero =>
    intro n cd best g h1 h0 h2 h3
    exact absurd h2 (by omega)
  | succ k ih =>
    intro n cd best g h1 h0 h2 h3
    rw [deepenTrace]
    by_cases hcd : ((cd : Nat) : Int) ≤ maxDepth
    · obtain ⟨n', rfl⟩ : ∃ n', n = n' + 1 := ⟨n - 1, by omega⟩
      rw [deepen, if_pos hcd, if_pos hcd]
      obtain ⟨log, hl⟩ := searchLevelTrace_some sh fuel board player cd h1 (by omega) vm
        ⟨-1, -1⟩ INT_MIN g
      simp only [hl]
      by_cases hstop : elapsed cd ≥ limit ∧ ((cd : Nat) : Int) < maxDepth
      · rw [if_pos hstop, if_pos hstop]
        exact ⟨_, rfl⟩
      · rw [if_neg hstop, if_neg hstop]
        obtain ⟨log2, hl2⟩ := ih n' (cd + 1)
          (if (searchLevel sh board player cd vm ⟨-1, -1⟩ INT_MIN g).1.1.isValid = true then
            (searchLevel sh board player cd vm ⟨-1, -1⟩ INT_MIN g).1.1 else best)
          (searchLevel sh board player cd vm ⟨-1, -1⟩ INT_MIN g).2 (by omega) (by omega)
          (by omega) (by omega)
        rw [hl2]
        exact ⟨_, rfl⟩
    · rw [if_neg hcd]
      refine ⟨[], ?_⟩
      cases n with
      | zero => rw [deepen]
      | succ n' => rw [deepen, if_neg hcd]

theorem deepenTrace_legal {G : Type} (sh : G → List Move → List Move × G)
    (hsh : ∀ g l, (sh g l).1.Perm l) (fuel : Nat) (maxDepth limit : Int) (elapsed : Nat → Int)
    (board : Board) (player : PlayerColor) (vm : List Move)
    (hvm : ∀ m ∈ vm, m ∈ board.getValidMoves player) :
    ∀ (budget cd : Nat) (best : Move) (g : G) (r : (Move × G) × List Applied),
      deepenTrace sh fuel maxDepth limit elapsed board player vm budget cd best g = some r →
      ∀ x ∈ r.2, x.Legal := by
  intro budget
  induction budget with
  | zero =>
    intro cd best g r hr
    rw [deepenTrace] at hr
    exact absurd hr (by simp)
  | succ k ih =>
    intro cd best g r hr
    rw [deepenTrace] at hr
    by_cases hcd : ((cd : Nat) : Int) ≤ maxDepth
    · rw [if_pos hcd] at hr
      cases hl : searchLevelTrace sh fuel board player cd vm ⟨-1, -1⟩ INT_MIN g with
      | none => rw [hl] at hr; exact absurd hr (by simp)
      | some lvl =>
        rw [hl] at hr
        simp only at hr
        have hll := searchLevelTrace_legal sh hsh fuel board player cd vm hvm _ _ _ lvl hl
        by_cases hstop : elapsed cd ≥ limit ∧ ((cd : Nat) : Int) < maxDepth
        · rw [if_pos hstop] at hr
          have := Option.some.inj hr
          subst this
          exact hll
        · rw [if_neg hstop] at hr
          cases ht : deepenTrace sh fuel maxDepth limit elapsed board player vm k (cd + 1)
              (if lvl.1.1.1.isValid = true then lvl.1.1.1 else best) lvl.1.2 with
          | none => rw [ht] at hr; exact absurd hr (by simp)
          | some t =>
            rw [ht] at hr
            have := Option.some.inj hr
            subst this
            intro x hx
            rcases List.mem_append.mp hx with e | e
            · exact hll x e
            · exact ih _ _ _ t ht x e
    · rw [if_neg hcd] at hr
      have := Option.some.inj hr
      subst this
      intro x hx; exact absurd hx (List.not_mem_nil _)

theorem findBestTrace_some {G : Type} (sh : G → List Move → List Move × G) (fuel : Nat)
    (maxDepth limit : Int) (elapsed : Nat → Int) (board : Board) (player : PlayerColor) (g : G)
    (hfuel : maxDepth.toNat + 1 ≤ fuel) :
    ∃ log, findBestTrace sh fuel maxDepth limit elapsed board player g
      = some (findBestMoveIterativeDeepening sh maxDepth limit elapsed board player g, log) := by
  unfold findBestTrace findBestMoveIterativeDeepening
  cases hvm : board.getValidMoves player with
  | nil => exact ⟨[], rfl⟩
  | cons a tail =>
    cases tail with
    | nil => exact ⟨[], rfl⟩
    | cons b rest =>
      simp only
      exact deepenTrace_some sh fuel maxDepth limit elapsed board player _ (by omega) fuel
        maxDepth.toNat 1 _ _ (le_refl _) (by omega) (by omega) (by omega)

theorem findBestTrace_legal {G : Type} (sh : G → List Move → List Move × G)
    (hsh : ∀ g l, (sh g l).1.Perm l) (fuel : Nat) (maxDepth limit : Int) (elapsed : Nat → Int)
    (board : Board) (player : PlayerColor) (g : G) (r : (Move × G) × List Applied)
    (hr : findBestTrace sh fuel maxDepth limit elapsed board player g = some r) :
    ∀ x ∈ r.2, x.Legal := by
  unfold findBestTrace at hr
  cases hvm : board.getValidMoves player with
  | nil =>
    rw [hvm] at hr
    have := Option.some.inj hr
    subst this
    intro x hx; exact absurd hx (List.not_mem_nil _)
  | cons a tail =>
    cases tail with
    | nil =>
      rw [hvm] at hr
      have := Option.some.inj hr
      subst this
      intro x hx; exact absurd hx (List.not_mem_nil _)
    | cons b rest =>
      rw [hvm] at hr
      simp only at hr
      refine deepenTrace_legal sh hsh fuel maxDepth limit elapsed board player _ ?_ _ _ _ _ r hr
      intro m hm
      rw [hvm]
      exact (hsh g _).mem_iff.mp hm

/-- C25. `minimax` called with `depth = d >= 0` returns within `d + 1` nested calls (each
recursive call passes `depth - 1`, and `depth == 0` stops): with any nesting bound above `d` the
bounded function returns, and it returns the value of `minimax`.  Consequently
`findBestMoveIterativeDeepening` returns for every `maxDepth`, within `maxDepth + 1` iterations of
its depth loop and the same nesting bound. -/
theorem search_terminates {G : Type} (sh : G → List Move → List Move × G) :
    (∀ (d fuel : Nat), d < fuel →
      ∀ (board : Board) (alpha beta : Int) (mp : Bool) (persp turn : PlayerColor) (g : G),
        ∃ log, minimaxTrace sh fuel board (d : Int) alpha beta mp persp turn g
          = some (minimax sh board d alpha beta mp persp turn g, log))
      ∧ (∀ (fuel : Nat) (maxDepth limit : Int) (elapsed : Nat → Int) (board : Board)
          (player : PlayerColor) (g : G), maxDepth.toNat + 1 ≤ fuel →
          ∃ log, findBestTrace sh fuel maxDepth limit elapsed board player g
            = some (findBestMoveIterativeDeepening sh maxDepth limit elapsed board player g,
                log)) :=
  ⟨minimaxTrace_some sh,
    fun fuel maxDepth limit elapsed board player g h =>
      findBestTrace_some sh fuel maxDepth limit elapsed board player g h⟩

/-- C24. Every call of `applyMove` made by `minimax` or by `findBestMoveIterativeDeepening`
applies a move that is legal for the mover on the board copy it is applied to - its cell is on
the grid and empty - with the flips of `getFlipsForMove`, at least one; and the recorded run is
the run of the driver: it exists and returns the driver's result. -/
theorem search_applies_legal_moves {G : Type} (sh : G → List Move → List Move × G)
    (hsh : ∀ g l, (sh g l).1.Perm l) :
    (∀ (fuel : Nat) (board : Board) (depth alpha beta : Int) (mp : Bool)
        (persp turn : PlayerColor) (g : G) (r : (Int × G) × List Applied),
        minimaxTrace sh fuel board depth alpha beta mp persp turn g = some r →
        ∀ a ∈ r.2, a.Legal)
      ∧ (∀ (fuel : Nat) (maxDepth limit : Int) (elapsed : Nat → Int) (board : Board)
          (player : PlayerColor) (g : G) (r : (Move × G) × List Applied),
          findBestTrace sh fuel maxDepth limit elapsed board player g = some r →
          ∀ a ∈ r.2, a.Legal)
      ∧ (∀ (maxDepth limit : Int) (elapsed : Nat → Int) (board : Board) (player : PlayerColor)
          (g : G), ∃ r,
            findBestTrace sh (maxDepth.toNat + 1) maxDepth limit elapsed board player g = some r
              ∧ r.1 = findBestMoveIterativeDeepening sh maxDepth limit elapsed board player g
              ∧ ∀ a ∈ r.2, a.Legal) := by
  refine ⟨minimaxTrace_legal sh hsh, ?_, ?_⟩
  · intro fuel maxDepth limit elapsed board player g r hr
    exact findBestTrace_legal sh hsh fuel maxDepth limit elapsed board player g r hr
  · intro maxDepth limit elapsed board player g
    obtain ⟨log, hl⟩ := findBestTrace_some sh (maxDepth.toNat + 1) maxDepth limit elapsed board
      player g (le_refl _)
    exact ⟨_, hl, rfl, findBestTrace_legal sh hsh _ maxDepth limit elapsed board player g _ hl⟩

/-- C24, instance: the rotating shuffle. -/
theorem search_applies_legal_moves_witness :
    (∀ (fuel : Nat) (board : Board) (depth alpha beta : Int) (mp : Bool)
        (persp turn : PlayerColor) (g : Unit) (r : (Int × Unit) × List Applied),
        minimaxTrace rotateShuffle fuel board depth alpha beta mp persp turn g = some r →
        ∀ a ∈ r.2, a.Legal)
      ∧ (∀ (fuel : Nat) (maxDepth limit : Int) (elapsed : Nat → Int) (board : Board)
          (player : PlayerColor) (g : Unit) (r : (Move × Unit) × List Applied),
          findBestTrace rotateShuffle fuel maxDepth limit elapsed board player g = some r →
          ∀ a ∈ r.2, a.Legal)
      ∧ (∀ (maxDepth limit : Int) (elapsed : Nat → Int) (board : Board) (player : PlayerColor)
          (g : Unit), ∃ r,
            findBestTrace rotateShuffle (maxDepth.toNat + 1) maxDepth limit elapsed board player g
                = some r
              ∧ r.1 = findBestMoveIterativeDeepening rotateShuffle maxDepth limit elapsed board
                  player g
              ∧ ∀ a ∈ r.2, a.Legal) :=
  search_applies_legal_moves rotateShuffle rotateShuffle_perm

/-! ## The calls of `minimax` made by a search -/

theorem maxLoopCalls_fst {G : Type} (childC : Board → Int → Int → G → (Int × G) × List Visit)
    (child : Board → Int → Int → G → Int × G)
    (h : ∀ nb a b g, (childC nb a b g).1 = child nb a b g) (board : Board)
    (turn : PlayerColor) :
    ∀ (moves : List Move) (maxEval alpha beta : Int) (g : G),
      (maxLoopCalls childC board turn moves maxEval alpha beta g).1
        = maxLoop child board turn moves maxEval alpha beta g := by
  intro moves
  induction moves with
  | nil => intro maxEval alpha beta g; rfl
  | cons move rest ih =>
    intro maxEval alpha beta g
    simp only [maxLoopCalls, maxLoop, h]
    split_ifs
    · rfl
    · exact ih _ _ _ _

theorem minLoopCalls_fst {G : Type} (childC : Board → Int → Int → G → (Int × G) × List Visit)
    (child : Board → Int → Int → G → Int × G)
    (h : ∀ nb a b g, (childC nb a b g).1 = child nb a b g) (board : Board)
    (turn : PlayerColor) :
    ∀ (moves : List Move) (minEval alpha beta : Int) (g : G),
      (minLoopCalls childC board turn moves minEval alpha beta g).1
        = minLoop child board turn moves minEval alpha beta g := by
  intro moves
  induction moves with
  | nil => intro minEval alpha beta g; rfl
  | cons move rest ih =>
    intro minEval alpha beta g
    simp only [minLoopCalls, minLoop, h]
    split_ifs
    · rfl
    · exact ih _ _ _ _

theorem minimaxCalls_fst {G : Type} (sh : G → List Move → List Move × G) (depth : Nat) :
    ∀ (board : Board) (alpha beta : Int) (mp : Bool) (persp turn : PlayerColor) (g : G),
      (minimaxCalls sh board depth alpha beta mp persp turn g).1
        = minimax sh board depth alpha beta mp persp turn g := by
  induction depth with
  | zero => intro board alpha beta mp persp turn g; rfl
  | succ d ih =>
    intro board alpha beta mp persp turn g
    unfold minimaxCalls minimax
    by_cases hover : board.isGameOver = true
    · simp only [hover, if_true]
    · simp only [hover, Bool.false_eq_true, if_false]
      by_cases hempty : (board.getValidMoves turn).isEmpty = true
      · simp only [hempty, if_true]
        exact ih _ _ _ _ _ _ _
      · simp only [hempty, Bool.false_eq_true, if_false]
        cases mp with
        | true =>
          simp only [if_true]
          exact maxLoopCalls_fst _ _ (fun nb a b g1 => ih nb a b false persp _ g1) _ _ _ _ _ _ _
        | false =>
          simp only [Bool.false_eq_true, if_false]
          exact minLoopCalls_fst _ _ (fun nb a b g1 => ih nb a b true persp _ g1) _ _ _ _ _ _ _

theorem searchLevelCalls_fst {G : Type} (sh : G → List Move → List Move × G) (board : Board)
    (player : PlayerColor) (currentDepth : Nat) :
    ∀ (moves : List Move) (bestMove : Move) (bestScore : Int) (g : G),
      (searchLevelCalls sh board player currentDepth moves bestMove bestScore g).1
        = searchLevel sh board player currentDepth moves bestMove bestScore g := by
  intro moves
  induction moves with
  | nil => intro bestMove bestScore g; rfl
  | cons move rest ih =>
    intro bestMove bestScore g
    simp only [searchLevelCalls, searchLevel, minimaxCalls_fst]
    split_ifs
    · exact ih _ _ _
    · exact ih _ _ _

theorem deepenCalls_fst {G : Type} (sh : G → List Move → List Move × G)
    (maxDepth limit : Int) (elapsed : Nat → Int) (board : Board) (player : PlayerColor)
    (validMoves : List Move) :
    ∀ (fuel currentDepth : Nat) (best : Move) (g : G),
      (deepenCalls sh maxDepth limit elapsed board player validMoves fuel currentDepth best g).1
        = deepen sh maxDepth limit elapsed board player validMoves fuel currentDepth best g := by
  intro fuel
  induction fuel with
  | zero => intro currentDepth best g; rfl
  | succ fuel ih =>
    intro currentDepth best g
    simp only [deepenCalls, deepen, searchLevelCalls_fst]
    split_ifs <;> first | rfl | exact ih _ _ _

theorem findBestCalls_fst {G : Type} (sh : G → List Move → List Move × G)
    (maxDepth limit : Int) (elapsed : Nat → Int) (board : Board) (player : PlayerColor) (g : G) :
    (findBestCalls sh maxDepth limit elapsed board player g).1
      = findBestMoveIterativeDeepening sh maxDepth limit elapsed board player g := by
  unfold findBestCalls findBestMoveIterativeDeepening
  simp only
  generalize board.getValidMoves player = vm
  cases vm with
  | nil => rfl
  | cons a tl =>
    cases tl with
    | nil => rfl
    | cons b tl2 => exact deepenCalls_fst _ _ _ _ _ _ _ _ _ _ _

theorem maxLoopCalls_all {G : Type} (P : Visit → Prop)
    (childC : Board → Int → Int → G → (Int × G) × List Visit)
    (h : ∀ nb a b g, ∀ v ∈ (childC nb a b g).2, P v) (board : Board) (turn : PlayerColor) :
    ∀ (moves : List Move) (maxEval alpha beta : Int) (g : G),
      ∀ v ∈ (maxLoopCalls childC board turn moves maxEval alpha beta g).2, P v := by
  intro moves
  induction moves with
  | nil => intro maxEval alpha beta g v hv; simp [maxLoopCalls] at hv
  | cons move rest ih =>
    intro maxEval alpha beta g v hv
    simp only [maxLoopCalls] at hv
    split_ifs at hv
    · exact h _ _ _ _ v hv
    · rcases List.mem_append.mp hv with h1 | h1
      · exact h _ _ _ _ v h1
      · exact ih _ _ _ _ v h1

theorem minLoopCalls_all {G : Type} (P : Visit → Prop)
    (childC : Board → Int → Int → G → (Int × G) × List Visit)
    (h : ∀ nb a b g, ∀ v ∈ (childC nb a b g).2, P v) (board : Board) (turn : PlayerColor) :
    ∀ (moves : List Move) (minEval alpha beta : Int) (g : G),
      ∀ v ∈ (minLoopCalls childC board turn moves minEval alpha beta g).2, P v := by
  intro moves
  induction moves with
  | nil => intro minEval alpha beta g v hv; simp [minLoopCalls] at hv
  | cons move rest ih =>
    intro minEval alpha beta g v hv
    simp only [minLoopCalls] at hv
    split_ifs at hv
    · exact h _ _ _ _ v hv
    · rcases List.mem_append.mp hv with h1 | h1
      · exact h _ _ _ _ v h1
      · exact ih _ _ _ _ v h1

theorem flag_of_opponent (mp : Bool) (persp turn : PlayerColor)
    (hp : persp ≠ PlayerColor.NONE) (ht : turn ≠ PlayerColor.NONE)
    (hf : mp = true ↔ turn = persp) :
    ((!mp) = true ↔ getOpponent turn = persp) := by
  cases mp <;> cases persp <;> cases turn <;> simp_all [getOpponent]

theorem minimaxCalls_aligned {G : Type} (sh : G → List Move → List Move × G)
    (player : PlayerColor) (hp : player ≠ PlayerColor.NONE) (depth : Nat) :
    ∀ (board : Board) (alpha beta : Int) (mp : Bool) (turn : PlayerColor) (g : G),
      turn ≠ PlayerColor.NONE → (mp = true ↔ turn = player) →
      ∀ v ∈ (minimaxCalls sh board depth alpha beta mp player turn g).2, v.Aligned player := by
  induction depth with
  | zero =>
    intro board alpha beta mp turn g ht hf v hv
    simp only [minimaxCalls, List.mem_singleton] at hv
    subst hv
    exact ⟨rfl, hf, fun _ => rfl⟩
  | succ d ih =>
    intro board alpha beta mp turn g ht hf v hv
    unfold minimaxCalls at hv
    by_cases hover : board.isGameOver = true
    · simp only [hover, if_true, List.mem_singleton] at hv
      subst hv
      exact ⟨rfl, hf, fun _ => rfl⟩
    · simp only [hover, Bool.false_eq_true, if_false, List.mem_cons] at hv
      have hopp := getOpponent_ne_NONE turn
      have hflip := flag_of_opponent mp player turn hp ht hf
      rcases hv with hv | hv
      · subst hv
        refine ⟨rfl, hf, ?_⟩
        intro hleaf
        rcases hleaf with h0 | h0
        · exact absurd h0 (Nat.succ_ne_zero d)
        · exact absurd h0 hover
      · by_cases hempty : (board.getValidMoves turn).isEmpty = true
        · simp only [hempty, if_true] at hv
          exact ih board alpha beta (!mp) (getOpponent turn) g hopp hflip v hv
        · simp only [hempty, Bool.false_eq_true, if_false] at hv
          cases mp with
          | true =>
            simp only [if_true] at hv
            exact maxLoopCalls_all _ _
              (fun nb a b g1 => ih nb a b false (getOpponent turn) g1 hopp hflip) _ _ _ _ _ _ _
              v hv
          | false =>
            simp only [Bool.false_eq_true, if_false] at hv
            exact minLoopCalls_all _ _
              (fun nb a b g1 => ih nb a b true (getOpponent turn) g1 hopp hflip) _ _ _ _ _ _ _
              v hv

theorem root_flag (player : PlayerColor) (hp : player ≠ PlayerColor.NONE) :
    (false = true ↔ getOpponent player = player) := by
  cases player <;> simp_all [getOpponent]

theorem searchLevelCalls_aligned {G : Type} (sh : G → List Move → List Move × G)
    (board : Board) (player : PlayerColor) (hp : player ≠ PlayerColor.NONE)
    (currentDepth : Nat) :
    ∀ (moves : List Move) (bestMove : Move) (bestScore : Int) (g : G),
      ∀ v ∈ (searchLevelCalls sh board player currentDepth moves bestMove bestScore g).2,
        v.Aligned player := by
  intro moves
  induction moves with
  | nil => intro bestMove bestScore g v hv; simp [searchLevelCalls] at hv
  | cons move rest ih =>
    intro bestMove bestScore g v hv
    simp only [searchLevelCalls] at hv
    rcases List.mem_append.mp hv with h1 | h1
    · exact minimaxCalls_aligned sh player hp _ _ _ _ false _ _ (getOpponent_ne_NONE player)
        (root_flag player hp) v h1
    · split_ifs at h1
      · exact ih _ _ _ v h1
      · exact ih _ _ _ v h1

theorem deepenCalls_aligned {G : Type} (sh : G → List Move → List Move × G)
    (maxDepth limit : Int) (elapsed : Nat → Int) (board : Board) (player : PlayerColor)
    (hp : player ≠ PlayerColor.NONE) (validMoves : List Move) :
    ∀ (fuel currentDepth : Nat) (best : Move) (g : G),
      ∀ v ∈ (deepenCalls sh maxDepth limit elapsed board player validMoves fuel currentDepth
          best g).2, v.Aligned player := by
  intro fuel
  induction fuel with
  | zero => intro currentDepth best g v hv; simp [deepenCalls] at hv
  | succ fuel ih =>
    intro currentDepth best g v hv
    rw [deepenCalls] at hv
    by_cases h1 : (currentDepth : Int) ≤ maxDepth
    · rw [if_pos h1] at hv
      simp only at hv
      by_cases h2 : elapsed currentDepth ≥ limit ∧ (currentDepth : Int) < maxDepth
      · rw [if_pos h2] at hv
        exact searchLevelCalls_aligned sh board player hp _ _ _ _ _ v hv
      · rw [if_neg h2] at hv
        rcases List.mem_append.mp hv with h3 | h3
        · exact searchLevelCalls_aligned sh board player hp _ _ _ _ _ v h3
        · exact ih _ _ _ v h3
    · rw [if_neg h1] at hv
      simp at hv

theorem findBestCalls_aligned {G : Type} (sh : G → List Move → List Move × G)
    (maxDepth limit : Int) (elapsed : Nat → Int) (board : Board) (player : PlayerColor)
    (hp : player ≠ PlayerColor.NONE) (g : G) :
    ∀ v ∈ (findBestCalls sh maxDepth limit elapsed board player g).2, v.Aligned player := by
  unfold findBestCalls
  simp only
  generalize board.getValidMoves player = vm
  cases vm with
  | nil => intro v hv; simp at hv
  | cons a tl =>
    cases tl with
    | nil => intro v hv; simp at hv
    | cons b tl2 =>
      exact deepenCalls_aligned sh maxDepth limit elapsed board player hp _ _ _ _ _

theorem minimaxCalls_head {G : Type} (sh : G → List Move → List Move × G) (board : Board)
    (depth : Nat) (alpha beta : Int) (mp : Bool) (persp turn : PlayerColor) (g : G) :
    ∃ below, (minimaxCalls sh board depth alpha beta mp persp turn g).2
      = ⟨⟨board, depth, mp, persp, turn⟩,
          (minimax sh board depth alpha beta mp persp turn g).1⟩ :: below := by
  rw [← minimaxCalls_fst]
  cases depth with
  | zero => exact ⟨[], rfl⟩
  | succ d =>
    unfold minimaxCalls
    by_cases hover : board.isGameOver = true
    · simp only [hover, if_true]
      exact ⟨[], rfl⟩
    · simp only [hover, Bool.false_eq_true, if_false]
      exact ⟨_, rfl⟩

theorem minimaxCalls_pass {G : Type} (sh : G → List Move → List Move × G) (board : Board)
    (d : Nat) (alpha beta : Int) (mp : Bool) (persp turn : PlayerColor) (g : G)
    (hover : board.isGameOver = false) (hnone : board.getValidMoves turn = []) :
    ∀ v ∈ (minimaxCalls sh board d alpha beta (!mp) persp (getOpponent turn) g).2,
      v ∈ (minimaxCalls sh board (d + 1) alpha beta mp persp turn g).2 := by
  intro v hv
  rw [minimaxCalls]
  simp only [hover, hnone, List.isEmpty_nil, Bool.false_eq_true, if_false, if_true]
  exact List.mem_cons_of_mem _ hv

theorem maxLoopCalls_first {G : Type}
    (childC : Board → Int → Int → G → (Int × G) × List Visit) (board : Board)
    (turn : PlayerColor) (move : Move) (rest : List Move) (maxEval alpha beta : Int) (g : G) :
    ∀ v ∈ (childC (playMove board turn move) alpha beta g).2,
      v ∈ (maxLoopCalls childC board turn (move :: rest) maxEval alpha beta g).2 := by
  intro v hv
  simp only [maxLoopCalls]
  split_ifs
  · exact hv
  · exact List.mem_append_left _ hv

theorem minLoopCalls_first {G : Type}
    (childC : Board → Int → Int → G → (Int × G) × List Visit) (board : Board)
    (turn : PlayerColor) (move : Move) (rest : List Move) (minEval alpha beta : Int) (g : G) :
    ∀ v ∈ (childC (playMove board turn move) alpha beta g).2,
      v ∈ (minLoopCalls childC board turn (move :: rest) minEval alpha beta g).2 := by
  intro v hv
  simp only [minLoopCalls]
  split_ifs
  · exact hv
  · exact List.mem_append_left _ hv

theorem minimaxCalls_first_child {G : Type} (sh : G → List Move → List Move × G)
    (board : Board) (d : Nat) (alpha beta : Int) (mp : Bool) (persp turn : PlayerColor) (g : G)
    (hover : board.isGameOver = false) (hsome : board.getValidMoves turn ≠ [])
    (move : Move) (rest : List Move)
    (hsh : (sh g (board.getValidMoves turn)).1 = move :: rest) :
    ∀ v ∈ (minimaxCalls sh (playMove board turn move) d alpha beta (!mp) persp
        (getOpponent turn) (sh g (board.getValidMoves turn)).2).2,
      v ∈ (minimaxCalls sh board (d + 1) alpha beta mp persp turn g).2 := by
  intro v hv
  have hempty : (board.getValidMoves turn).isEmpty = false := by
    cases h : board.getValidMoves turn with
    | nil => exact absurd h hsome
    | cons a l => rfl
  rw [minimaxCalls]
  simp only [hover, hempty, Bool.false_eq_true, if_false, hsh]
  apply List.mem_cons_of_mem
  cases mp with
  | true =>
    simp only [if_true]
    exact maxLoopCalls_first _ board turn move rest _ _ _ _ v hv
  | false =>
    simp only [Bool.false_eq_true, if_false]
    exact minLoopCalls_first _ board turn move rest _ _ _ _ v hv

theorem searchLevelCalls_root {G : Type} (sh : G → List Move → List Move × G) (board : Board)
    (player : PlayerColor) (currentDepth : Nat) (move : Move) (rest : List Move)
    (bestMove : Move) (bestScore : Int) (g : G) :
    ∀ v ∈ (minimaxCalls sh (playMove board player move) (currentDepth - 1) INT_MIN INT_MAX false
        player (getOpponent player) g).2,
      v ∈ (searchLevelCalls sh board player currentDepth (move :: rest) bestMove bestScore g).2 := by
  intro v hv
  simp only [searchLevelCalls]
  exact List.mem_append_left _ hv

/-- C16. The calls of `minimax` made by `findBestMoveIterativeDeepening board player`, for
`player` in {BLACK, WHITE}, are recorded by `findBestCalls`, which returns the driver's result.
In every recorded call - root calls, calls after a real move and calls after a forced pass - the
perspective side is `player`, the maximizing flag is true exactly when the side to move is the
perspective side, and a call that ends at a leaf (depth 0 or a finished game) returned
`evaluate` of its board for `player`.  The record is that of the source: `minimaxCalls` returns
what `minimax` returns, its first entry is the call itself, and the call after a forced pass and
the call after the first move tried are in it with the negated flag and the other side to
move. -/
theorem minimax_calls_flag_invariant {G : Type} (sh : G → List Move → List Move × G)
    (maxDepth limit : Int) (elapsed : Nat → Int) (board : Board) (player : PlayerColor) (g : G)
    (hp : player ≠ PlayerColor.NONE) :
    (findBestCalls sh maxDepth limit elapsed board player g).1
        = findBestMoveIterativeDeepening sh maxDepth limit elapsed board player g
      ∧ (∀ v ∈ (findBestCalls sh maxDepth limit elapsed board player g).2, v.Aligned player)
      ∧ (∀ (b : Board) (depth : Nat) (alpha beta : Int) (mp : Bool) (persp turn : PlayerColor)
          (g1 : G),
          (minimaxCalls sh b depth alpha beta mp persp turn g1).1
              = minimax sh b depth alpha beta mp persp turn g1
            ∧ ∃ below, (minimaxCalls sh b depth alpha beta mp persp turn g1).2
                = ⟨⟨b, depth, mp, persp, turn⟩,
                    (minimax sh b depth alpha beta mp persp turn g1).1⟩ :: below)
      ∧ (∀ (b : Board) (d : Nat) (alpha beta : Int) (mp : Bool) (persp turn : PlayerColor)
          (g1 : G), b.isGameOver = false →
          (b.getValidMoves turn = [] →
            ∀ v ∈ (minimaxCalls sh b d alpha beta (!mp) persp (getOpponent turn) g1).2,
              v ∈ (minimaxCalls sh b (d + 1) alpha beta mp persp turn g1).2)
          ∧ (b.getValidMoves turn ≠ [] → ∀ (move : Move) (rest : List Move),
              (sh g1 (b.getValidMoves turn)).1 = move :: rest →
              ∀ v ∈ (minimaxCalls sh (playMove b turn move) d alpha beta (!mp) persp
                  (getOpponent turn) (sh g1 (b.getValidMoves turn)).2).2,
                v ∈ (minimaxCalls sh b (d + 1) alpha beta mp persp turn g1).2))
      ∧ (∀ (currentDepth : Nat) (move : Move) (rest : List Move) (bestMove : Move)
          (bestScore : Int) (g1 : G),
          ∀ v ∈ (minimaxCalls sh (playMove board player move) (currentDepth - 1) INT_MIN INT_MAX
              false player (getOpponent player) g1).2,
            v ∈ (searchLevelCalls sh board player currentDepth (move :: rest) bestMove bestScore
              g1).2) := by
  refine ⟨findBestCalls_fst sh maxDepth limit elapsed board player g,
    findBestCalls_aligned sh maxDepth limit elapsed board player hp g, ?_, ?_, ?_⟩
  · intro b depth alpha beta mp persp turn g1
    exact ⟨minimaxCalls_fst sh depth b alpha beta mp persp turn g1,
      minimaxCalls_head sh b depth alpha beta mp persp turn g1⟩
  · intro b d alpha beta mp persp turn g1 hover
    exact ⟨fun hnone => minimaxCalls_pass sh b d alpha beta mp persp turn g1 hover hnone,
      fun hsome move rest hsh =>
        minimaxCalls_first_child sh b d alpha beta mp persp turn g1 hover hsome move rest hsh⟩
  · intro currentDepth move rest bestMove bestScore g1
    exact searchLevelCalls_root sh board player currentDepth move rest bestMove bestScore g1

theorem deepenCalls_level {G : Type} (sh : G → List Move → List Move × G)
    (maxDepth limit : Int) (elapsed : Nat → Int) (board : Board) (player : PlayerColor)
    (move : Move) (rest : List Move) (fuel currentDepth : Nat) (best : Move) (g : G)
    (hd : (currentDepth : Int) ≤ maxDepth) :
    ∀ v ∈ (minimaxCalls sh (playMove board player move) (currentDepth - 1) INT_MIN INT_MAX false
        player (getOpponent player) g).2,
      v ∈ (deepenCalls sh maxDepth limit elapsed board player (move :: rest) (fuel + 1)
        currentDepth best g).2 := by
  intro v hv
  have hroot := searchLevelCalls_root sh board player currentDepth move rest ⟨-1, -1⟩ INT_MIN g
    v hv
  rw [deepenCalls, if_pos hd]
  simp only
  by_cases h2 : elapsed currentDepth ≥ limit ∧ (currentDepth : Int) < maxDepth
  · rw [if_pos h2]; exact hroot
  · rw [if_neg h2]; exact List.mem_append_left _ hroot

theorem deepenCalls_next {G : Type} (sh : G → List Move → List Move × G)
    (maxDepth limit : Int) (elapsed : Nat → Int) (board : Board) (player : PlayerColor)
    (validMoves : List Move) (fuel currentDepth : Nat) (best : Move) (g : G)
    (hd : (currentDepth : Int) ≤ maxDepth) (htime : elapsed currentDepth < limit) :
    ∃ (best1 : Move) (g1 : G),
      ∀ v ∈ (deepenCalls sh maxDepth limit elapsed board player validMoves fuel
          (currentDepth + 1) best1 g1).2,
        v ∈ (deepenCalls sh maxDepth limit elapsed board player validMoves (fuel + 1)
          currentDepth best g).2 := by
  refine ⟨if (searchLevelCalls sh board player currentDepth validMoves ⟨-1, -1⟩ INT_MIN
        g).1.1.1.isValid then
      (searchLevelCalls sh board player currentDepth validMoves ⟨-1, -1⟩ INT_MIN g).1.1.1
    else best,
    (searchLevelCalls sh board player currentDepth validMoves ⟨-1, -1⟩ INT_MIN g).1.2, ?_⟩
  intro v hv
  rw [deepenCalls, if_pos hd]
  simp only
  have h2 : ¬ (elapsed currentDepth ≥ limit ∧ (currentDepth : Int) < maxDepth) := by
    intro h; exact absurd h.1 (not_le.mpr htime)
  rw [if_neg h2]
  exact List.mem_append_right _ hv

/-- A forced pass below a root move is recorded at level 2 of the driver's run, with the flag
negated and the root player to move again. -/
theorem findBestCalls_records_pass {G : Type} (sh : G → List Move → List Move × G)
    (maxDepth limit : Int) (elapsed : Nat → Int) (board : Board) (player : PlayerColor) (g : G)
    (a b : Move) (tl : List Move) (move : Move) (rest : List Move)
    (hvm : board.getValidMoves player = a :: b :: tl)
    (hsh : (sh g (a :: b :: tl)).1 = move :: rest)
    (hdepth : 2 ≤ maxDepth) (htime : elapsed 1 < limit)
    (hover : (playMove board player move).isGameOver = false)
    (hnone : (playMove board player move).getValidMoves (getOpponent player) = []) :
    ∃ v ∈ (findBestCalls sh maxDepth limit elapsed board player g).2,
      v.call = ⟨playMove board player move, 0, true, player,
        getOpponent (getOpponent player)⟩ := by
  have hfuel : ∃ n, maxDepth.toNat = (n + 1) + 1 := ⟨maxDepth.toNat - 2, by omega⟩
  obtain ⟨n, hn⟩ := hfuel
  have hrun : (findBestCalls sh maxDepth limit elapsed board player g).2
      = (deepenCalls sh maxDepth limit elapsed board player (move :: rest) ((n + 1) + 1) 1
          ((move :: rest).headD ⟨-1, -1⟩) (sh g (a :: b :: tl)).2).2 := by
    unfold findBestCalls
    simp only [hvm, hsh, hn]
  obtain ⟨best1, g1, hnext⟩ := deepenCalls_next sh maxDepth limit elapsed board player
    (move :: rest) (n + 1) 1 ((move :: rest).headD ⟨-1, -1⟩) (sh g (a :: b :: tl)).2
    (by omega) htime
  obtain ⟨below, hhead⟩ := minimaxCalls_head sh (playMove board player move) 0 INT_MIN INT_MAX
    (!false) player (getOpponent (getOpponent player)) g1
  refine ⟨⟨⟨playMove board player move, 0, true, player, getOpponent (getOpponent player)⟩,
    (minimax sh (playMove board player move) 0 INT_MIN INT_MAX (!false) player
      (getOpponent (getOpponent player)) g1).1⟩, ?_, rfl⟩
  rw [hrun]
  apply hnext
  apply deepenCalls_level sh maxDepth limit elapsed board player move rest n (1 + 1) best1 g1
    (by push_cast; omega)
  apply minimaxCalls_pass sh (playMove board player move) 0 INT_MIN INT_MAX false player
    (getOpponent player) g1 hover hnone
  rw [hhead]
  exact List.mem_cons_self _ _

set_option maxRecDepth 100000 in
theorem twoPairs_facts :
    twoPairs.getValidMoves PlayerColor.BLACK = [⟨0, 2⟩, ⟨7, 2⟩]
      ∧ (playMove twoPairs PlayerColor.BLACK ⟨7, 2⟩).isGameOver = false
      ∧ (playMove twoPairs PlayerColor.BLACK ⟨7, 2⟩).getValidMoves
          (getOpponent PlayerColor.BLACK) = [] := by
  decide

/-- C16, instance: the board `twoPairs`, Black to move, `maxDepth = 3`, 1500 ms, a clock that
stands still, the rotating shuffle.  The run holds calls down to two plies below the root moves;
among them is the call made after White's forced pass below Black's move `(7,2)`, with the flag
set and Black to move. -/
theorem minimax_calls_flag_invariant_witness :
    ((findBestCalls rotateShuffle 3 1500 (fun _ => 0) twoPairs PlayerColor.BLACK ()).1
        = findBestMoveIterativeDeepening rotateShuffle 3 1500 (fun _ => 0) twoPairs
            PlayerColor.BLACK ()
      ∧ (∀ v ∈ (findBestCalls rotateShuffle 3 1500 (fun _ => 0) twoPairs
            PlayerColor.BLACK ()).2, v.Aligned PlayerColor.BLACK)
      ∧ (∀ (b : Board) (depth : Nat) (alpha beta : Int) (mp : Bool) (persp turn : PlayerColor)
          (g1 : Unit),
          (minimaxCalls rotateShuffle b depth alpha beta mp persp turn g1).1
              = minimax rotateShuffle b depth alpha beta mp persp turn g1
            ∧ ∃ below, (minimaxCalls rotateShuffle b depth alpha beta mp persp turn g1).2
                = ⟨⟨b, depth, mp, persp, turn⟩,
                    (minimax rotateShuffle b depth alpha beta mp persp turn g1).1⟩ :: below)
      ∧ (∀ (b : Board) (d : Nat) (alpha beta : Int) (mp : Bool) (persp turn : PlayerColor)
          (g1 : Unit), b.isGameOver = false →
          (b.getValidMoves turn = [] →
            ∀ v ∈ (minimaxCalls rotateShuffle b d alpha beta (!mp) persp (getOpponent turn)
                g1).2,
              v ∈ (minimaxCalls rotateShuffle b (d + 1) alpha beta mp persp turn g1).2)
          ∧ (b.getValidMoves turn ≠ [] → ∀ (move : Move) (rest : List Move),
              (rotateShuffle g1 (b.getValidMoves turn)).1 = move :: rest →
              ∀ v ∈ (minimaxCalls rotateShuffle (playMove b turn move) d alpha beta (!mp) persp
                  (getOpponent turn) (rotateShuffle g1 (b.getValidMoves turn)).2).2,
                v ∈ (minimaxCalls rotateShuffle b (d + 1) alpha beta mp persp turn g1).2))
      ∧ (∀ (currentDepth : Nat) (move : Move) (rest : List Move) (bestMove : Move)
          (bestScore : Int) (g1 : Unit),
          ∀ v ∈ (minimaxCalls rotateShuffle (playMove twoPairs PlayerColor.BLACK move)
              (currentDepth - 1) INT_MIN INT_MAX false PlayerColor.BLACK
              (getOpponent PlayerColor.BLACK) g1).2,
            v ∈ (searchLevelCalls rotateShuffle twoPairs PlayerColor.BLACK currentDepth
              (move :: rest) bestMove bestScore g1).2))
      ∧ ∃ v ∈ (findBestCalls rotateShuffle 3 1500 (fun _ => 0) twoPairs PlayerColor.BLACK ()).2,
          v.call = ⟨playMove twoPairs PlayerColor.BLACK ⟨7, 2⟩, 0, true, PlayerColor.BLACK,
            PlayerColor.BLACK⟩ :=
  ⟨minimax_calls_flag_invariant rotateShuffle 3 1500 (fun _ => 0) twoPairs PlayerColor.BLACK ()
      (by decide),
    findBestCalls_records_pass rotateShuffle 3 1500 (fun _ => 0) twoPairs PlayerColor.BLACK ()
      ⟨0, 2⟩ ⟨7, 2⟩ [] ⟨7, 2⟩ [⟨0, 2⟩] twoPairs_facts.1 rfl (by decide) (by decide)
      twoPairs_facts.2.1 twoPairs_facts.2.2⟩

end Othello

namespace Chess

/-! ## Facts about chess move generation: more fuel never changes a result -/

theorem isSquareAttackedWith_mono (km km2 : Piece → Option (List Move))
    (hle : ∀ p v, km p = some v → km2 p = some v) (b : Board) (sq : Position)
    (c : PieceColor) :
    ∀ (positions : List Position) (v : Bool),
      isSquareAttackedWith km b sq c positions = some v →
      isSquareAttackedWith km2 b sq c positions = some v := by
  intro positions
  induction positions with
  | nil => intro v h; simpa [isSquareAttackedWith] using h
  | cons pos rest ih =>
    intro v h
    rw [isSquareAttackedWith] at h ⊢
    cases hp : b.getPieceAt pos with
    | none =>
      rw [hp] at h
      exact ih v h
    | some p =>
      rw [hp] at h
      simp only at h ⊢
      by_cases hc : p.pieceColor = c
      · rw [if_pos hc] at h ⊢
        cases hk : km p with
        | none => rw [hk] at h; exact absurd h (by simp)
        | some pm =>
          rw [hk] at h
          rw [hle p pm hk]
          simp only at h ⊢
          by_cases hh : hitsSquare p pm sq = true
          · rw [if_pos hh] at h ⊢; exact h
          · rw [if_neg hh] at h ⊢; exact ih v h
      · rw [if_neg hc] at h ⊢
        exact ih v h

theorem noneAttacked_mono (att att2 : Position → Option Bool)
    (hle : ∀ sq v, att sq = some v → att2 sq = some v) (p1 p2 p3 : Position) (v : Bool)
    (h : noneAttacked att p1 p2 p3 = some v) : noneAttacked att2 p1 p2 p3 = some v := by
  unfold noneAttacked at h ⊢
  obtain ⟨a1, h1, h⟩ := Option.bind_eq_some.mp h
  rw [hle p1 a1 h1]
  simp only [Option.bind]
  by_cases c1 : a1 = true
  · rw [if_pos c1] at h ⊢; exact h
  · rw [if_neg c1] at h ⊢
    obtain ⟨a2, h2, h⟩ := Option.bind_eq_some.mp h
    rw [hle p2 a2 h2]
    simp only [Option.bind]
    by_cases c2 : a2 = true
    · rw [if_pos c2] at h ⊢; exact h
    · rw [if_neg c2] at h ⊢
      obtain ⟨a3, h3, h⟩ := Option.bind_eq_some.mp h
      rw [hle p3 a3 h3]
      exact h

theorem kingMoves_mono (att att2 : Position → PieceColor → Option Bool)
    (hle : ∀ sq c v, att sq c = some v → att2 sq c = some v) (self : Piece) (board : Board)
    (v : List Move) (h : King.getValidMoves att self board = some v) :
    King.getValidMoves att2 self board = some v := by
  unfold King.getValidMoves at h ⊢
  by_cases hm : self.hasMoved = true
  · rw [if_pos hm] at h ⊢; exact h
  · rw [if_neg hm] at h ⊢
    simp only at h ⊢
    obtain ⟨m1, h1, h⟩ := Option.bind_eq_some.mp h
    have h1' : (if King.kingSideReady self board = true then
        (noneAttacked (fun sq => att2 sq
            (if self.pieceColor = PieceColor.WHITE then PieceColor.BLACK else PieceColor.WHITE))
          self.currentPosition ⟨self.currentPosition.row, self.currentPosition.col + 1⟩
          ⟨self.currentPosition.row, self.currentPosition.col + 2⟩).bind fun free =>
          some (if free = true then
            King.stepMoves self board ++ [{ Move.step self.currentPosition
              ⟨self.currentPosition.row, self.currentPosition.col + 2⟩ with
              isCastlingMove := true }]
          else King.stepMoves self board)
      else some (King.stepMoves self board)) = some m1 := by
      by_cases hk : King.kingSideReady self board = true
      · rw [if_pos hk] at h1 ⊢
        obtain ⟨f, hf, hr⟩ := Option.bind_eq_some.mp h1
        rw [noneAttacked_mono _ _ (fun sq v hv => hle sq _ v hv) _ _ _ f hf]
        exact hr
      · rw [if_neg hk] at h1 ⊢; exact h1
    rw [h1']
    simp only [Option.bind]
    by_cases hq : King.queenSideReady self board = true
    · rw [if_pos hq] at h ⊢
      obtain ⟨f, hf, hr⟩ := Option.bind_eq_some.mp h
      rw [noneAttacked_mono _ _ (fun sq v hv => hle sq _ v hv) _ _ _ f hf]
      exact hr
    · rw [if_neg hq] at h ⊢; exact h

theorem getValidMoves_succ (n : Nat) :
    ∀ (b : Board) (p : Piece) (v : List Move),
      getValidMoves n b p = some v → getValidMoves (n + 1) b p = some v := by
  induction n with
  | zero =>
    intro b p v h
    rw [getValidMoves.eq_1] at h
    rw [getValidMoves.eq_2]
    by_cases hk : p.kind = PieceClass.King
    · rw [if_pos hk] at h ⊢
      exact kingMoves_mono _ _ (fun sq c v hv => absurd hv (by simp)) p b v h
    · rw [if_neg hk] at h ⊢; exact h
  | succ n ih =>
    intro b p v h
    rw [getValidMoves.eq_2] at h ⊢
    by_cases hk : p.kind = PieceClass.King
    · rw [if_pos hk] at h ⊢
      refine kingMoves_mono _ _ ?_ p b v h
      intro sq c w hw
      exact isSquareAttackedWith_mono _ _ (fun q l hl => ih b q l hl) b sq c _ w hw
    · rw [if_neg hk] at h ⊢; exact h

theorem getValidMoves_mono (n k : Nat) (b : Board) (p : Piece) (v : List Move)
    (h : getValidMoves n b p = some v) : getValidMoves (n + k) b p = some v := by
  induction k with
  | zero => exact h
  | succ k ih => exact getValidMoves_succ (n + k) b p v ih

theorem isSquareAttacked_mono (n k : Nat) (sq : Position) (c : PieceColor) (b : Board)
    (v : Bool) (h : Board.isSquareAttacked n sq c b = some v) :
    Board.isSquareAttacked (n + k) sq c b = some v :=
  isSquareAttackedWith_mono _ _ (fun p l hl => getValidMoves_mono n k b p l hl) b sq c _ v h

theorem pseudoLegalLoop_mono (n k : Nat) (b : Board) (c : PieceColor) :
    ∀ (positions : List Position) (acc v : List Move),
      pseudoLegalLoop n b c positions acc = some v →
      pseudoLegalLoop (n + k) b c positions acc = some v := by
  intro positions
  induction positions with
  | nil => intro acc v h; simpa [pseudoLegalLoop] using h
  | cons pos rest ih =>
    intro acc v h
    rw [pseudoLegalLoop] at h ⊢
    cases hp : b.getPieceAt pos with
    | none => rw [hp] at h; exact ih _ v h
    | some p =>
      rw [hp] at h
      simp only at h ⊢
      by_cases hc : p.pieceColor = c
      · rw [if_pos hc] at h ⊢
        cases hk : getValidMoves n b p with
        | none => rw [hk] at h; exact absurd h (by simp)
        | some pm =>
          rw [hk] at h
          rw [getValidMoves_mono n k b p pm hk]
          exact ih _ v h
      · rw [if_neg hc] at h ⊢; exact ih _ v h

theorem generateAllPseudoLegalMoves_mono (n k : Nat) (b : Board) (c : PieceColor)
    (v : List Move) (h : b.generateAllPseudoLegalMoves n c = some v) :
    b.generateAllPseudoLegalMoves (n + k) c = some v :=
  pseudoLegalLoop_mono n k b c _ _ v h

theorem isKingInCheck_mono (n k : Nat) (c : PieceColor) (b : Board) (v : Bool)
    (h : isKingInCheck n c b = some v) : isKingInCheck (n + k) c b = some v := by
  unfold isKingInCheck at h ⊢
  simp only at h ⊢
  by_cases hv : (!(b.findKing c).isValid) = true
  · rw [if_pos hv] at h ⊢; exact h
  · rw [if_neg hv] at h ⊢
    exact isSquareAttacked_mono n k _ _ b v h

theorem legalLoop_mono (chk chk2 : Move → Option Bool)
    (hle : ∀ m v, chk m = some v → chk2 m = some v) :
    ∀ (moves acc v : List Move),
      legalLoop chk moves acc = some v → legalLoop chk2 moves acc = some v := by
  intro moves
  induction moves with
  | nil => intro acc v h; simpa [legalLoop] using h
  | cons m rest ih =>
    intro acc v h
    rw [legalLoop] at h ⊢
    cases hk : chk m with
    | none => rw [hk] at h; exact absurd h (by simp)
    | some c =>
      rw [hk] at h
      rw [hle m c hk]
      cases c with
      | true => exact ih _ v h
      | false => exact ih _ v h

theorem generateLegalMoves_mono (n k : Nat) (c : PieceColor) (b : Board) (v : List Move)
    (h : generateLegalMoves n c b = some v) : generateLegalMoves (n + k) c b = some v := by
  unfold generateLegalMoves at h ⊢
  cases hp : b.generateAllPseudoLegalMoves n c with
  | none => rw [hp] at h; exact absurd h (by simp)
  | some pl =>
    rw [hp] at h
    rw [generateAllPseudoLegalMoves_mono n k b c pl hp]
    exact legalLoop_mono _ _ (fun m w hw => isKingInCheck_mono n k c _ w hw) pl [] v h

/-! ## Facts about chess move generation: queries that never return -/

theorem isSquareAttackedWith_none (km : Piece → Option (List Move)) (b : Board) (sq : Position)
    (c : PieceColor) (king : Piece)
    (hplain : ∀ p, p.kind ≠ PieceClass.King → km p = some (p.plainMoves b))
    (hking : km king = none) :
    ∀ positions : List Position, reachesKingFirst b sq c king positions = true →
      isSquareAttackedWith km b sq c positions = none := by
  intro positions
  induction positions with
  | nil => intro h; simp [reachesKingFirst] at h
  | cons pos rest ih =>
    intro h
    rw [reachesKingFirst] at h
    rw [isSquareAttackedWith]
    cases hp : b.getPieceAt pos with
    | none => rw [hp] at h; exact ih h
    | some p =>
      rw [hp] at h
      simp only at h ⊢
      by_cases hc : p.pieceColor = c
      · rw [if_pos hc] at h ⊢
        by_cases hk : p = king
        · rw [hk, hking]
        · rw [if_neg hk] at h
          by_cases hkind : p.kind = PieceClass.King
          · rw [if_pos hkind] at h; exact absurd h (by simp)
          · rw [if_neg hkind] at h
            rw [hplain p hkind]
            simp only
            by_cases hh : hitsSquare p (p.plainMoves b) sq = true
            · rw [if_pos hh] at h; exact absurd h (by simp)
            · rw [if_neg hh] at h ⊢; exact ih h
      · rw [if_neg hc] at h ⊢; exact ih h

theorem kingMoves_none (att : Position → PieceColor → Option Bool) (self : Piece)
    (board : Board) (hmoved : self.hasMoved = false)
    (hready : King.kingSideReady self board = true)
    (hatt : att self.currentPosition
      (if self.pieceColor = PieceColor.WHITE then PieceColor.BLACK else PieceColor.WHITE) = none) :
    King.getValidMoves att self board = none := by
  unfold King.getValidMoves
  simp only [hmoved, hready, noneAttacked, hatt, Option.bind, if_true]
  rfl

theorem getValidMoves_plain (n : Nat) (b : Board) (p : Piece) (h : p.kind ≠ PieceClass.King) :
    getValidMoves n b p = some (p.plainMoves b) := by
  cases n with
  | zero => rw [getValidMoves.eq_1, if_neg h]
  | succ n => rw [getValidMoves.eq_2, if_neg h]

/-- When both kings are unmoved with an empty path to their own unmoved rook on the king side,
and the attack scan for the square of each king meets the other king before any piece that hits
the square, `getValidMoves` of either king returns with no fuel. -/
theorem kings_never_return (b : Board) (kw kb : Piece)
    (hkw : kw.kind = PieceClass.King) (hkb : kb.kind = PieceClass.King)
    (hcw : kw.pieceColor = PieceColor.WHITE) (hcb : kb.pieceColor = PieceColor.BLACK)
    (hmw : kw.hasMoved = false) (hmb : kb.hasMoved = false)
    (hrw : King.kingSideReady kw b = true) (hrb : King.kingSideReady kb b = true)
    (hsw : reachesKingFirst b kw.currentPosition PieceColor.BLACK kb Board.allPositions = true)
    (hsb : reachesKingFirst b kb.currentPosition PieceColor.WHITE kw Board.allPositions = true) :
    ∀ n, getValidMoves n b kw = none ∧ getValidMoves n b kb = none := by
  intro n
  induction n with
  | zero =>
    constructor
    · rw [getValidMoves.eq_1, if_pos hkw]
      exact kingMoves_none _ kw b hmw hrw rfl
    · rw [getValidMoves.eq_1, if_pos hkb]
      exact kingMoves_none _ kb b hmb hrb rfl
  | succ n ih =>
    constructor
    · rw [getValidMoves.eq_2, if_pos hkw]
      refine kingMoves_none _ kw b hmw hrw ?_
      rw [hcw, if_pos rfl]
      exact isSquareAttackedWith_none _ b _ _ kb (fun p hp => getValidMoves_plain n b p hp)
        ih.2 _ hsw
    · rw [getValidMoves.eq_2, if_pos hkb]
      refine kingMoves_none _ kb b hmb hrb ?_
      rw [hcb, if_neg (by decide)]
      exact isSquareAttackedWith_none _ b _ _ kw (fun p hp => getValidMoves_plain n b p hp)
        ih.1 _ hsb

theorem legalLoop_none (chk : Move → Option Bool) (m : Move) (hm : chk m = none) :
    ∀ (moves acc : List Move), m ∈ moves → legalLoop chk moves acc = none := by
  intro moves
  induction moves with
  | nil => intro acc h; simp at h
  | cons x rest ih =>
    intro acc h
    rw [legalLoop]
    cases hx : chk x with
    | none => rfl
    | some c =>
      have hne : m ≠ x := by
        intro e; rw [e, hx] at hm; exact absurd hm (by simp)
      have hmem : m ∈ rest := by
        rcases List.mem_cons.mp h with e | e
        · exact absurd e hne
        · exact e
      cases c with
      | true => exact ih _ hmem
      | false => exact ih _ hmem

theorem pickLoop_none (score : Move → Option Int) (rand : Nat → Nat) (ties : Nat) (m : Move)
    (hm : score m = none) :
    ∀ (moves : List Move) (bestMove : Move) (bestScore : Int) (i : Nat), m ∈ moves →
      pickLoop score rand ties moves bestMove bestScore i = none := by
  intro moves
  induction moves with
  | nil => intro bm bs i h; simp at h
  | cons x rest ih =>
    intro bm bs i h
    rw [pickLoop]
    cases hx : score x with
    | none => rfl
    | some s =>
      have hne : m ≠ x := by
        intro e; rw [e, hx] at hm; exact absurd hm (by simp)
      have hmem : m ∈ rest := by
        rcases List.mem_cons.mp h with e | e
        · exact absurd e hne
        · exact e
      simp only
      split_ifs <;> exact ih _ _ _ hmem

theorem isKingInCheck_none (n : Nat) (c : PieceColor) (b : Board) (king : Piece)
    (hvalid : (b.findKing c).isValid = true)
    (hking : getValidMoves n b king = none)
    (hscan : reachesKingFirst b (b.findKing c)
      (if c = PieceColor.WHITE then PieceColor.BLACK else PieceColor.WHITE) king
      Board.allPositions = true) :
    isKingInCheck n c b = none := by
  unfold isKingInCheck
  simp only [hvalid, Bool.not_true, Bool.false_eq_true, if_false]
  exact isSquareAttackedWith_none _ b _ _ king (fun p hp => getValidMoves_plain n b p hp)
    hking _ hscan

theorem generateLegalMoves_const (c : PieceColor) (b : Board) (l : List Move)
    (h : generateLegalMoves 0 c b = some l) (n : Nat) : generateLegalMoves n c b = some l := by
  have := generateLegalMoves_mono 0 n c b l h
  rwa [Nat.zero_add] at this

theorem generateLegalMoves_none (n : Nat) (c : PieceColor) (b : Board) (pl : List Move)
    (m : Move) (hpl : b.generateAllPseudoLegalMoves 0 c = some pl) (hm : m ∈ pl)
    (hcheck : isKingInCheck n c (boardForCheck b m) = none) :
    generateLegalMoves n c b = none := by
  unfold generateLegalMoves
  have h := generateAllPseudoLegalMoves_mono 0 n b c pl hpl
  rw [Nat.zero_add] at h
  rw [h]
  exact legalLoop_none _ m hcheck pl [] hm

/-! ## The position after 1. e4 e5 2. Nf3 Nf6 -/

theorem option_map_true {α : Type} (f : α → Bool) (o : Option α)
    (h : o.map f = some true) : ∃ a, o = some a ∧ f a = true := by
  cases o with
  | none => simp at h
  | some a => exact ⟨a, rfl, by simpa using h⟩

set_option maxRecDepth 1000000 in
theorem petrov_legal_accepted :
    (generateLegalMoves 0 PieceColor.WHITE petrov).map
      (fun l => decide (bishopC4 ∈ l) && l.all (fun m => (petrov.makeMove m).1)) = some true := by
  decide

theorem petrov_legal :
    (generateLegalMoves 0 PieceColor.WHITE petrov).map
      (fun l => decide (bishopC4 ∈ l)) = some true := by
  obtain ⟨l, hl, h⟩ := option_map_true _ _ petrov_legal_accepted
  rw [hl]
  rw [Bool.and_eq_true] at h
  rw [Option.map_some', h.1]

set_option maxRecDepth 1000000 in
theorem petrovBc4_pseudoLegal :
    (petrovBc4.generateAllPseudoLegalMoves 0 PieceColor.BLACK).map
      (fun l => decide (bishopC5 ∈ l)) = some true := by
  decide

set_option maxRecDepth 1000000 in
theorem petrovBishops_facts :
    petrovBishops.findKing PieceColor.BLACK = ⟨0, 4⟩
    ∧ King.kingSideReady whiteKingHome petrovBishops = true
    ∧ King.kingSideReady blackKingHome petrovBishops = true
    ∧ reachesKingFirst petrovBishops ⟨7, 4⟩ PieceColor.BLACK blackKingHome
        Board.allPositions = true
    ∧ reachesKingFirst petrovBishops ⟨0, 4⟩ PieceColor.WHITE whiteKingHome
        Board.allPositions = true := by
  decide

theorem petrovBishops_kings (n : Nat) :
    getValidMoves n petrovBishops whiteKingHome = none
    ∧ getValidMoves n petrovBishops blackKingHome = none := by
  obtain ⟨_, hrw, hrb, hsw, hsb⟩ := petrovBishops_facts
  exact kings_never_return petrovBishops whiteKingHome blackKingHome rfl rfl rfl rfl rfl rfl
    hrw hrb hsw hsb n

theorem petrovBc4_no_legal_moves (n : Nat) :
    generateLegalMoves n PieceColor.BLACK petrovBc4 = none := by
  obtain ⟨pl, hpl, hm⟩ := option_map_true _ _ petrovBc4_pseudoLegal
  obtain ⟨hk, _, _, _, hsb⟩ := petrovBishops_facts
  refine generateLegalMoves_none n _ _ pl bishopC5 hpl (of_decide_eq_true hm) ?_
  refine isKingInCheck_none n PieceColor.BLACK (boardForCheck petrovBc4 bishopC5)
    whiteKingHome ?_ (petrovBishops_kings n).1 ?_
  · show (petrovBishops.findKing PieceColor.BLACK).isValid = true
    rw [hk]; rfl
  · show reachesKingFirst petrovBishops (petrovBishops.findKing PieceColor.BLACK) _ _ _ = true
    rw [hk]; exact hsb

theorem petrov_hardScore_none (n : Nat) :
    hardScore n PieceColor.WHITE petrov bishopC4 = none := by
  unfold hardScore
  show minimax n 1 petrovBc4 false PieceColor.WHITE = none
  rw [minimax]
  simp only [Bool.false_eq_true, if_false, otherColor, if_true]
  rw [petrovBc4_no_legal_moves n]

theorem getMove_error_iff (fuel : Nat) (rand : Nat → Nat) (i : Nat) (d : AIDifficulty)
    (c : PieceColor) (b : Board) :
    getMove fuel rand i d c b = some (Except.error "AIPlayer Error: No legal moves available.")
      ↔ generateLegalMoves fuel c b = some [] := by
  unfold getMove
  cases h : generateLegalMoves fuel c b with
  | none => simp
  | some l =>
    cases l with
    | nil => simp
    | cons first rest =>
      cases d <;> simp

theorem petrov_hard_none (fuel : Nat) (rand : Nat → Nat) (i : Nat) :
    getMove fuel rand i AIDifficulty.HARD PieceColor.WHITE petrov = none := by
  obtain ⟨l, hl, hm⟩ := option_map_true _ _ petrov_legal
  have hm := of_decide_eq_true hm
  unfold getMove
  rw [generateLegalMoves_const _ _ l hl fuel]
  cases l with
  | nil => simp at hm
  | cons first rest =>
    simp only
    rw [pickLoop_none _ rand 2 bishopC4 (petrov_hardScore_none fuel) _ _ _ _ hm]
    rfl

/-! ## Facts about the material evaluator -/

theorem materialValue_eq (p : Piece) :
    (if p.getType = PieceType.KING then 0 else p.getValue) = materialValue p.getType := by
  cases p with
  | mk kind color pos moved => cases kind <;> rfl

theorem sum_map_sub_list (f g : Position → Int) (l : List Position) :
    (l.map (fun x => f x - g x)).sum = (l.map f).sum - (l.map g).sum := by
  induction l with
  | nil => rfl
  | cons x xs ih => simp only [List.map_cons, List.sum_cons, ih]; ring

theorem foldl_eq_sum (step : Int → Position → Int) (term : Position → Int)
    (h : ∀ acc pos, step acc pos = acc + term pos) :
    ∀ (l : List Position) (acc : Int), l.foldl step acc = acc + (l.map term).sum := by
  intro l
  induction l with
  | nil => intro acc; simp
  | cons x xs ih =>
    intro acc
    rw [List.foldl_cons, ih, h, List.map_cons, List.sum_cons]; ring

theorem evaluateMaterial_eq_sum (b : Board) (c : PieceColor) :
    b.evaluateMaterial c = (Board.allPositions.map (fun pos =>
      match b.getPieceAt pos with
      | some p => if p.pieceColor = c then materialValue p.getType else -(materialValue p.getType)
      | none => 0)).sum := by
  unfold Board.evaluateMaterial
  rw [foldl_eq_sum _ (fun pos =>
      match b.getPieceAt pos with
      | some p => if p.pieceColor = c then materialValue p.getType else -(materialValue p.getType)
      | none => 0)]
  · simp
  · intro acc pos
    cases hp : b.getPieceAt pos with
    | none => simp
    | some p =>
      simp only [materialValue_eq]
      split_ifs <;> ring

theorem evaluateMaterial_two_sides (b : Board) (hb : TwoColoured b) (c d : PieceColor)
    (hcd : c ≠ d) (hc : c = PieceColor.WHITE ∨ c = PieceColor.BLACK)
    (hd : d = PieceColor.WHITE ∨ d = PieceColor.BLACK) :
    b.evaluateMaterial c = sideMaterial b c - sideMaterial b d := by
  rw [evaluateMaterial_eq_sum]
  unfold sideMaterial
  rw [← sum_map_sub_list]
  congr 1
  apply List.map_congr_left
  intro pos _
  cases hp : b.getPieceAt pos with
  | none => simp
  | some p =>
    simp only
    have hpc := hb pos p hp
    by_cases h1 : p.pieceColor = c
    · have h2 : p.pieceColor ≠ d := by rw [h1]; exact hcd
      rw [if_pos h1, if_pos h1, if_neg h2]; ring
    · have h2 : p.pieceColor = d := by
        rcases hpc with h | h <;> rcases hc with h3 | h3 <;> rcases hd with h4 | h4 <;>
          simp_all
      rw [if_neg h1, if_neg h1, if_pos h2]; ring

theorem materialValue_bounds (t : PieceType) : 0 ≤ materialValue t ∧ materialValue t ≤ 900 := by
  cases t <;> simp [materialValue]

theorem sum_map_bounds (term : Position → Int) (k : Int)
    (h : ∀ pos, -k ≤ term pos ∧ term pos ≤ k) :
    ∀ l : List Position, -(k * l.length) ≤ (l.map term).sum ∧ (l.map term).sum ≤ k * l.length := by
  intro l
  induction l with
  | nil => simp
  | cons x xs ih =>
    have hx := h x
    simp only [List.map_cons, List.sum_cons, List.length_cons]
    push_cast
    constructor <;> nlinarith [ih.1, ih.2, hx.1, hx.2]

theorem materialTerm_bounds (b : Board) (c : PieceColor) (pos : Position) :
    (-900 : Int) ≤ (match b.getPieceAt pos with
      | some p => if p.pieceColor = c then materialValue p.getType else -(materialValue p.getType)
      | none => (0 : Int))
    ∧ (match b.getPieceAt pos with
      | some p => if p.pieceColor = c then materialValue p.getType else -(materialValue p.getType)
      | none => (0 : Int)) ≤ 900 := by
  cases hp : b.getPieceAt pos with
  | none => simp
  | some p =>
    have hv := materialValue_bounds p.getType
    simp only
    split_ifs
    · exact ⟨le_trans (by norm_num) hv.1, hv.2⟩
    · exact ⟨neg_le_neg hv.2, le_trans (neg_nonpos.mpr hv.1) (by norm_num)⟩

theorem evaluateMaterial_bounds (b : Board) (c : PieceColor) :
    -57600 ≤ b.evaluateMaterial c ∧ b.evaluateMaterial c ≤ 57600 := by
  rw [evaluateMaterial_eq_sum]
  have h := sum_map_bounds _ 900 (materialTerm_bounds b c) Board.allPositions
  have hlen : Board.allPositions.length = 64 := by decide
  rw [hlen] at h
  norm_num at h
  exact h

theorem backRank_color (c : PieceColor) (r : Int) (n : Nat) : (backRank c r n).pieceColor = c := by
  unfold backRank
  split <;> rfl

theorem initial_twoColoured : TwoColoured Board.initial := by
  intro pos p h
  unfold Board.getPieceAt at h
  split at h
  · simp only [Board.initial] at h
    split_ifs at h <;> (injection h with h; subst h) <;>
      simp [backRank_color, fresh]
  · exact absurd h (by simp)

/-! ## What a failed `makeMove` leaves behind -/

theorem setPieceAt_fields (b : Board) (pos : Position) (x : Option Piece) :
    (b.setPieceAt pos x).lastMove = b.lastMove
      ∧ (b.setPieceAt pos x).enPassantTargetSquare = b.enPassantTargetSquare
      ∧ (b.setPieceAt pos x).whiteKingSideCastlePossible = b.whiteKingSideCastlePossible
      ∧ (b.setPieceAt pos x).whiteQueenSideCastlePossible = b.whiteQueenSideCastlePossible
      ∧ (b.setPieceAt pos x).blackKingSideCastlePossible = b.blackKingSideCastlePossible
      ∧ (b.setPieceAt pos x).blackQueenSideCastlePossible = b.blackQueenSideCastlePossible
      ∧ (b.setPieceAt pos x).halfMoveClock = b.halfMoveClock := by
  unfold Board.setPieceAt
  split <;> exact ⟨rfl, rfl, rfl, rfl, rfl, rfl, rfl⟩

theorem makeMoveFinish_accepts (b : Board) (m : Move) (piece : Piece) :
    (b.makeMoveFinish m piece).1 = true := rfl

theorem makeMoveCastle_failed (b : Board) (m : Move) (piece : Piece)
    (h : (b.makeMoveCastle m piece).1 = false) : (b.makeMoveCastle m piece).2.1 = b := by
  unfold Board.makeMoveCastle at h ⊢
  by_cases hk : piece.getType = PieceType.KING ∧ (m.dst.col - m.src.col).natAbs = 2
  · rw [if_pos hk] at h ⊢
    simp only at h ⊢
    generalize b.getPieceAt _ = rk at h ⊢
    cases rk with
    | none => rfl
    | some rook =>
      simp only at h ⊢
      by_cases hr : rook.getType = PieceType.ROOK
      · rw [if_pos hr] at h
        rw [makeMoveFinish_accepts] at h
        exact absurd h (by decide)
      · rw [if_neg hr]
  · rw [if_neg hk] at h
    rw [makeMoveFinish_accepts] at h
    exact absurd h (by decide)

theorem makeMove_of_piece (b : Board) (m : Move) (p : Piece) (h : b.getPieceAt m.src = some p) :
    b.makeMove m
      = if m.isEnPassantCapture = true then
          if m.dst = b.enPassantTargetSquare ∧ b.enPassantTargetSquare.isValid = true then
            ((b.makeMoveStart m p).setPieceAt m.enPassantVictimPos none).makeMoveCastle m p
          else (false, b.makeMoveStart m p, m)
        else (b.makeMoveStart m p).makeMoveCastle m p := by
  unfold Board.makeMove
  rw [h]
  rfl

theorem makeMoveStart_fields (b : Board) (m : Move) (p : Piece) :
    (b.makeMoveStart m p).halfMoveClock
        = (if p.getType = PieceType.PAWN ∨ (b.getPieceAt m.dst).isSome = true
              ∨ m.isEnPassantCapture = true then 0
           else b.halfMoveClock + 1)
      ∧ (b.makeMoveStart m p).enPassantTargetSquare
        = (if p.getType = PieceType.PAWN ∧ (m.src.row - m.dst.row).natAbs = 2 then
            ⟨Int.tdiv (m.src.row + m.dst.row) 2, m.src.col⟩
           else ⟨-1, -1⟩)
      ∧ (b.makeMoveStart m p).lastMove = b.lastMove
      ∧ (b.makeMoveStart m p).whiteKingSideCastlePossible = b.whiteKingSideCastlePossible
      ∧ (b.makeMoveStart m p).whiteQueenSideCastlePossible = b.whiteQueenSideCastlePossible
      ∧ (b.makeMoveStart m p).blackKingSideCastlePossible = b.blackKingSideCastlePossible
      ∧ (b.makeMoveStart m p).blackQueenSideCastlePossible = b.blackQueenSideCastlePossible
      ∧ (b.makeMoveStart m p).grid = b.grid := by
  unfold Board.makeMoveStart
  simp only [Bool.and_eq_true, Bool.or_eq_true, decide_eq_true_eq]
  by_cases hd : p.getType = PieceType.PAWN ∧ (m.src.row - m.dst.row).natAbs = 2
  · rw [if_pos hd, if_pos hd]
    exact ⟨rfl, rfl, rfl, rfl, rfl, rfl, rfl, rfl⟩
  · rw [if_neg hd, if_neg hd]
    exact ⟨rfl, rfl, rfl, rfl, rfl, rfl, rfl, rfl⟩

/-! ## The claims about the chess program -/

set_option maxRecDepth 1000000 in
/-- C18, counterexample: two calls of `makeMove` that return `false` and leave the board changed.
After 1. e4 the step a7-a6 flagged as an en-passant capture fails and resets the en-passant
square from e3 to none; after 1. h4 a6 2. Rh3 b5 the king move e1-g1 fails for want of a rook on
h1 and resets the en-passant square from b6 to none. -/
theorem makeMove_failure_not_atomic :
    ((afterE4.makeMove flaggedA6).1 = false
      ∧ afterE4.enPassantTargetSquare = ⟨5, 4⟩
      ∧ (afterE4.makeMove flaggedA6).2.1.enPassantTargetSquare = ⟨-1, -1⟩)
    ∧ ((afterRookLift.makeMove kingG1).1 = false
      ∧ afterRookLift.enPassantTargetSquare = ⟨2, 1⟩
      ∧ (afterRookLift.makeMove kingG1).2.1.enPassantTargetSquare = ⟨-1, -1⟩) :=
  ⟨by decide, by decide⟩

/-- C18 (amended). When `makeMove` returns `false`, either the from-square is empty and the
board and the move are exactly as before the call, or there is a piece on the from-square and
the call has already written to the board: `halfMoveClock` is 0 for a pawn move or a capture and
one more than before otherwise, and `enPassantTargetSquare` is the square passed over by a pawn
double step and `{-1,-1}` otherwise; `lastMove` and the four castling flags are as before, and
so is the grid unless the move carries the en-passant flag. -/
theorem makeMove_failure_fields (b : Board) (m : Move) (hfail : (b.makeMove m).1 = false) :
    (b.getPieceAt m.src = none ∧ b.makeMove m = (false, b, m))
      ∨ (∃ p, b.getPieceAt m.src = some p
          ∧ (b.makeMove m).2.1.halfMoveClock
              = (if p.getType = PieceType.PAWN ∨ (b.getPieceAt m.dst).isSome = true
                    ∨ m.isEnPassantCapture = true then 0
                 else b.halfMoveClock + 1)
          ∧ (b.makeMove m).2.1.enPassantTargetSquare
              = (if p.getType = PieceType.PAWN ∧ (m.src.row - m.dst.row).natAbs = 2 then
                  ⟨Int.tdiv (m.src.row + m.dst.row) 2, m.src.col⟩
                 else ⟨-1, -1⟩)
          ∧ (b.makeMove m).2.1.lastMove = b.lastMove
          ∧ (b.makeMove m).2.1.whiteKingSideCastlePossible = b.whiteKingSideCastlePossible
          ∧ (b.makeMove m).2.1.whiteQueenSideCastlePossible = b.whiteQueenSideCastlePossible
          ∧ (b.makeMove m).2.1.blackKingSideCastlePossible = b.blackKingSideCastlePossible
          ∧ (b.makeMove m).2.1.blackQueenSideCastlePossible = b.blackQueenSideCastlePossible
          ∧ (m.isEnPassantCapture = false → (b.makeMove m).2.1.grid = b.grid)) := by
  cases hsrc : b.getPieceAt m.src with
  | none =>
    left
    refine ⟨rfl, ?_⟩
    unfold Board.makeMove
    rw [hsrc]
  | some p =>
    right
    refine ⟨p, rfl, ?_⟩
    obtain ⟨f1, f2, f3, f4, f5, f6, f7, f8⟩ := makeMoveStart_fields b m p
    rw [makeMove_of_piece b m p hsrc] at hfail ⊢
    by_cases hep : m.isEnPassantCapture = true
    · rw [if_pos hep] at hfail ⊢
      have hno : m.isEnPassantCapture = false → False := by
        intro h; rw [h] at hep; exact absurd hep (by decide)
      by_cases hsq : m.dst = b.enPassantTargetSquare ∧ b.enPassantTargetSquare.isValid = true
      · rw [if_pos hsq] at hfail ⊢
        rw [makeMoveCastle_failed _ _ _ hfail]
        obtain ⟨s1, s2, s3, s4, s5, s6, s7⟩ :=
          setPieceAt_fields (b.makeMoveStart m p) m.enPassantVictimPos none
        rw [s1, s2, s3, s4, s5, s6, s7]
        exact ⟨f1, f2, f3, f4, f5, f6, f7, fun h => (hno h).elim⟩
      · rw [if_neg hsq]
        exact ⟨f1, f2, f3, f4, f5, f6, f7, fun h => (hno h).elim⟩
    · rw [if_neg hep] at hfail ⊢
      rw [makeMoveCastle_failed _ _ _ hfail]
      exact ⟨f1, f2, f3, f4, f5, f6, f7, fun _ => f8⟩

set_option maxRecDepth 1000000 in
/-- C18 (amended), instance: after 1. e4, the step a7-a6 flagged as an en-passant capture. -/
theorem makeMove_failure_fields_witness :
    (afterE4.makeMove flaggedA6).1 = false
      ∧ ((afterE4.getPieceAt flaggedA6.src = none
            ∧ afterE4.makeMove flaggedA6 = (false, afterE4, flaggedA6))
        ∨ (∃ p, afterE4.getPieceAt flaggedA6.src = some p
          ∧ (afterE4.makeMove flaggedA6).2.1.halfMoveClock
              = (if p.getType = PieceType.PAWN ∨ (afterE4.getPieceAt flaggedA6.dst).isSome = true
                    ∨ flaggedA6.isEnPassantCapture = true then 0
                 else afterE4.halfMoveClock + 1)
          ∧ (afterE4.makeMove flaggedA6).2.1.enPassantTargetSquare
              = (if p.getType = PieceType.PAWN
                    ∧ (flaggedA6.src.row - flaggedA6.dst.row).natAbs = 2 then
                  ⟨Int.tdiv (flaggedA6.src.row + flaggedA6.dst.row) 2, flaggedA6.src.col⟩
                 else ⟨-1, -1⟩)
          ∧ (afterE4.makeMove flaggedA6).2.1.lastMove = afterE4.lastMove
          ∧ (afterE4.makeMove flaggedA6).2.1.whiteKingSideCastlePossible
              = afterE4.whiteKingSideCastlePossible
          ∧ (afterE4.makeMove flaggedA6).2.1.whiteQueenSideCastlePossible
              = afterE4.whiteQueenSideCastlePossible
          ∧ (afterE4.makeMove flaggedA6).2.1.blackKingSideCastlePossible
              = afterE4.blackKingSideCastlePossible
          ∧ (afterE4.makeMove flaggedA6).2.1.blackQueenSideCastlePossible
              = afterE4.blackQueenSideCastlePossible
          ∧ (flaggedA6.isEnPassantCapture = false →
              (afterE4.makeMove flaggedA6).2.1.grid = afterE4.grid))) :=
  ⟨by decide, makeMove_failure_fields afterE4 flaggedA6 (by decide)⟩

/-- C19 (code bug): `getMove` throws "No legal moves available" exactly when
`generateLegalMoves` is empty, but it does not return a move in every other case.  After
1. e4 e5 2. Nf3 Nf6 `generateLegalMoves(WHITE)` returns a non-empty list, and the HARD player
never returns: scoring its candidate 3. Bc4 it generates Black's replies, and the check test
after 3. ... Bc5 recurses for ever between `King::getValidMoves` and `isSquareAttacked`. -/
theorem getMove_hard_never_returns :
    (∀ (fuel : Nat) (rand : Nat → Nat) (i : Nat) (d : AIDifficulty) (c : PieceColor) (b : Board),
      getMove fuel rand i d c b
          = some (Except.error "AIPlayer Error: No legal moves available.")
        ↔ generateLegalMoves fuel c b = some [])
    ∧ (∃ l : List Move, l ≠ [] ∧ ∀ fuel, generateLegalMoves fuel PieceColor.WHITE petrov = some l)
    ∧ (∀ (fuel : Nat) (rand : Nat → Nat) (i : Nat),
      getMove fuel rand i AIDifficulty.HARD PieceColor.WHITE petrov = none) := by
  refine ⟨getMove_error_iff, ?_, petrov_hard_none⟩
  obtain ⟨l, hl, hm⟩ := option_map_true _ _ petrov_legal
  refine ⟨l, ?_, generateLegalMoves_const _ _ l hl⟩
  intro h
  rw [h] at hm
  simp at hm

/-- C20: on every board whose pieces are white or black, `evaluateMaterial` for a side is the
sum of the values of that side's pieces minus the sum of the values of the other side's pieces,
with pawn 100, knight 320, bishop 330, rook 500, queen 900 and king 0; the white and the black
evaluation are opposite, and the score stays within 64 * 900 on every board. -/
theorem evaluateMaterial_is_material_difference (b : Board) (hb : TwoColoured b) :
    b.evaluateMaterial PieceColor.WHITE
        = sideMaterial b PieceColor.WHITE - sideMaterial b PieceColor.BLACK
    ∧ b.evaluateMaterial PieceColor.BLACK
        = sideMaterial b PieceColor.BLACK - sideMaterial b PieceColor.WHITE
    ∧ b.evaluateMaterial PieceColor.WHITE = -(b.evaluateMaterial PieceColor.BLACK)
    ∧ ∀ c, -57600 ≤ b.evaluateMaterial c ∧ b.evaluateMaterial c ≤ 57600 := by
  have hw := evaluateMaterial_two_sides b hb PieceColor.WHITE PieceColor.BLACK (by decide)
    (Or.inl rfl) (Or.inr rfl)
  have hk := evaluateMaterial_two_sides b hb PieceColor.BLACK PieceColor.WHITE (by decide)
    (Or.inr rfl) (Or.inl rfl)
  refine ⟨hw, hk, ?_, evaluateMaterial_bounds b⟩
  rw [hw, hk]; ring

/-- Witness for C20: the start position. -/
theorem evaluateMaterial_is_material_difference_witness :
    TwoColoured Board.initial
    ∧ (Board.initial.evaluateMaterial PieceColor.WHITE
        = sideMaterial Board.initial PieceColor.WHITE
          - sideMaterial Board.initial PieceColor.BLACK
    ∧ Board.initial.evaluateMaterial PieceColor.BLACK
        = sideMaterial Board.initial PieceColor.BLACK
          - sideMaterial Board.initial PieceColor.WHITE
    ∧ Board.initial.evaluateMaterial PieceColor.WHITE
        = -(Board.initial.evaluateMaterial PieceColor.BLACK)
    ∧ ∀ c, -57600 ≤ Board.initial.evaluateMaterial c
        ∧ Board.initial.evaluateMaterial c ≤ 57600) :=
  ⟨initial_twoColoured, evaluateMaterial_is_material_difference Board.initial initial_twoColoured⟩

/-! ## Termination of move generation -/

theorem pseudoLegalLoop_none (fuel : Nat) (b : Board) (c : PieceColor) (pos0 : Position)
    (p0 : Piece) (hp0 : b.getPieceAt pos0 = some p0) (hc0 : p0.pieceColor = c)
    (hnone : getValidMoves fuel b p0 = none) :
    ∀ (positions : List Position) (acc : List Move), pos0 ∈ positions →
      pseudoLegalLoop fuel b c positions acc = none := by
  intro positions
  induction positions with
  | nil => intro acc h; simp at h
  | cons pos rest ih =>
    intro acc h
    rw [pseudoLegalLoop]
    by_cases hpos : pos = pos0
    · rw [hpos, hp0]
      simp only [hc0, if_true, hnone]
    · have hmem : pos0 ∈ rest := by
        rcases List.mem_cons.mp h with e | e
        · exact absurd e.symm hpos
        · exact e
      cases hp : b.getPieceAt pos with
      | none => exact ih _ hmem
      | some p =>
        simp only
        by_cases hc : p.pieceColor = c
        · rw [if_pos hc]
          cases hk : getValidMoves fuel b p with
          | none => rfl
          | some pm => exact ih _ hmem
        · rw [if_neg hc]; exact ih _ hmem

theorem generateLegalMoves_none_of_pseudo (fuel : Nat) (c : PieceColor) (b : Board)
    (h : b.generateAllPseudoLegalMoves fuel c = none) : generateLegalMoves fuel c b = none := by
  unfold generateLegalMoves
  rw [h]

set_option maxRecDepth 1000000 in
theorem bothCastleReady_facts :
    bothCastleReady.getPieceAt ⟨7, 4⟩ = some whiteKingHome
    ∧ bothCastleReady.getPieceAt ⟨0, 4⟩ = some blackKingHome
    ∧ King.kingSideReady whiteKingHome bothCastleReady = true
    ∧ King.kingSideReady blackKingHome bothCastleReady = true
    ∧ reachesKingFirst bothCastleReady ⟨7, 4⟩ PieceColor.BLACK blackKingHome
        Board.allPositions = true
    ∧ reachesKingFirst bothCastleReady ⟨0, 4⟩ PieceColor.WHITE whiteKingHome
        Board.allPositions = true := by
  decide

set_option maxRecDepth 1000000 in
theorem initial_generation_returns :
    (generateLegalMoves 0 PieceColor.WHITE Board.initial).map (fun l => l.length) = some 20 := by
  decide

theorem mem_allPositions_of_valid : ∀ pos ∈ [(⟨7, 4⟩ : Position), ⟨0, 4⟩],
    pos ∈ Board.allPositions := by
  decide

/-- C26 (code bug): move generation does not terminate on every board.  On the start position
`generateLegalMoves` returns its 20 moves, but after 1. e4 e5 2. Nf3 Nf6 3. Bc4 Bc5 - both kings
unmoved with an empty path to their own unmoved rook - `getValidMoves` of either king never
returns, and with it neither `generateAllPseudoLegalMoves` nor `generateLegalMoves` for either
colour. -/
theorem generation_never_returns :
    (∀ fuel, (generateLegalMoves fuel PieceColor.WHITE Board.initial).map (fun l => l.length)
        = some 20)
    ∧ (∀ fuel, getValidMoves fuel bothCastleReady whiteKingHome = none
        ∧ getValidMoves fuel bothCastleReady blackKingHome = none)
    ∧ (∀ fuel, bothCastleReady.generateAllPseudoLegalMoves fuel PieceColor.WHITE = none
        ∧ bothCastleReady.generateAllPseudoLegalMoves fuel PieceColor.BLACK = none)
    ∧ (∀ fuel, generateLegalMoves fuel PieceColor.WHITE bothCastleReady = none
        ∧ generateLegalMoves fuel PieceColor.BLACK bothCastleReady = none) := by
  obtain ⟨hw, hb, hrw, hrb, hsw, hsb⟩ := bothCastleReady_facts
  have hk := kings_never_return bothCastleReady whiteKingHome blackKingHome rfl rfl rfl rfl rfl
    rfl hrw hrb hsw hsb
  have hpw : ∀ fuel, bothCastleReady.generateAllPseudoLegalMoves fuel PieceColor.WHITE = none :=
    fun fuel => pseudoLegalLoop_none fuel _ _ ⟨7, 4⟩ whiteKingHome hw rfl (hk fuel).1 _ _
      (mem_allPositions_of_valid _ (by simp))
  have hpb : ∀ fuel, bothCastleReady.generateAllPseudoLegalMoves fuel PieceColor.BLACK = none :=
    fun fuel => pseudoLegalLoop_none fuel _ _ ⟨0, 4⟩ blackKingHome hb rfl (hk fuel).2 _ _
      (mem_allPositions_of_valid _ (by simp))
  refine ⟨?_, hk, fun fuel => ⟨hpw fuel, hpb fuel⟩, fun fuel =>
    ⟨generateLegalMoves_none_of_pseudo _ _ _ (hpw fuel),
      generateLegalMoves_none_of_pseudo _ _ _ (hpb fuel)⟩⟩
  intro fuel
  obtain ⟨l, hl, hlen⟩ := Option.map_eq_some'.mp initial_generation_returns
  rw [generateLegalMoves_const _ _ l hl fuel]
  simpa using hlen

/-! ## Pawn cover of an empty square -/

set_option maxRecDepth 1000000 in
theorem pawnGuardsF1_facts :
    pawnGuardsF1.getPieceAt ⟨6, 6⟩ = some blackPawnG2
    ∧ pawnGuardsF1.getPieceAt ⟨7, 5⟩ = none
    ∧ Board.isSquareAttacked 0 ⟨7, 5⟩ PieceColor.BLACK pawnGuardsF1 = some false
    ∧ Board.isSquareAttacked 0 ⟨7, 7⟩ PieceColor.BLACK pawnGuardsF1 = some true
    ∧ (getValidMoves 1 pawnGuardsF1 whiteKingHome).map (fun l => decide (castleG1 ∈ l))
        = some true
    ∧ (generateLegalMoves 1 PieceColor.WHITE pawnGuardsF1).map (fun l => decide (castleG1 ∈ l))
        = some true := by
  decide

/-- C30 (code bug): `isSquareAttacked` does not see a pawn's cover of an empty square, because it
asks the pawn for its moves and a pawn has a diagonal move only onto an occupied square.  With a
black pawn on g2, the occupied square h1 is reported as attacked but the empty square f1 is not;
`King::getValidMoves` offers the castling move e1-g1 across f1, and `generateLegalMoves` keeps
it. -/
theorem pawn_cover_of_empty_square_missed :
    pawnGuardsF1.getPieceAt ⟨6, 6⟩ = some blackPawnG2
    ∧ pawnGuardsF1.getPieceAt ⟨7, 5⟩ = none
    ∧ (∀ fuel, Board.isSquareAttacked fuel ⟨7, 5⟩ PieceColor.BLACK pawnGuardsF1 = some false)
    ∧ (∀ fuel, Board.isSquareAttacked fuel ⟨7, 7⟩ PieceColor.BLACK pawnGuardsF1 = some true)
    ∧ (∀ fuel, ∃ l, getValidMoves (fuel + 1) pawnGuardsF1 whiteKingHome = some l ∧ castleG1 ∈ l)
    ∧ (∀ fuel, ∃ l, generateLegalMoves (fuel + 1) PieceColor.WHITE pawnGuardsF1 = some l
        ∧ castleG1 ∈ l) := by
  obtain ⟨h1, h2, h3, h3b, h4, h5⟩ := pawnGuardsF1_facts
  refine ⟨h1, h2, ?_, ?_, ?_, ?_⟩
  · intro fuel
    have := isSquareAttacked_mono 0 fuel _ _ _ _ h3
    rwa [Nat.zero_add] at this
  · intro fuel
    have := isSquareAttacked_mono 0 fuel _ _ _ _ h3b
    rwa [Nat.zero_add] at this
  · intro fuel
    obtain ⟨l, hl, hm⟩ := option_map_true _ _ h4
    have := getValidMoves_mono 1 fuel _ _ l hl
    rw [Nat.add_comm] at this
    exact ⟨l, this, of_decide_eq_true hm⟩
  · intro fuel
    obtain ⟨l, hl, hm⟩ := option_map_true _ _ h5
    have := generateLegalMoves_mono 1 fuel _ _ l hl
    rw [Nat.add_comm] at this
    exact ⟨l, this, of_decide_eq_true hm⟩

/-! ## Facts about the selection loop of the computer player -/

theorem pickLoop_mem (score : Move → Option Int) (rand : Nat → Nat) (ties : Nat) :
    ∀ (moves : List Move) (bestMove : Move) (bestScore : Int) (i : Nat) (m : Move) (j : Nat),
      pickLoop score rand ties moves bestMove bestScore i = some (m, j) →
      m ∈ moves ∨ m = bestMove := by
  intro moves
  induction moves with
  | nil =>
    intro bm bs i m j h
    rw [pickLoop] at h
    simp only [Option.some.injEq, Prod.mk.injEq] at h
    exact Or.inr h.1.symm
  | cons x rest ih =>
    intro bm bs i m j h
    rw [pickLoop] at h
    cases hx : score x with
    | none => rw [hx] at h; exact absurd h (by simp)
    | some s =>
      rw [hx] at h
      simp only at h
      split_ifs at h
      all_goals
        rcases ih _ _ _ _ _ h with hm | hm
        · exact Or.inl (List.mem_cons_of_mem _ hm)
        · first
            | exact Or.inr hm
            | exact Or.inl (hm ▸ List.mem_cons_self _ _)

theorem pickLoop_spec (score : Move → Option Int) (rand : Nat → Nat) (ties : Nat) :
    ∀ (moves : List Move) (bestMove : Move) (bestScore : Int) (i : Nat),
      (∀ x ∈ moves, (score x).isSome = true) →
      ∃ (m : Move) (j : Nat) (fs : Int),
        pickLoop score rand ties moves bestMove bestScore i = some (m, j)
          ∧ bestScore ≤ fs
          ∧ (∀ x ∈ moves, ∀ s, score x = some s → s ≤ fs)
          ∧ ((m ∈ moves ∧ score m = some fs) ∨ (m = bestMove ∧ fs = bestScore)) := by
  intro moves
  induction moves with
  | nil =>
    intro bm bs i _
    exact ⟨bm, i, bs, by rw [pickLoop], le_refl _, by simp, Or.inr ⟨rfl, rfl⟩⟩
  | cons x rest ih =>
    intro bm bs i hsome
    have hrest : ∀ y ∈ rest, (score y).isSome = true :=
      fun y hy => hsome y (List.mem_cons_of_mem _ hy)
    obtain ⟨s, hs⟩ := Option.isSome_iff_exists.mp (hsome x (List.mem_cons_self _ _))
    rw [pickLoop, hs]
    simp only
    by_cases h1 : s > bs
    · rw [if_pos h1]
      obtain ⟨m, j, fs, hres, hle, hall, hcase⟩ := ih x s i hrest
      refine ⟨m, j, fs, hres, by omega, ?_, ?_⟩
      · intro y hy sy hsy
        rcases List.mem_cons.mp hy with e | e
        · rw [e, hs] at hsy
          have : sy = s := (Option.some.inj hsy).symm
          omega
        · exact hall y e sy hsy
      · rcases hcase with ⟨hm, hsc⟩ | ⟨hm, hfs⟩
        · exact Or.inl ⟨List.mem_cons_of_mem _ hm, hsc⟩
        · exact Or.inl ⟨hm ▸ List.mem_cons_self _ _, by rw [hm, hfs]; exact hs⟩
    · rw [if_neg h1]
      by_cases h2 : s = bs
      · rw [if_pos h2]
        by_cases h3 : rand i % ties = 0
        · rw [if_pos h3]
          obtain ⟨m, j, fs, hres, hle, hall, hcase⟩ := ih x bs (i + 1) hrest
          refine ⟨m, j, fs, hres, hle, ?_, ?_⟩
          · intro y hy sy hsy
            rcases List.mem_cons.mp hy with e | e
            · rw [e, hs] at hsy
              have : sy = s := (Option.some.inj hsy).symm
              omega
            · exact hall y e sy hsy
          · rcases hcase with ⟨hm, hsc⟩ | ⟨hm, hfs⟩
            · exact Or.inl ⟨List.mem_cons_of_mem _ hm, hsc⟩
            · exact Or.inl ⟨hm ▸ List.mem_cons_self _ _, by rw [hm, hfs, ← h2]; exact hs⟩
        · rw [if_neg h3]
          obtain ⟨m, j, fs, hres, hle, hall, hcase⟩ := ih bm bs (i + 1) hrest
          refine ⟨m, j, fs, hres, hle, ?_, ?_⟩
          · intro y hy sy hsy
            rcases List.mem_cons.mp hy with e | e
            · rw [e, hs] at hsy
              have : sy = s := (Option.some.inj hsy).symm
              omega
            · exact hall y e sy hsy
          · rcases hcase with ⟨hm, hsc⟩ | ⟨hm, hfs⟩
            · exact Or.inl ⟨List.mem_cons_of_mem _ hm, hsc⟩
            · exact Or.inr ⟨hm, hfs⟩
      · rw [if_neg h2]
        obtain ⟨m, j, fs, hres, hle, hall, hcase⟩ := ih bm bs i hrest
        refine ⟨m, j, fs, hres, hle, ?_, ?_⟩
        · intro y hy sy hsy
          rcases List.mem_cons.mp hy with e | e
          · rw [e, hs] at hsy
            have : sy = s := (Option.some.inj hsy).symm
            omega
          · exact hall y e sy hsy
        · rcases hcase with ⟨hm, hsc⟩ | ⟨hm, hfs⟩
          · exact Or.inl ⟨List.mem_cons_of_mem _ hm, hsc⟩
          · exact Or.inr ⟨hm, hfs⟩

/-- The selection loop as `getMove` starts it (first legal move, `INT_MIN`): when every score
is present and above `INT_MIN`, the move chosen is in the list and no move of the list scores
higher. -/
theorem pickLoop_best (score : Move → Option Int) (rand : Nat → Nat) (ties : Nat)
    (first : Move) (rest : List Move) (i : Nat)
    (hsome : ∀ x ∈ first :: rest, ∃ s, score x = some s ∧ -2147483648 < s) :
    ∃ (m : Move) (j : Nat) (s : Int),
      pickLoop score rand ties (first :: rest) first (-2147483648) i = some (m, j)
        ∧ m ∈ first :: rest ∧ score m = some s
        ∧ ∀ x ∈ first :: rest, ∀ sx, score x = some sx → sx ≤ s := by
  have hall : ∀ x ∈ first :: rest, (score x).isSome = true := by
    intro x hx
    obtain ⟨s, hs, _⟩ := hsome x hx
    rw [hs]; rfl
  obtain ⟨m, j, fs, hres, _, hle, hcase⟩ :=
    pickLoop_spec score rand ties (first :: rest) first (-2147483648) i hall
  rcases hcase with ⟨hm, hsc⟩ | ⟨_, hfs⟩
  · exact ⟨m, j, fs, hres, hm, hsc, hle⟩
  · obtain ⟨s, hs, hlt⟩ := hsome first (List.mem_cons_self _ _)
    have := hle first (List.mem_cons_self _ _) s hs
    omega

theorem minimaxLoop_min_bounds (child : Board → Option Int) (b : Board) (lo hi : Int)
    (hchild : ∀ nb v, child nb = some v → lo ≤ v ∧ v ≤ hi) :
    ∀ (moves : List Move) (best r : Int), minimaxLoop child min b moves best = some r →
      (lo ≤ best → lo ≤ r) ∧ (moves ≠ [] ∨ best ≤ hi → r ≤ hi) := by
  intro moves
  induction moves with
  | nil =>
    intro best r h
    rw [minimaxLoop] at h
    have : best = r := Option.some.inj h
    subst this
    exact ⟨fun h => h, fun h => h.elim (fun e => absurd rfl e) (fun e => e)⟩
  | cons x rest ih =>
    intro best r h
    rw [minimaxLoop] at h
    cases hc : child (boardAfter b x) with
    | none => rw [hc] at h; exact absurd h (by simp)
    | some v =>
      rw [hc] at h
      obtain ⟨h1, h2⟩ := ih _ _ h
      obtain ⟨hv1, hv2⟩ := hchild _ v hc
      exact ⟨fun hb => h1 (le_min hb hv1), fun _ => h2 (Or.inr (le_trans (min_le_right _ _) hv2))⟩

theorem hardScore_mate (fuel : Nat) (c : PieceColor) (b : Board) (m : Move)
    (h : IsMateMove fuel c b m) : hardScore fuel c b m = some 200001 := by
  unfold hardScore
  show minimax fuel (0 + 1) (boardAfter b m) false c = some 200001
  rw [minimax]
  simp only [Bool.false_eq_true, if_false]
  rw [h.1]
  simp only [List.isEmpty_nil, if_true]
  rw [h.2]
  rfl

theorem hardScore_cases (fuel : Nat) (c : PieceColor) (b : Board) (m : Move) (s : Int)
    (h : hardScore fuel c b m = some s) :
    (s = 200001 ∧ IsMateMove fuel c b m) ∨ (-57600 ≤ s ∧ s ≤ 57600) := by
  unfold hardScore at h
  change minimax fuel (0 + 1) (boardAfter b m) false c = some s at h
  rw [minimax] at h
  simp only [Bool.false_eq_true, if_false] at h
  cases hg : generateLegalMoves fuel (otherColor c) (boardAfter b m) with
  | none => rw [hg] at h; exact absurd h (by simp)
  | some legal =>
    rw [hg] at h
    simp only at h
    cases legal with
    | nil =>
      simp only [List.isEmpty_nil, if_true] at h
      cases hk : isKingInCheck fuel (otherColor c) (boardAfter b m) with
      | none => rw [hk] at h; exact absurd h (by simp)
      | some chk =>
        rw [hk] at h
        cases chk with
        | true =>
          left
          simp only [if_true, Option.some.injEq] at h
          exact ⟨by rw [← h]; rfl, hg, hk⟩
        | false =>
          right
          simp only [Bool.false_eq_true, if_false, Option.some.injEq] at h
          omega
    | cons x xs =>
      right
      simp only [List.isEmpty_cons, Bool.false_eq_true, if_false] at h
      have hb := minimaxLoop_min_bounds (fun nb => minimax fuel 0 nb true c) (boardAfter b m)
        (-57600) 57600 (by
          intro nb v hv
          simp only [minimax.eq_1] at hv
          have := evaluateMaterial_bounds nb c
          have hv : nb.evaluateMaterial c = v := Option.some.inj hv
          omega) (x :: xs) 2147483647 s h
      exact ⟨hb.1 (by norm_num), hb.2 (Or.inl (by simp))⟩

theorem getMove_hard_eq (fuel : Nat) (rand : Nat → Nat) (i : Nat) (c : PieceColor) (b : Board)
    (first : Move) (rest : List Move) (h : generateLegalMoves fuel c b = some (first :: rest)) :
    getMove fuel rand i AIDifficulty.HARD c b
      = (pickLoop (hardScore fuel c b) rand 2 (first :: rest) first (-2147483648) i).map
          Except.ok := by
  unfold getMove
  rw [h]

theorem getMove_medium_eq (fuel : Nat) (rand : Nat → Nat) (i : Nat) (c : PieceColor) (b : Board)
    (first : Move) (rest : List Move) (h : generateLegalMoves fuel c b = some (first :: rest)) :
    getMove fuel rand i AIDifficulty.MEDIUM c b
      = (pickLoop (mediumScore fuel c b) rand 3 (first :: rest) first (-2147483648) i).map
          Except.ok := by
  unfold getMove
  rw [h]

theorem getMove_easy_eq (fuel : Nat) (rand : Nat → Nat) (i : Nat) (c : PieceColor) (b : Board)
    (first : Move) (rest : List Move) (h : generateLegalMoves fuel c b = some (first :: rest)) :
    getMove fuel rand i AIDifficulty.EASY c b
      = some (Except.ok
          ((first :: rest).getD (rand i % (first :: rest).length) first, i + 1)) := by
  unfold getMove
  rw [h]

/-! ## The position after 1. e4 e5 2. Bc4 Nc6 3. Qh5 Nf6 -/

set_option maxRecDepth 1000000 in
theorem scholar_legal :
    (generateLegalMoves 0 PieceColor.WHITE scholar).map
      (fun l => decide (queenF7 ∈ l) && decide (knightF3 ∈ l)) = some true := by
  decide

set_option maxRecDepth 1000000 in
theorem scholar_mate :
    generateLegalMoves 0 (otherColor PieceColor.WHITE) (boardAfter scholar queenF7) = some []
      ∧ isKingInCheck 0 (otherColor PieceColor.WHITE) (boardAfter scholar queenF7)
        = some true := by
  decide

set_option maxRecDepth 1000000 in
theorem scholarNf3_pseudoLegal :
    (scholarNf3.generateAllPseudoLegalMoves 0 PieceColor.BLACK).map
      (fun l => decide (bishopE7 ∈ l)) = some true := by
  decide

set_option maxRecDepth 1000000 in
theorem scholarBe7_facts :
    scholarBe7.findKing PieceColor.BLACK = ⟨0, 4⟩
    ∧ King.kingSideReady whiteKingHome scholarBe7 = true
    ∧ King.kingSideReady blackKingHome scholarBe7 = true
    ∧ reachesKingFirst scholarBe7 ⟨7, 4⟩ PieceColor.BLACK blackKingHome
        Board.allPositions = true
    ∧ reachesKingFirst scholarBe7 ⟨0, 4⟩ PieceColor.WHITE whiteKingHome
        Board.allPositions = true := by
  decide

theorem scholarNf3_no_legal_moves (n : Nat) :
    generateLegalMoves n PieceColor.BLACK scholarNf3 = none := by
  obtain ⟨pl, hpl, hm⟩ := option_map_true _ _ scholarNf3_pseudoLegal
  obtain ⟨hk, hrw, hrb, hsw, hsb⟩ := scholarBe7_facts
  have hkings := kings_never_return scholarBe7 whiteKingHome blackKingHome rfl rfl rfl rfl rfl
    rfl hrw hrb hsw hsb n
  refine generateLegalMoves_none n _ _ pl bishopE7 hpl (of_decide_eq_true hm) ?_
  refine isKingInCheck_none n PieceColor.BLACK (boardForCheck scholarNf3 bishopE7)
    whiteKingHome ?_ hkings.1 ?_
  · show (scholarBe7.findKing PieceColor.BLACK).isValid = true
    rw [hk]; rfl
  · show reachesKingFirst scholarBe7 (scholarBe7.findKing PieceColor.BLACK) _ _ _ = true
    rw [hk]; exact hsb

theorem scholar_hardScore_none (n : Nat) :
    hardScore n PieceColor.WHITE scholar knightF3 = none := by
  unfold hardScore
  show minimax n 1 scholarNf3 false PieceColor.WHITE = none
  rw [minimax]
  simp only [Bool.false_eq_true, if_false, otherColor, if_true]
  rw [scholarNf3_no_legal_moves n]

theorem isMateMove_mono (c : PieceColor) (b : Board) (m : Move)
    (h : IsMateMove 0 c b m) (fuel : Nat) : IsMateMove fuel c b m := by
  constructor
  · exact generateLegalMoves_const _ _ _ h.1 fuel
  · have := isKingInCheck_mono 0 fuel _ _ _ h.2
    rwa [Nat.zero_add] at this

/-- C29 (code bug): a mating move scores 200001 and every other scored move between -57600 and
57600, so the HARD player prefers a mate whenever it returns; but it does not return on every
board on which move generation returns.  After 1. e4 e5 2. Bc4 Nc6 3. Qh5 Nf6
`generateLegalMoves(WHITE)` returns for every fuel a list that holds Qxf7, and Qxf7 leaves Black
without a legal move and in check; yet HARD `getMove` never returns: scoring the candidate
4. Nf3 it generates Black's replies, and the check test after 4. ... Be7 finds both kings ready
to castle and recurses for ever. -/
theorem hard_misses_mate_in_one :
    (∀ (fuel : Nat) (c : PieceColor) (b : Board) (m : Move), IsMateMove fuel c b m →
        hardScore fuel c b m = some 200001)
    ∧ (∀ (fuel : Nat) (c : PieceColor) (b : Board) (m : Move) (s : Int),
        hardScore fuel c b m = some s → ¬ IsMateMove fuel c b m → -57600 ≤ s ∧ s ≤ 57600)
    ∧ (∃ l : List Move, queenF7 ∈ l
        ∧ ∀ fuel, generateLegalMoves fuel PieceColor.WHITE scholar = some l)
    ∧ (∀ fuel, IsMateMove fuel PieceColor.WHITE scholar queenF7)
    ∧ (∀ (fuel : Nat) (rand : Nat → Nat) (i : Nat),
        getMove fuel rand i AIDifficulty.HARD PieceColor.WHITE scholar = none) := by
  obtain ⟨l, hl, h⟩ := option_map_true _ _ scholar_legal
  rw [Bool.and_eq_true] at h
  have hq : queenF7 ∈ l := of_decide_eq_true h.1
  have hn : knightF3 ∈ l := of_decide_eq_true h.2
  refine ⟨hardScore_mate, ?_, ⟨l, hq, generateLegalMoves_const _ _ l hl⟩,
    isMateMove_mono _ _ _ scholar_mate, ?_⟩
  · intro fuel c b m s hs hnot
    rcases hardScore_cases fuel c b m s hs with h1 | h1
    · exact absurd h1.2 hnot
    · exact h1
  · intro fuel rand i
    unfold getMove
    rw [generateLegalMoves_const _ _ l hl fuel]
    cases l with
    | nil => simp at hq
    | cons first rest =>
      simp only
      rw [pickLoop_none _ rand 2 knightF3 (scholar_hardScore_none fuel) _ _ _ _ hn]
      rfl

/-! ## Facts about `makeMove` -/

theorem getPieceAt_congr (b c : Board) (h : b.grid = c.grid) (pos : Position) :
    b.getPieceAt pos = c.getPieceAt pos := by
  unfold Board.getPieceAt
  rw [h]

theorem getPieceAt_setPieceAt (b : Board) (pos : Position) (x : Option Piece) (q : Position) :
    (b.setPieceAt pos x).getPieceAt q
      = if pos.isValid = true ∧ q = pos then x.map (fun p => { p with currentPosition := pos })
        else b.getPieceAt q := by
  unfold Board.setPieceAt
  by_cases hv : pos.isValid = true
  · rw [if_pos hv]
    unfold Board.getPieceAt
    by_cases hin : 0 ≤ q.row ∧ q.row < 8 ∧ 0 ≤ q.col ∧ q.col < 8
    · rw [dif_pos hin, dif_pos hin]
      simp only
      have e1 : ((q.row.toNat : Nat) : Int) = q.row := Int.toNat_of_nonneg hin.1
      have e2 : ((q.col.toNat : Nat) : Int) = q.col := Int.toNat_of_nonneg hin.2.2.1
      by_cases hq : q = pos
      · subst hq
        rw [if_pos ⟨e1, e2⟩, if_pos ⟨hv, rfl⟩]
      · have : ¬ ((((q.row.toNat : Nat) : Int) = pos.row) ∧ (((q.col.toNat : Nat) : Int) = pos.col)) := by
          rintro ⟨h1, h2⟩
          apply hq
          cases q; cases pos
          simp only [Position.mk.injEq]
          simp only at h1 h2 e1 e2
          omega
        rw [if_neg this, if_neg (fun h => hq h.2)]
    · rw [dif_neg hin, dif_neg hin]
      have : ¬ (pos.isValid = true ∧ q = pos) := by
        rintro ⟨h1, h2⟩
        subst h2
        apply hin
        unfold Position.isValid at h1
        simp only [Bool.and_eq_true, decide_eq_true_eq] at h1
        omega
      rw [if_neg this]
  · rw [if_neg hv, if_neg (fun h => hv h.1)]

theorem makeMoveFinish_grid (b : Board) (m : Move) (piece : Piece) :
    (b.makeMoveFinish m piece).2.1.grid
      = ((b.setPieceAt m.dst (some { piece with hasMoved := true })).setPieceAt m.src none).grid := by
  unfold Board.makeMoveFinish
  simp only [apply_ite Board.grid, ite_self]

theorem makeMoveFinish_move (b : Board) (m : Move) (piece : Piece) :
    (b.makeMoveFinish m piece).2.2
      = if piece.getType = PieceType.PAWN
          ∧ ((piece.pieceColor = PieceColor.WHITE ∧ m.dst.row = 0)
            ∨ (piece.pieceColor = PieceColor.BLACK ∧ m.dst.row = 7))
          ∧ m.promotionPiece = PieceType.EMPTY then
          { m with promotionPiece := PieceType.QUEEN }
        else m := by
  unfold Board.makeMoveFinish
  rfl

theorem makeMoveFinish_settled (b : Board) (m : Move) (piece : Piece) :
    PromotionSettled (b.makeMoveFinish m piece) := by
  intro hpromo p hp hpawn
  rw [makeMoveFinish_move] at hpromo hp hpawn
  rw [getPieceAt_congr _ _ (makeMoveFinish_grid b m piece)] at hp
  by_cases hc : piece.getType = PieceType.PAWN
      ∧ ((piece.pieceColor = PieceColor.WHITE ∧ m.dst.row = 0)
        ∨ (piece.pieceColor = PieceColor.BLACK ∧ m.dst.row = 7))
      ∧ m.promotionPiece = PieceType.EMPTY
  · rw [if_pos hc] at hpromo
    exact absurd hpromo (by simp)
  · rw [if_neg hc] at hpromo hp hpawn
    rw [getPieceAt_setPieceAt, getPieceAt_setPieceAt] at hp
    by_cases h1 : m.src.isValid = true ∧ m.dst = m.src
    · rw [if_pos h1] at hp
      exact absurd hp (by simp)
    · rw [if_neg h1] at hp
      by_cases h2 : m.dst.isValid = true ∧ m.dst = m.dst
      · rw [if_pos h2] at hp
        simp only [Option.map_some', Option.some.injEq] at hp
        subst hp
        exact hc ⟨hpawn.1, hpawn.2, hpromo⟩
      · rw [if_neg h2] at hp
        have hinv : m.dst.isValid ≠ true := fun h => h2 ⟨h, rfl⟩
        unfold Board.getPieceAt at hp
        split at hp
        · rename_i hin
          apply hinv
          unfold Position.isValid
          simp only [Bool.and_eq_true, decide_eq_true_eq]
          omega
        · exact absurd hp (by simp)

theorem makeMoveCastle_cases (b : Board) (m : Move) (piece : Piece) :
    (∃ (b1 : Board) (m1 : Move), b.makeMoveCastle m piece = b1.makeMoveFinish m1 piece)
      ∨ (b.makeMoveCastle m piece).1 = false := by
  unfold Board.makeMoveCastle
  by_cases hk : piece.getType = PieceType.KING ∧ (m.dst.col - m.src.col).natAbs = 2
  · rw [if_pos hk]
    simp only
    generalize b.getPieceAt _ = rk
    cases rk with
    | none => exact Or.inr rfl
    | some rook =>
      simp only
      by_cases hr : rook.getType = PieceType.ROOK
      · rw [if_pos hr]; exact Or.inl ⟨_, _, rfl⟩
      · rw [if_neg hr]; exact Or.inr rfl
  · rw [if_neg hk]; exact Or.inl ⟨_, _, rfl⟩

theorem makeMove_cases (b : Board) (m : Move) :
    (∃ (b1 : Board) (m1 : Move) (piece : Piece), b.makeMove m = b1.makeMoveFinish m1 piece) ∨ (b.makeMove m).1 = false := by
  unfold Board.makeMove
  cases hsrc : b.getPieceAt m.src with
  | none => exact Or.inr rfl
  | some piece =>
    simp only
    by_cases he : m.isEnPassantCapture = true
    · rw [if_pos he]
      by_cases ht : m.dst = b.enPassantTargetSquare ∧ b.enPassantTargetSquare.isValid = true
      · rw [if_pos ht]
        rcases makeMoveCastle_cases _ m piece with ⟨b1, m1, h⟩ | h
        · exact Or.inl ⟨b1, m1, piece, h⟩
        · exact Or.inr h
      · rw [if_neg ht]; exact Or.inr rfl
    · rw [if_neg he]
      rcases makeMoveCastle_cases _ m piece with ⟨b1, m1, h⟩ | h
      · exact Or.inl ⟨b1, m1, piece, h⟩
      · exact Or.inr h

theorem makeMove_settled (b : Board) (m : Move) (h : (b.makeMove m).1 = true) :
    PromotionSettled (b.makeMove m) := by
  rcases makeMove_cases b m with ⟨b1, m1, piece, he⟩ | hf
  · rw [he]; exact makeMoveFinish_settled _ _ _
  · rw [hf] at h; exact absurd h (by simp)

theorem boardForCheck_eq_boardAfter (b : Board) (m : Move) (h : (b.makeMove m).1 = true) :
    boardForCheck b m = boardAfter b m := by
  have hs := makeMove_settled b m h
  unfold PromotionSettled at hs
  unfold boardForCheck boardAfter
  simp only
  by_cases hp : (b.makeMove m).2.2.promotionPiece = PieceType.EMPTY
  · rw [if_pos hp]
    cases hq : (b.makeMove m).2.1.getPieceAt (b.makeMove m).2.2.dst with
    | none => rfl
    | some p =>
      simp only
      rw [if_neg (hs hp p hq)]
  · rw [if_neg hp]

/-! ## Facts about attack scans that return -/

theorem legalLoop_sound (chk : Move → Option Bool) :
    ∀ (moves acc l : List Move), legalLoop chk moves acc = some l →
      ∀ m ∈ l, m ∈ acc ∨ (m ∈ moves ∧ chk m = some false) := by
  intro moves
  induction moves with
  | nil =>
    intro acc l h m hm
    rw [legalLoop] at h
    have : acc = l := Option.some.inj h
    subst this
    exact Or.inl hm
  | cons x rest ih =>
    intro acc l h m hm
    rw [legalLoop] at h
    cases hx : chk x with
    | none => rw [hx] at h; exact absurd h (by simp)
    | some c =>
      rw [hx] at h
      cases c with
      | true =>
        rcases ih _ _ h m hm with h1 | ⟨h1, h2⟩
        · exact Or.inl h1
        · exact Or.inr ⟨List.mem_cons_of_mem _ h1, h2⟩
      | false =>
        rcases ih _ _ h m hm with h1 | ⟨h1, h2⟩
        · rcases List.mem_append.mp h1 with h3 | h3
          · exact Or.inl h3
          · have : m = x := by simpa using h3
            subst this
            exact Or.inr ⟨List.mem_cons_self _ _, hx⟩
        · exact Or.inr ⟨List.mem_cons_of_mem _ h1, h2⟩

theorem generateLegalMoves_sound (fuel : Nat) (c : PieceColor) (b : Board) (l : List Move)
    (h : generateLegalMoves fuel c b = some l) :
    ∀ m ∈ l, isKingInCheck fuel c (boardForCheck b m) = some false := by
  unfold generateLegalMoves at h
  cases hp : b.generateAllPseudoLegalMoves fuel c with
  | none => rw [hp] at h; exact absurd h (by simp)
  | some pl =>
    rw [hp] at h
    intro m hm
    rcases legalLoop_sound _ pl [] l h m hm with h1 | ⟨_, h2⟩
    · simp at h1
    · exact h2

theorem scan_complete (km : Piece → Option (List Move)) (b : Board) (sq : Position)
    (c : PieceColor) :
    ∀ positions : List Position, isSquareAttackedWith km b sq c positions = some false →
      ∀ pos ∈ positions, ∀ p, b.getPieceAt pos = some p → p.pieceColor = c →
        (km p).isSome = true := by
  intro positions
  induction positions with
  | nil => intro _ pos hpos; simp at hpos
  | cons x rest ih =>
    intro h pos hpos p hp hc
    rw [isSquareAttackedWith] at h
    cases hx : b.getPieceAt x with
    | none =>
      rw [hx] at h
      rcases List.mem_cons.mp hpos with e | e
      · rw [e, hx] at hp; exact absurd hp (by simp)
      · exact ih h pos e p hp hc
    | some q =>
      rw [hx] at h
      simp only at h
      by_cases hq : q.pieceColor = c
      · rw [if_pos hq] at h
        cases hk : km q with
        | none => rw [hk] at h; exact absurd h (by simp)
        | some pm =>
          rw [hk] at h
          simp only at h
          by_cases hh : hitsSquare q pm sq = true
          · rw [if_pos hh] at h; exact absurd h (by simp)
          · rw [if_neg hh] at h
            rcases List.mem_cons.mp hpos with e | e
            · rw [e, hx] at hp
              have : q = p := Option.some.inj hp
              subst this
              rw [hk]; rfl
            · exact ih h pos e p hp hc
      · rw [if_neg hq] at h
        rcases List.mem_cons.mp hpos with e | e
        · rw [e, hx] at hp
          have : q = p := Option.some.inj hp
          subst this
          exact absurd hc hq
        · exact ih h pos e p hp hc

theorem scan_isSome (km : Piece → Option (List Move)) (b : Board) (sq : Position)
    (c : PieceColor) :
    ∀ positions : List Position,
      (∀ pos ∈ positions, ∀ p, b.getPieceAt pos = some p → p.pieceColor = c →
        (km p).isSome = true) →
      (isSquareAttackedWith km b sq c positions).isSome = true := by
  intro positions
  induction positions with
  | nil => intro _; rfl
  | cons x rest ih =>
    intro h
    have hrest := ih (fun pos hpos => h pos (List.mem_cons_of_mem _ hpos))
    rw [isSquareAttackedWith]
    cases hx : b.getPieceAt x with
    | none => exact hrest
    | some q =>
      simp only
      by_cases hq : q.pieceColor = c
      · rw [if_pos hq]
        obtain ⟨pm, hpm⟩ := Option.isSome_iff_exists.mp (h x (List.mem_cons_self _ _) q hx hq)
        rw [hpm]
        simp only
        by_cases hh : hitsSquare q pm sq = true
        · rw [if_pos hh]; rfl
        · rw [if_neg hh]; exact hrest
      · rw [if_neg hq]; exact hrest

theorem noneAttacked_isSome (att : Position → Option Bool) (h : ∀ sq, (att sq).isSome = true)
    (p1 p2 p3 : Position) : (noneAttacked att p1 p2 p3).isSome = true := by
  unfold noneAttacked
  obtain ⟨a1, h1⟩ := Option.isSome_iff_exists.mp (h p1)
  obtain ⟨a2, h2⟩ := Option.isSome_iff_exists.mp (h p2)
  obtain ⟨a3, h3⟩ := Option.isSome_iff_exists.mp (h p3)
  rw [h1, h2, h3]
  cases a1 <;> cases a2 <;> rfl

theorem kingMoves_isSome (att : Position → PieceColor → Option Bool) (self : Piece)
    (board : Board)
    (h : ∀ sq, (att sq
      (if self.pieceColor = PieceColor.WHITE then PieceColor.BLACK else PieceColor.WHITE)).isSome
        = true) :
    (King.getValidMoves att self board).isSome = true := by
  unfold King.getValidMoves
  by_cases hm : self.hasMoved = true
  · rw [if_pos hm]; rfl
  · rw [if_neg hm]
    simp only
    have hn := fun p1 p2 p3 => noneAttacked_isSome (fun sq => att sq
      (if self.pieceColor = PieceColor.WHITE then PieceColor.BLACK else PieceColor.WHITE)) h
      p1 p2 p3
    by_cases hk : King.kingSideReady self board = true
    · rw [if_pos hk]
      obtain ⟨f, hf⟩ := Option.isSome_iff_exists.mp (hn self.currentPosition
        ⟨self.currentPosition.row, self.currentPosition.col + 1⟩
        ⟨self.currentPosition.row, self.currentPosition.col + 2⟩)
      rw [hf]
      simp only [Option.bind]
      by_cases hq : King.queenSideReady self board = true
      · rw [if_pos hq]
        obtain ⟨f2, hf2⟩ := Option.isSome_iff_exists.mp (hn self.currentPosition
          ⟨self.currentPosition.row, self.currentPosition.col - 1⟩
          ⟨self.currentPosition.row, self.currentPosition.col - 2⟩)
        rw [hf2]; rfl
      · rw [if_neg hq]; rfl
    · rw [if_neg hk]
      simp only [Option.bind]
      by_cases hq : King.queenSideReady self board = true
      · rw [if_pos hq]
        obtain ⟨f2, hf2⟩ := Option.isSome_iff_exists.mp (hn self.currentPosition
          ⟨self.currentPosition.row, self.currentPosition.col - 1⟩
          ⟨self.currentPosition.row, self.currentPosition.col - 2⟩)
        rw [hf2]; rfl
      · rw [if_neg hq]; rfl

theorem allPositions_isValid : ∀ pos ∈ Board.allPositions, pos.isValid = true := by
  decide

theorem findKing_isValid (b : Board) (c : PieceColor) (pos : Position) (p : Piece)
    (hpos : pos ∈ Board.allPositions) (hp : b.getPieceAt pos = some p)
    (hk : p.kind = PieceClass.King) (hc : p.pieceColor = c) :
    (b.findKing c).isValid = true := by
  unfold Board.findKing
  split
  · rename_i q hf
    exact allPositions_isValid q (List.mem_of_find?_eq_some hf)
  · rename_i hf
    have := List.find?_eq_none.mp hf pos hpos
    rw [hp] at this
    have ht : p.getType = PieceType.KING := by
      unfold Piece.getType; rw [hk]
    simp [ht, hc] at this

/-- When the check test of `color` returned "not in check" on a board, the check test of the
other colour returns on that board with one more unit of fuel: the first test has asked every
piece of the other colour for its moves, and these are all the second test can wait for. -/
theorem isKingInCheck_other_isSome (fuel : Nat) (c : PieceColor)
    (hc : c = PieceColor.WHITE ∨ c = PieceColor.BLACK) (tb : Board)
    (h : isKingInCheck fuel c tb = some false) :
    (isKingInCheck (fuel + 1) (otherColor c) tb).isSome = true := by
  have hoo : (if otherColor c = PieceColor.WHITE then PieceColor.BLACK else PieceColor.WHITE)
      = c := by
    rcases hc with e | e <;> subst e <;> rfl
  unfold isKingInCheck
  simp only
  by_cases hv : (!(tb.findKing (otherColor c)).isValid) = true
  · rw [if_pos hv]; rfl
  · rw [if_neg hv, hoo]
    unfold Board.isSquareAttacked
    apply scan_isSome
    intro pos hpos p hp hpc
    by_cases hkind : p.kind = PieceClass.King
    · rw [getValidMoves.eq_2, if_pos hkind]
      apply kingMoves_isSome
      intro sq
      have hvk := findKing_isValid tb c pos p hpos hp hkind hpc
      unfold isKingInCheck at h
      simp only [hvk, Bool.not_true, Bool.false_eq_true, if_false] at h
      unfold Board.isSquareAttacked at h
      have hall := scan_complete _ tb _ _ _ h
      rw [hpc]
      exact scan_isSome _ tb sq _ _ hall
    · rw [getValidMoves_plain _ _ _ hkind]; rfl

theorem mediumScore_eq_greedyScore (fuel : Nat) (c : PieceColor) (b : Board) (m : Move) :
    mediumScore fuel c b m = greedyScore fuel c b m := by
  unfold mediumScore greedyScore
  simp only
  cases hk : isKingInCheck fuel (otherColor c) (boardAfter b m) with
  | none => rfl
  | some chk => cases chk <;> simp

theorem mediumScore_bounds (fuel : Nat) (c : PieceColor) (b : Board) (m : Move) (s : Int)
    (h : mediumScore fuel c b m = some s) : -57600 ≤ s ∧ s ≤ 57650 := by
  unfold mediumScore at h
  simp only at h
  have hb := evaluateMaterial_bounds (boardAfter b m) c
  cases hk : isKingInCheck fuel (otherColor c) (boardAfter b m) with
  | none => rw [hk] at h; exact absurd h (by simp)
  | some chk =>
    rw [hk] at h
    simp only [Option.some.injEq] at h
    cases chk <;> simp only [if_true, Bool.false_eq_true, if_false] at h <;> omega

theorem mediumScore_isSome (fuel : Nat) (c : PieceColor)
    (hc : c = PieceColor.WHITE ∨ c = PieceColor.BLACK) (b : Board) (l : List Move)
    (hgen : generateLegalMoves fuel c b = some l) (m : Move) (hm : m ∈ l)
    (hmk : (b.makeMove m).1 = true) :
    (mediumScore (fuel + 1) c b m).isSome = true := by
  have h1 := generateLegalMoves_sound fuel c b l hgen m hm
  rw [boardForCheck_eq_boardAfter b m hmk] at h1
  obtain ⟨chk, hchk⟩ := Option.isSome_iff_exists.mp
    (isKingInCheck_other_isSome fuel c hc (boardAfter b m) h1)
  unfold mediumScore
  simp only
  rw [hchk]
  rfl

/-! ## More fuel never changes a move of the computer player -/

theorem minimaxLoop_mono (child child2 : Board → Option Int)
    (hle : ∀ nb v, child nb = some v → child2 nb = some v) (combine : Int → Int → Int)
    (b : Board) :
    ∀ (moves : List Move) (best v : Int), minimaxLoop child combine b moves best = some v →
      minimaxLoop child2 combine b moves best = some v := by
  intro moves
  induction moves with
  | nil => intro best v h; rw [minimaxLoop] at h ⊢; exact h
  | cons x rest ih =>
    intro best v h
    rw [minimaxLoop] at h ⊢
    cases hc : child (boardAfter b x) with
    | none => rw [hc] at h; exact absurd h (by simp)
    | some w =>
      rw [hc] at h
      rw [hle _ w hc]
      exact ih _ v h

theorem minimax_mono (n k : Nat) :
    ∀ (d : Nat) (b : Board) (isMax : Bool) (c : PieceColor) (v : Int),
      minimax n d b isMax c = some v → minimax (n + k) d b isMax c = some v := by
  intro d
  induction d with
  | zero =>
    intro b isMax c v h
    rw [minimax.eq_1] at h ⊢
    exact h
  | succ d ih =>
    intro b isMax c v h
    rw [minimax] at h ⊢
    cases hg : generateLegalMoves n (if isMax = true then c else otherColor c) b with
    | none => rw [hg] at h; exact absurd h (by simp)
    | some legal =>
      rw [hg] at h
      rw [generateLegalMoves_mono n k _ _ legal hg]
      simp only at h ⊢
      by_cases he : legal.isEmpty = true
      · rw [if_pos he] at h ⊢
        cases hk : isKingInCheck n (if isMax = true then c else otherColor c) b with
        | none => rw [hk] at h; exact absurd h (by simp)
        | some chk =>
          rw [hk] at h
          rw [isKingInCheck_mono n k _ _ chk hk]
          exact h
      · rw [if_neg he] at h ⊢
        by_cases hmax : isMax = true
        · rw [if_pos hmax] at h ⊢
          exact minimaxLoop_mono _ _ (fun nb w hw => ih nb false c w hw) _ _ _ _ _ h
        · rw [if_neg hmax] at h ⊢
          exact minimaxLoop_mono _ _ (fun nb w hw => ih nb true c w hw) _ _ _ _ _ h

theorem hardScore_mono (n k : Nat) (c : PieceColor) (b : Board) (m : Move) (v : Int)
    (h : hardScore n c b m = some v) : hardScore (n + k) c b m = some v :=
  minimax_mono n k 1 _ false c v h

theorem mediumScore_mono (n k : Nat) (c : PieceColor) (b : Board) (m : Move) (v : Int)
    (h : mediumScore n c b m = some v) : mediumScore (n + k) c b m = some v := by
  unfold mediumScore at h ⊢
  simp only at h ⊢
  cases hk : isKingInCheck n (otherColor c) (boardAfter b m) with
  | none => rw [hk] at h; exact absurd h (by simp)
  | some chk =>
    rw [hk] at h
    rw [isKingInCheck_mono n k _ _ chk hk]
    exact h

theorem pickLoop_mono (score score2 : Move → Option Int)
    (hle : ∀ m v, score m = some v → score2 m = some v) (rand : Nat → Nat) (ties : Nat) :
    ∀ (moves : List Move) (bestMove : Move) (bestScore : Int) (i : Nat) (r : Move × Nat),
      pickLoop score rand ties moves bestMove bestScore i = some r →
      pickLoop score2 rand ties moves bestMove bestScore i = some r := by
  intro moves
  induction moves with
  | nil => intro bm bs i r h; rw [pickLoop] at h ⊢; exact h
  | cons x rest ih =>
    intro bm bs i r h
    rw [pickLoop] at h ⊢
    cases hx : score x with
    | none => rw [hx] at h; exact absurd h (by simp)
    | some s =>
      rw [hx] at h
      rw [hle x s hx]
      simp only at h ⊢
      split_ifs at h ⊢ <;> exact ih _ _ _ _ h

theorem getMove_mono (n k : Nat) (rand : Nat → Nat) (i : Nat) (d : AIDifficulty)
    (c : PieceColor) (b : Board) (r : Except String (Move × Nat))
    (h : getMove n rand i d c b = some r) : getMove (n + k) rand i d c b = some r := by
  unfold getMove at h ⊢
  cases hg : generateLegalMoves n c b with
  | none => rw [hg] at h; exact absurd h (by simp)
  | some l =>
    rw [hg] at h
    rw [generateLegalMoves_mono n k c b l hg]
    cases l with
    | nil => exact h
    | cons first rest =>
      cases d with
      | EASY => exact h
      | MEDIUM =>
        simp only at h ⊢
        obtain ⟨p, hp, hr⟩ := Option.map_eq_some'.mp h
        rw [pickLoop_mono _ _ (fun m v hv => mediumScore_mono n k c b m v hv) rand 3 _ _ _ _ p hp]
        simpa using hr
      | HARD =>
        simp only at h ⊢
        obtain ⟨p, hp, hr⟩ := Option.map_eq_some'.mp h
        rw [pickLoop_mono _ _ (fun m v hv => hardScore_mono n k c b m v hv) rand 2 _ _ _ _ p hp]
        simpa using hr

/-! ## The claims about the move chosen by the computer player -/

set_option maxRecDepth 1000000 in
theorem initial_legal :
    generateLegalMoves 0 PieceColor.WHITE Board.initial = some openingMoves
      ∧ ∀ m ∈ openingMoves, (Board.initial.makeMove m).1 = true := by
  decide

theorem getMove_mem (fuel : Nat) (rand : Nat → Nat) (i : Nat) (d : AIDifficulty)
    (c : PieceColor) (b : Board) (l : List Move) (hgen : generateLegalMoves fuel c b = some l)
    (m : Move) (j : Nat) (h : getMove fuel rand i d c b = some (Except.ok (m, j))) :
    m ∈ l := by
  cases l with
  | nil =>
    have := (getMove_error_iff fuel rand i d c b).mpr hgen
    rw [this] at h
    exact absurd h (by simp)
  | cons first rest =>
    cases d with
    | EASY =>
      rw [getMove_easy_eq fuel rand i c b first rest hgen] at h
      simp only [Option.some.injEq, Except.ok.injEq, Prod.mk.injEq] at h
      rw [← h.1]
      have hlt : rand i % (first :: rest).length < (first :: rest).length :=
        Nat.mod_lt _ (by simp)
      rw [List.getD_eq_getElem _ _ hlt]
      exact List.getElem_mem _
    | MEDIUM =>
      rw [getMove_medium_eq fuel rand i c b first rest hgen] at h
      obtain ⟨p, hp, hr⟩ := Option.map_eq_some'.mp h
      have hp2 : p = (m, j) := by simpa using hr
      rw [hp2] at hp
      rcases pickLoop_mem _ _ _ _ _ _ _ _ _ hp with h1 | h1
      · exact h1
      · rw [h1]; exact List.mem_cons_self _ _
    | HARD =>
      rw [getMove_hard_eq fuel rand i c b first rest hgen] at h
      obtain ⟨p, hp, hr⟩ := Option.map_eq_some'.mp h
      have hp2 : p = (m, j) := by simpa using hr
      rw [hp2] at hp
      rcases pickLoop_mem _ _ _ _ _ _ _ _ _ hp with h1 | h1
      · exact h1
      · rw [h1]; exact List.mem_cons_self _ _

theorem pickLoop_returns (score : Move → Option Int) (rand : Nat → Nat) (ties : Nat)
    (moves : List Move) (bestMove : Move) (bestScore : Int) (i : Nat)
    (h : ∀ x ∈ moves, (score x).isSome = true) :
    ∃ m j, pickLoop score rand ties moves bestMove bestScore i = some (m, j) := by
  obtain ⟨m, j, _, hres, _⟩ := pickLoop_spec score rand ties moves bestMove bestScore i h
  exact ⟨m, j, hres⟩

/-- C21. On a board whose legal-move list (for a side in {WHITE, BLACK}) is returned, is not
empty and holds moves that `makeMove` accepts, the MEDIUM player returns - with one more unit of
fuel than the list needed, and with any more - a legal move whose greedy score is present and at
least the greedy score of every legal move, whatever the random tie-breaks are. -/
theorem medium_plays_greedy_best (fuel : Nat) (rand : Nat → Nat) (i : Nat) (c : PieceColor)
    (b : Board) (legalMoves : List Move)
    (hc : c = PieceColor.WHITE ∨ c = PieceColor.BLACK)
    (hgen : generateLegalMoves fuel c b = some legalMoves) (hne : legalMoves ≠ [])
    (hmk : ∀ m ∈ legalMoves, (b.makeMove m).1 = true) :
    ∃ (m : Move) (j : Nat) (s : Int),
      (∀ k, getMove (fuel + 1 + k) rand i AIDifficulty.MEDIUM c b = some (Except.ok (m, j)))
        ∧ m ∈ legalMoves
        ∧ greedyScore (fuel + 1) c b m = some s
        ∧ ∀ x ∈ legalMoves, ∃ sx, greedyScore (fuel + 1) c b x = some sx ∧ sx ≤ s := by
  cases legalMoves with
  | nil => exact absurd rfl hne
  | cons first rest =>
    have hgen1 := generateLegalMoves_mono fuel 1 c b _ hgen
    have hsome : ∀ x ∈ first :: rest,
        ∃ s, mediumScore (fuel + 1) c b x = some s ∧ -2147483648 < s := by
      intro x hx
      obtain ⟨s, hs⟩ := Option.isSome_iff_exists.mp
        (mediumScore_isSome fuel c hc b _ hgen x hx (hmk x hx))
      have := mediumScore_bounds _ _ _ _ _ hs
      exact ⟨s, hs, by omega⟩
    obtain ⟨m, j, s, hres, hm, hsc, hmax⟩ :=
      pickLoop_best (mediumScore (fuel + 1) c b) rand 3 first rest i hsome
    refine ⟨m, j, s, ?_, hm, ?_, ?_⟩
    · intro k
      apply getMove_mono
      rw [getMove_medium_eq (fuel + 1) rand i c b first rest hgen1, hres]
      rfl
    · rw [← mediumScore_eq_greedyScore]; exact hsc
    · intro x hx
      obtain ⟨sx, hsx, _⟩ := hsome x hx
      exact ⟨sx, by rw [← mediumScore_eq_greedyScore]; exact hsx, hmax x hx sx hsx⟩

/-- C21, instance: White on the start position, 20 legal moves, the generator yielding
0, 1, 2, ... -/
theorem medium_plays_greedy_best_witness :
    ∃ (m : Move) (j : Nat) (s : Int),
      (∀ k, getMove (0 + 1 + k) (fun n => n) 0 AIDifficulty.MEDIUM PieceColor.WHITE
          Board.initial = some (Except.ok (m, j)))
        ∧ m ∈ openingMoves
        ∧ greedyScore (0 + 1) PieceColor.WHITE Board.initial m = some s
        ∧ ∀ x ∈ openingMoves,
            ∃ sx, greedyScore (0 + 1) PieceColor.WHITE Board.initial x = some sx ∧ sx ≤ s :=
  medium_plays_greedy_best 0 (fun n => n) 0 PieceColor.WHITE Board.initial openingMoves
    (Or.inl rfl) initial_legal.1 (by decide) initial_legal.2

theorem petrov_medium_returns (fuel : Nat) (rand : Nat → Nat) (i : Nat) (l : List Move)
    (hl : generateLegalMoves 0 PieceColor.WHITE petrov = some l)
    (hmk : ∀ m ∈ l, (petrov.makeMove m).1 = true) (hne : l ≠ []) :
    ∃ m j, getMove (fuel + 1) rand i AIDifficulty.MEDIUM PieceColor.WHITE petrov
        = some (Except.ok (m, j)) ∧ m ∈ l := by
  have hgen := generateLegalMoves_const _ _ l hl fuel
  have hgen1 := generateLegalMoves_const _ _ l hl (fuel + 1)
  cases l with
  | nil => exact absurd rfl hne
  | cons first rest =>
    obtain ⟨m, j, h⟩ := pickLoop_returns (mediumScore (fuel + 1) PieceColor.WHITE petrov) rand 3
      (first :: rest) first (-2147483648) i
      (fun x hx => mediumScore_isSome fuel PieceColor.WHITE (Or.inl rfl) petrov _ hgen x hx
        (hmk x hx))
    have hret : getMove (fuel + 1) rand i AIDifficulty.MEDIUM PieceColor.WHITE petrov
        = some (Except.ok (m, j)) := by
      rw [getMove_medium_eq (fuel + 1) rand i _ _ first rest hgen1, h]
      rfl
    exact ⟨m, j, hret, getMove_mem _ rand i _ _ _ _ hgen1 m j hret⟩

/-- C22 (code bug): a move that `getMove` returns is an element of the list
`generateLegalMoves` returned, for every difficulty and every value of `rand()`, and the EASY
player always returns one; but the HARD player does not return a move on every board with a
non-empty legal-move list.  After 1. e4 e5 2. Nf3 Nf6 the list of White is the same non-empty
list for every fuel, the MEDIUM player returns one of its elements, and the HARD player never
returns. -/
theorem getMove_hard_returns_no_move :
    (∀ (fuel : Nat) (rand : Nat → Nat) (i : Nat) (d : AIDifficulty) (c : PieceColor) (b : Board)
        (l : List Move) (m : Move) (j : Nat), generateLegalMoves fuel c b = some l →
        getMove fuel rand i d c b = some (Except.ok (m, j)) → m ∈ l)
    ∧ (∀ (fuel : Nat) (rand : Nat → Nat) (i : Nat) (c : PieceColor) (b : Board)
        (l : List Move), generateLegalMoves fuel c b = some l → l ≠ [] →
        ∃ m, getMove fuel rand i AIDifficulty.EASY c b = some (Except.ok (m, i + 1)) ∧ m ∈ l)
    ∧ (∃ l : List Move, l ≠ []
        ∧ (∀ fuel, generateLegalMoves fuel PieceColor.WHITE petrov = some l)
        ∧ (∀ (fuel : Nat) (rand : Nat → Nat) (i : Nat), ∃ m j,
            getMove (fuel + 1) rand i AIDifficulty.MEDIUM PieceColor.WHITE petrov
                = some (Except.ok (m, j)) ∧ m ∈ l)
        ∧ (∀ (fuel : Nat) (rand : Nat → Nat) (i : Nat),
            getMove fuel rand i AIDifficulty.HARD PieceColor.WHITE petrov = none)) := by
  refine ⟨?_, ?_, ?_⟩
  · intro fuel rand i d c b l m j hgen h
    exact getMove_mem fuel rand i d c b l hgen m j h
  · intro fuel rand i c b l hgen hne
    cases l with
    | nil => exact absurd rfl hne
    | cons first rest =>
      have h := getMove_easy_eq fuel rand i c b first rest hgen
      exact ⟨_, h, getMove_mem fuel rand i _ c b _ hgen _ _ h⟩
  · obtain ⟨l, hl, h⟩ := option_map_true _ _ petrov_legal_accepted
    rw [Bool.and_eq_true] at h
    have hmem : bishopC4 ∈ l := of_decide_eq_true h.1
    have hne : l ≠ [] := by
      intro e; rw [e] at hmem; simp at hmem
    have hmk : ∀ m ∈ l, (petrov.makeMove m).1 = true := List.all_eq_true.mp h.2
    exact ⟨l, hne, generateLegalMoves_const _ _ l hl,
      fun fuel rand i => petrov_medium_returns fuel rand i l hl hmk hne, petrov_hard_none⟩

end Chess
